import Mathlib

/-!
# hpptools: verification development

Shallow embeddings of `include/tpool.hpp` (a C++11 thread pool, namespace `tpool`
below), of `include/algorithm_extra.hpp` (namespace `algorithm_extra` below) and of
`include/logsum.hpp`, `include/logsumset.hpp`, `include/logdiff.hpp` (namespaces
`cmath`, `logsum`, `logdiff` below), and theorems about them.  The definitions of all
come first, the theorems after them.

## `include/tpool.hpp`

The pool is a labelled transition system.

The shared members of `class tpool` are the fields of `tpool.tpool`.  Every
critical section (a region executed while `_queue_mtx` is held) is one atomic
step.  A worker thread is represented by its program point inside
`tpool::worker`; the thread that calls `clear()`/`resize()` is represented by
its program point inside those methods (`tpool.Ctrl`).  Every step returns,
besides the new state, the list of observable events it performed.

A schedule is a list of `tpool.Action`s: which thread moves next.  A worker
blocked on `_work_cv` may be scheduled at any time (wake-ups may be spurious),
it then re-tests its loop condition; the calls `add_job` and `wait_jobs` may
come from any thread at any time; `clear()` and `resize()` are called by one
thread, the owner of the pool.
-/

set_option linter.dupNamespace false

namespace tpool

/-! ## Data model -/

/-- Number of values of the C++ type `unsigned` (32 bits). -/
def UINT_RANGE : Nat := 2 ^ 32

/-- The C++ type `std::function< void(unsigned) >`: called with the thread id, a job
either returns or lets an exception of type `ε` escape. -/
abbrev Job (ε : Type) : Type := Nat → Except ε Unit

/-- Program point of one worker thread inside `tpool::worker(i)` (lines 116-144). -/
inductive Worker (ε : Type) : Type
  /-- At the head of the `while (true)` loop (line 120): freshly spawned, or back from
  a job; about to lock the mutex and execute `++_n_idle`. -/
  | top : Worker ε
  /-- Blocked in `_work_cv.wait(l)` (line 129), mutex released. -/
  | waiting : Worker ε
  /-- Left the critical section holding the dequeued `job` (lines 137-141); the call
  `job(i)` of line 142 has not returned yet. -/
  | running (job : Job ε) : Worker ε
  /-- Executed `return` (line 135): the thread has finished. -/
  | exited : Worker ε
  /-- An exception `e` escaped from `job(i)` (line 142) and left `worker`. -/
  | faulted (e : ε) : Worker ε

/-- The data members of `class tpool` (lines 147-153).  The mutex and the two condition
variables carry no data; their use shows in the atomicity of the steps and in
the `notify` events. -/
structure tpool (ε : Type) : Type where
  /-- The member `std::queue< std::function< void(unsigned) > > _jobs`, head first. -/
  _jobs : List (Job ε)
  /-- The member `std::vector< std::thread > _threads`; entry `i` runs `worker(i)`. -/
  _threads : List (Worker ε)
  /-- The member `unsigned _n_idle`. -/
  _n_idle : Nat
  /-- The member `bool _shutdown`. -/
  _shutdown : Bool

/-- Observable actions performed by the code. -/
inductive Event (ε : Type) : Type
  /-- The call `job(i)` (lines 96 and 142). -/
  | invoke (job : Job ε) (i : Nat) : Event ε
  /-- The call `_jobs.emplace(std::move(job))` (line 90). -/
  | emplace (job : Job ε) : Event ε
  /-- Worker `i` executed `job = std::move(_jobs.front()); _jobs.pop()` (lines 137-138). -/
  | pop (i : Nat) (job : Job ε) : Event ε
  /-- The call `_work_cv.notify_one()` (line 91). -/
  | notify_work_one : Event ε
  /-- The call `_work_cv.notify_all()` (line 43). -/
  | notify_work_all : Event ε
  /-- The call `_wait_cv.notify_all()` (line 128). -/
  | notify_wait_all : Event ε
  /-- The call `thread.join()` on entry `i` of `_threads` returned (line 48). -/
  | join (i : Nat) : Event ε
  /-- The call `_threads.emplace_back(std::bind(&tpool::worker, this, i))` (line 75). -/
  | spawn (i : Nat) : Event ε

/-- Result of a call that may let a job exception through. -/
structure Result (ε : Type) : Type where
  /-- Pool state when the call is left. -/
  pool : tpool ε
  /-- Events performed by the call, in order. -/
  events : List (Event ε)
  /-- The exception that left the call, if any. -/
  fault : Option ε

/-- Program point of the thread that owns the pool, inside `clear()` / `resize()`. -/
inductive Ctrl : Type
  /-- Not inside `clear()` or `resize()`. -/
  | ready : Ctrl
  /-- Inside `clear()` at the loop of lines 46-49, entries `0 .. i-1` of `_threads`
  joined.  `ret = some n` when `clear()` was called from `resize(n)` (line 62). -/
  | joining (i : Nat) (ret : Option Nat) : Ctrl
  /-- Inside `resize(n)` at line 64. -/
  | creating (n : Nat) : Ctrl
  /-- Inside `resize(n)` at the loop test of line 73 with loop variable `i`. -/
  | spawning (i n : Nat) : Ctrl
  deriving DecidableEq

/-- Program point of a thread inside `wait_jobs()`. -/
inductive WaitPc : Type
  /-- About to call `wait_jobs()`. -/
  | entry : WaitPc
  /-- Blocked in `_wait_cv.wait(l)` (line 109). -/
  | blocked : WaitPc
  /-- The call `wait_jobs()` has returned. -/
  | returned : WaitPc
  deriving DecidableEq

/-! ## Operations -/

/-- The statement `++_n_idle` on an `unsigned`. -/
def incr (x : Nat) : Nat := (x + 1) % UINT_RANGE

/-- The statement `--_n_idle` on an `unsigned`. -/
def decr (x : Nat) : Nat := (x + UINT_RANGE - 1) % UINT_RANGE

/-- Line 80: `unsigned size() const { return _threads.size(); }`. -/
def size {ε : Type} (s : tpool ε) : Nat := s._threads.length % UINT_RANGE

/-- Lines 84-98, `add_job(job)`.  The test `size() > 0` and the critical section that
follows it are one step; with no worker the job is called in the calling thread. -/
def add_job {ε : Type} (s : tpool ε) (job : Job ε) : Result ε :=
  if size s > 0 then
    { pool := { s with _jobs := s._jobs ++ [job] }
      events := [Event.emplace job, Event.notify_work_one]
      fault := none }
  else
    match job 0 with
    | Except.ok _ => { pool := s, events := [Event.invoke job 0], fault := none }
    | Except.error e => { pool := s, events := [Event.invoke job 0], fault := some e }

/-- Line 107: the condition `_jobs.empty() and _n_idle == _threads.size()` under which
the loop of `wait_jobs()` is left. -/
def wait_exit {ε : Type} (s : tpool ε) : Bool :=
  s._jobs.isEmpty && (s._n_idle == s._threads.length)

/-- Lines 101-113, `wait_jobs()`: one scheduling of the calling thread, at the call
(`entry`) or at a wake-up from `_wait_cv.wait(l)` (`blocked`). -/
def wait_jobs {ε : Type} (s : tpool ε) : WaitPc → tpool ε × WaitPc
  | WaitPc.entry =>
    if size s > 0 then
      if !(wait_exit s) then (s, WaitPc.blocked) else (s, WaitPc.returned)
    else (s, WaitPc.returned)
  | WaitPc.blocked =>
    if !(wait_exit s) then (s, WaitPc.blocked) else (s, WaitPc.returned)
  | WaitPc.returned => (s, WaitPc.returned)

/-- Lines 126-140 of `worker(i)`: the rest of the critical section, entered after
`++_n_idle` or at a wake-up from `_work_cv.wait(l)`. -/
def worker_locked {ε : Type} (s : tpool ε) (i : Nat) : tpool ε × List (Event ε) :=
  if !s._shutdown && s._jobs.isEmpty then
    ({ s with _threads := s._threads.set i Worker.waiting }, [Event.notify_wait_all])
  else
    match s._jobs with
    | [] => ({ s with _threads := s._threads.set i Worker.exited }, [])
    | job :: rest =>
      ({ s with _jobs := rest
                _n_idle := decr s._n_idle
                _threads := s._threads.set i (Worker.running job) },
       [Event.pop i job])

/-- Lines 116-144, `worker(i)`: the next step of worker thread `i`, `none` when entry
`i` does not exist or the thread has finished. -/
def worker {ε : Type} (s : tpool ε) (i : Nat) : Option (tpool ε × List (Event ε)) :=
  match s._threads[i]? with
  | some Worker.top => some (worker_locked { s with _n_idle := incr s._n_idle } i)
  | some Worker.waiting => some (worker_locked s i)
  | some (Worker.running job) =>
    match job i with
    | Except.ok _ =>
      some ({ s with _threads := s._threads.set i Worker.top }, [Event.invoke job i])
    | Except.error e =>
      some ({ s with _threads := s._threads.set i (Worker.faulted e) }, [Event.invoke job i])
  | some Worker.exited => none
  | some (Worker.faulted _) => none
  | none => none

/-- Lines 41-43 of `clear()`: under the mutex, `_shutdown = true; _work_cv.notify_all()`. -/
def clear_lock {ε : Type} (s : tpool ε) : tpool ε × List (Event ε) :=
  ({ s with _shutdown := true }, [Event.notify_work_all])

/-- Lines 46-50 of `clear()`: with `i` entries joined, either join entry `i` (possible
only once that thread has executed `return`; `none` while `join()` blocks, which is
for ever when an exception left the thread) or, past the last entry, execute
`_threads.clear()` and return to the caller `ret`. -/
def clear_join {ε : Type} (s : tpool ε) (i : Nat) (ret : Option Nat) :
    Option (tpool ε × Ctrl × List (Event ε)) :=
  if i < s._threads.length then
    match s._threads[i]? with
    | some Worker.exited => some (s, Ctrl.joining (i + 1) ret, [Event.join i])
    | _ => none
  else
    match ret with
    | none => some ({ s with _threads := [] }, Ctrl.ready, [])
    | some n => some ({ s with _threads := [] }, Ctrl.creating n, [])

/-- Lines 56-63 of `resize(num_threads)`. -/
def resize_enter {ε : Type} (s : tpool ε) (num_threads : Nat) :
    tpool ε × Ctrl × List (Event ε) :=
  if num_threads = size s then (s, Ctrl.ready, [])
  else if size s > 0 then
    ((clear_lock s).1, Ctrl.joining 0 (some num_threads), (clear_lock s).2)
  else (s, Ctrl.creating num_threads, [])

/-- Lines 64-72 of `resize(num_threads)`. -/
def resize_create {ε : Type} (s : tpool ε) (num_threads : Nat) : tpool ε × Ctrl :=
  if num_threads = 0 then (s, Ctrl.ready)
  else ({ s with _n_idle := 0, _shutdown := false }, Ctrl.spawning 0 num_threads)

/-- Lines 73-76 of `resize(num_threads)`: the loop test and one iteration. -/
def resize_spawn {ε : Type} (s : tpool ε) (i num_threads : Nat) :
    tpool ε × Ctrl × List (Event ε) :=
  if i < num_threads then
    ({ s with _threads := s._threads ++ [Worker.top] },
     Ctrl.spawning (i + 1) num_threads, [Event.spawn i])
  else (s, Ctrl.ready, [])

/-! ## The transition system -/

/-- A pool together with the program point of its owner. -/
structure Config (ε : Type) : Type where
  /-- The shared members. -/
  pool : tpool ε
  /-- Where the owner is inside `clear()` / `resize()`. -/
  ctrl : Ctrl

/-- Members before the constructor body runs: `_jobs` and `_threads` are
default-constructed (empty), `_n_idle` and `_shutdown` have no initialiser. -/
def uninit (ε : Type) (n_idle : Nat) (shutdown : Bool) : Config ε :=
  { pool := { _jobs := [], _threads := [], _n_idle := n_idle, _shutdown := shutdown }
    ctrl := Ctrl.ready }

/-- One scheduling decision. -/
inductive Action (ε : Type) : Type
  /-- Some thread calls `add_job(job)`. -/
  | add_job (job : Job ε) : Action ε
  /-- Some thread at program point `pc` of `wait_jobs()` is scheduled. -/
  | wait_jobs (pc : WaitPc) : Action ε
  /-- Worker thread `i` is scheduled. -/
  | worker (i : Nat) : Action ε
  /-- The owner calls `clear()` (also the destructor, line 34). -/
  | clear : Action ε
  /-- The owner calls `resize(num_threads)` (also the constructor, line 31). -/
  | resize (num_threads : Nat) : Action ε
  /-- The owner, inside `clear()` / `resize()`, is scheduled. -/
  | ctrl : Action ε

/-- One step of the system; `none` when the action is not enabled: a worker that does
not exist or has finished, a `join()` that blocks, an owner that is asked to start a
call while inside one or to continue outside one, an argument of `resize` that is
no `unsigned`. -/
def step {ε : Type} (c : Config ε) : Action ε → Option (Config ε × List (Event ε))
  | Action.add_job job =>
    some ({ pool := (add_job c.pool job).pool, ctrl := c.ctrl }, (add_job c.pool job).events)
  | Action.wait_jobs pc =>
    some ({ pool := (wait_jobs c.pool pc).1, ctrl := c.ctrl }, [])
  | Action.worker i =>
    match worker c.pool i with
    | some r => some ({ pool := r.1, ctrl := c.ctrl }, r.2)
    | none => none
  | Action.clear =>
    match c.ctrl with
    | Ctrl.ready =>
      some ({ pool := (clear_lock c.pool).1, ctrl := Ctrl.joining 0 none }, (clear_lock c.pool).2)
    | _ => none
  | Action.resize n =>
    match c.ctrl with
    | Ctrl.ready =>
      if n < UINT_RANGE then
        some ({ pool := (resize_enter c.pool n).1, ctrl := (resize_enter c.pool n).2.1 },
              (resize_enter c.pool n).2.2)
      else none
    | _ => none
  | Action.ctrl =>
    match c.ctrl with
    | Ctrl.ready => none
    | Ctrl.joining i ret =>
      match clear_join c.pool i ret with
      | some r => some ({ pool := r.1, ctrl := r.2.1 }, r.2.2)
      | none => none
    | Ctrl.creating n =>
      some ({ pool := (resize_create c.pool n).1, ctrl := (resize_create c.pool n).2 }, [])
    | Ctrl.spawning i n =>
      some ({ pool := (resize_spawn c.pool i n).1, ctrl := (resize_spawn c.pool i n).2.1 },
            (resize_spawn c.pool i n).2.2)

/-- Run a schedule from `c`, appending the events to `tr`; `none` when some action of
the schedule is not enabled. -/
def run {ε : Type} (c : Config ε) (tr : List (Event ε)) :
    List (Action ε) → Option (Config ε × List (Event ε))
  | [] => some (c, tr)
  | a :: rest =>
    match step c a with
    | some r => run r.1 (tr ++ r.2) rest
    | none => none

/-- Run a schedule from `c` with an empty event trace. -/
def exec {ε : Type} (c : Config ε) (acts : List (Action ε)) :
    Option (Config ε × List (Event ε)) :=
  run c [] acts

/-! ## Projections of schedules, traces and thread vectors -/

/-- The jobs passed to `add_job`, in order of the calls. -/
def submitted {ε : Type} : List (Action ε) → List (Job ε)
  | [] => []
  | Action.add_job job :: rest => job :: submitted rest
  | _ :: rest => submitted rest

/-- The jobs called (`job(i)`), in order of the calls. -/
def invoked {ε : Type} : List (Event ε) → List (Job ε)
  | [] => []
  | Event.invoke job _ :: rest => job :: invoked rest
  | _ :: rest => invoked rest

/-- The jobs removed from the queue by workers, in order of removal. -/
def popped {ε : Type} : List (Event ε) → List (Job ε)
  | [] => []
  | Event.pop _ job :: rest => job :: popped rest
  | _ :: rest => popped rest

/-- The indices the spawned workers were bound to, in order of spawning. -/
def spawned {ε : Type} : List (Event ε) → List Nat
  | [] => []
  | Event.spawn i :: rest => i :: spawned rest
  | _ :: rest => spawned rest

/-- The entries of `_threads` joined, in order of joining. -/
def joined {ε : Type} : List (Event ε) → List Nat
  | [] => []
  | Event.join i :: rest => i :: joined rest
  | _ :: rest => joined rest

/-- The job a worker holds between dequeuing it and the return of `job(i)`. -/
def Worker.held {ε : Type} : Worker ε → Option (Job ε)
  | Worker.running job => some job
  | _ => none

/-- The jobs dequeued by the workers and not yet completed. -/
def in_flight {ε : Type} (ws : List (Worker ε)) : List (Job ε) :=
  ws.filterMap Worker.held

/-- Whether the worker is counted in `_n_idle`: it executed `++_n_idle` (line 125) and
has not executed `--_n_idle` (line 139) since. -/
def Worker.counted {ε : Type} : Worker ε → Bool
  | Worker.waiting => true
  | Worker.exited => true
  | _ => false

/-- Number of workers counted in `_n_idle`. -/
def counted_idle {ε : Type} (ws : List (Worker ε)) : Nat :=
  ws.countP Worker.counted

/-- Actions of the users of the pool and of its workers: everything except the owner
calling or continuing `clear()` / `resize()`. -/
def Action.is_use {ε : Type} : Action ε → Bool
  | Action.add_job _ => true
  | Action.wait_jobs _ => true
  | Action.worker _ => true
  | _ => false

/-- Actions that start no call of `add_job`, `clear` or `resize`: worker steps, the
owner continuing inside `clear()` / `resize()`, and `wait_jobs`. -/
def Action.is_internal {ε : Type} : Action ε → Bool
  | Action.worker _ => true
  | Action.ctrl => true
  | Action.wait_jobs _ => true
  | _ => false

/-- Actions by which the owner starts a call of `clear()` or `resize()`. -/
def Action.is_owner_call {ε : Type} : Action ε → Bool
  | Action.clear => true
  | Action.resize _ => true
  | _ => false

/-! ## Invariants of the reachable states -/

/-- What holds of the members at each program point of the owner. -/
def Ctrl.Inv {ε : Type} (s : tpool ε) : Ctrl → Prop
  | Ctrl.ready => s._threads ≠ [] → s._shutdown = false
  | Ctrl.joining i ret =>
    i ≤ s._threads.length ∧ (∀ k, k < i → s._threads[k]? = some Worker.exited) ∧
    s._shutdown = true ∧ ∀ n, ret = some n → n < UINT_RANGE
  | Ctrl.creating n => s._threads = [] ∧ n < UINT_RANGE
  | Ctrl.spawning i n =>
    s._threads.length = i ∧ i ≤ n ∧ n < UINT_RANGE ∧
    s._n_idle = counted_idle s._threads ∧ s._shutdown = false

/-- The invariant of the transition system: the thread vector fits an `unsigned`,
`_n_idle` counts the workers between `++_n_idle` and `--_n_idle` whenever there are
workers, and no worker has returned unless `_shutdown` is set. -/
def Config.Inv {ε : Type} (c : Config ε) : Prop :=
  c.pool._threads.length < UINT_RANGE ∧
  (c.pool._threads ≠ [] → c.pool._n_idle = counted_idle c.pool._threads) ∧
  (c.pool._shutdown = false → ∀ w ∈ c.pool._threads, w ≠ Worker.exited) ∧
  Ctrl.Inv c.pool c.ctrl

/-- Progress of a teardown of `m` workers in which no `add_job` is called: while the
owner joins, the joins so far are `0 .. i-1` and the queue is empty as soon as one
worker has returned; afterwards the queue is empty, no worker holds a job, and all `m`
workers were joined. -/
def Drained {ε : Type} (m : Nat) (c : Config ε) (tr : List (Event ε)) : Prop :=
  match c.ctrl with
  | Ctrl.joining i _ =>
    c.pool._threads.length = m ∧ joined tr = List.range i ∧
    ((c.pool._threads = [] ∨ Worker.exited ∈ c.pool._threads) → c.pool._jobs = [])
  | _ => c.pool._jobs = [] ∧ in_flight c.pool._threads = [] ∧ joined tr = List.range m

/-- The owner has no join left to do: it is not inside the loop of lines 46-49 of
`clear()`, or it is there with every entry of `_threads` joined. -/
def Config.past_joins {ε : Type} (c : Config ε) : Bool :=
  match c.ctrl with
  | Ctrl.joining i _ => decide (c.pool._threads.length ≤ i)
  | _ => true

/-- The job returns (lets no exception escape) whatever thread id it is called with. -/
def Job.returns {ε : Type} (job : Job ε) : Prop :=
  ∀ i, ∃ u, job i = Except.ok u

/-- Some schedule of worker steps and owner steps (no new call of a method of the
pool) leads from `c` to `d`. -/
def Reaches {ε : Type} (c d : Config ε) : Prop :=
  ∃ acts : List (Action ε), (∀ a ∈ acts, Action.is_internal a = true) ∧
    ∀ tr, ∃ tr1, run c tr acts = some (d, tr1)

/-- Progress of a call `resize(0)`: the owner is in the `clear()` called from it, or at
line 64 with `num_threads == 0`, or back outside with no worker left. -/
def Emptying {ε : Type} (c : Config ε) : Prop :=
  match c.ctrl with
  | Ctrl.joining _ ret => ret = some 0
  | Ctrl.creating k => k = 0
  | Ctrl.spawning _ _ => False
  | Ctrl.ready => c.pool._threads = []

/-- Progress of a call `clear()`: the owner is joining, or back outside with no worker
left; `_shutdown` is set all along. -/
def Clearing {ε : Type} (c : Config ε) : Prop :=
  match c.ctrl with
  | Ctrl.joining _ ret => ret = none ∧ c.pool._shutdown = true
  | Ctrl.ready => c.pool._threads = [] ∧ c.pool._shutdown = true
  | _ => False

/-- The conversion of an `int` argument to the parameter type `unsigned` at a call of
the constructor or of `resize` (lines 31 and 54). -/
def to_unsigned (z : Int) : Nat := (z % (UINT_RANGE : Int)).toNat

/-- Whether the worker is at the head of its loop (line 120) and has not executed
`++_n_idle` (line 125) for this round: freshly spawned, or back from a job. -/
def Worker.is_top {ε : Type} : Worker ε → Bool
  | Worker.top => true
  | _ => false

/-- Whether an exception of a job has left the worker thread. -/
def Worker.is_faulted {ε : Type} : Worker ε → Bool
  | Worker.faulted _ => true
  | _ => false

/-- Number of workers that have not yet entered the idle step (line 125). -/
def not_yet_idle {ε : Type} (ws : List (Worker ε)) : Nat :=
  ws.countP Worker.is_top

/-- Number of workers terminated by the exception of a job. -/
def faulted_count {ε : Type} (ws : List (Worker ε)) : Nat :=
  ws.countP Worker.is_faulted

/-- The owner is inside the loop of lines 73-76 of `resize`. -/
def Ctrl.is_spawning : Ctrl → Bool
  | Ctrl.spawning _ _ => true
  | _ => false

/-- The steps of a worker thread, case by case: the program point before and after,
the queue, `_n_idle` and the events after the step. -/
inductive WStep {ε : Type} (s : tpool ε) (i : Nat) :
    Worker ε → Worker ε → List (Job ε) → Nat → List (Event ε) → Prop
  | top_wait : s._shutdown = false → s._jobs = [] →
      WStep s i Worker.top Worker.waiting [] (incr s._n_idle) [Event.notify_wait_all]
  | top_exit : s._shutdown = true → s._jobs = [] →
      WStep s i Worker.top Worker.exited [] (incr s._n_idle) []
  | top_pop (job : Job ε) (rest : List (Job ε)) : s._jobs = job :: rest →
      WStep s i Worker.top (Worker.running job) rest (decr (incr s._n_idle)) [Event.pop i job]
  | wake_wait : s._shutdown = false → s._jobs = [] →
      WStep s i Worker.waiting Worker.waiting [] s._n_idle [Event.notify_wait_all]
  | wake_exit : s._shutdown = true → s._jobs = [] →
      WStep s i Worker.waiting Worker.exited [] s._n_idle []
  | wake_pop (job : Job ε) (rest : List (Job ε)) : s._jobs = job :: rest →
      WStep s i Worker.waiting (Worker.running job) rest (decr s._n_idle) [Event.pop i job]
  | job_ok (job : Job ε) : job i = Except.ok () →
      WStep s i (Worker.running job) Worker.top s._jobs s._n_idle [Event.invoke job i]
  | job_fault (job : Job ε) (e : ε) : job i = Except.error e →
      WStep s i (Worker.running job) (Worker.faulted e) s._jobs s._n_idle [Event.invoke job i]

end tpool

/-!
# `include/algorithm_extra.hpp`

A range `[first, last)` is the list of its elements; an iterator into it is a
position `0 .. length`, `last` being the position `length`.  Inside the loops an
iterator is carried together with the element it points to.  The key function `f`
is pure; `<` and `!=` are the operators of the key type.
-/

namespace algorithm_extra

/-- The loop of lines 157-163 of `min_of`: `it` is the position of the next element,
`m` the iterator `min_it` with the element `*min_it`. -/
def min_of_loop {α κ : Type} [LT κ] [DecidableRel (fun a b : κ => a < b)] (f : α → κ) :
    List α → Nat → Nat × α → Nat × α
  | [], _, m => m
  | x :: rest, it, m =>
    if f x < f m.2 then min_of_loop f rest (it + 1) (it, x)
    else min_of_loop f rest (it + 1) m

/-- Lines 152-165, `min_of(first, last, f)`: the position returned (`last`, which is
`0`, for an empty range). -/
def min_of {α κ : Type} [LT κ] [DecidableRel (fun a b : κ => a < b)] (l : List α)
    (f : α → κ) : Nat :=
  match l with
  | [] => 0
  | x :: rest => (min_of_loop f rest 1 (0, x)).1

/-- Lines 193-200, `min_value_of(first, last, f)`; `default` is the value-initialised
key `T()`. -/
def min_value_of {α κ : Type} [LT κ] [DecidableRel (fun a b : κ => a < b)] [Inhabited κ]
    (l : List α) (f : α → κ) : κ :=
  if min_of l f ≠ l.length then
    match l[min_of l f]? with
    | some x => f x
    | none => default
  else default

/-- The loop of lines 232-238 of `max_of`. -/
def max_of_loop {α κ : Type} [LT κ] [DecidableRel (fun a b : κ => a < b)] (f : α → κ) :
    List α → Nat → Nat × α → Nat × α
  | [], _, m => m
  | x :: rest, it, m =>
    if f m.2 < f x then max_of_loop f rest (it + 1) (it, x)
    else max_of_loop f rest (it + 1) m

/-- Lines 227-240, `max_of(first, last, f)`. -/
def max_of {α κ : Type} [LT κ] [DecidableRel (fun a b : κ => a < b)] (l : List α)
    (f : α → κ) : Nat :=
  match l with
  | [] => 0
  | x :: rest => (max_of_loop f rest 1 (0, x)).1

/-- Lines 268-275, `max_value_of(first, last, f)`. -/
def max_value_of {α κ : Type} [LT κ] [DecidableRel (fun a b : κ => a < b)] [Inhabited κ]
    (l : List α) (f : α → κ) : κ :=
  if max_of l f ≠ l.length then
    match l[max_of l f]? with
    | some x => f x
    | none => default
  else default

/-- The loop of lines 308-318 of `minmax_of`: both tests on every element. -/
def minmax_of_loop {α κ : Type} [LT κ] [DecidableRel (fun a b : κ => a < b)] (f : α → κ) :
    List α → Nat → (Nat × α) × (Nat × α) → (Nat × α) × (Nat × α)
  | [], _, s => s
  | x :: rest, it, s =>
    minmax_of_loop f rest (it + 1)
      (if f x < f s.1.2 then (it, x) else s.1, if f s.2.2 < f x then (it, x) else s.2)

/-- Lines 302-320, `minmax_of(first, last, f)`. -/
def minmax_of {α κ : Type} [LT κ] [DecidableRel (fun a b : κ => a < b)] (l : List α)
    (f : α → κ) : Nat × Nat :=
  match l with
  | [] => (0, 0)
  | x :: rest =>
    ((minmax_of_loop f rest 1 ((0, x), (0, x))).1.1,
     (minmax_of_loop f rest 1 ((0, x), (0, x))).2.1)

/-- Lines 349-357, `minmax_value_of(first, last, f)`. -/
def minmax_value_of {α κ : Type} [LT κ] [DecidableRel (fun a b : κ => a < b)]
    [Inhabited κ] (l : List α) (f : α → κ) : κ × κ :=
  if (minmax_of l f).1 ≠ l.length then
    match l[(minmax_of l f).1]?, l[(minmax_of l f).2]? with
    | some x, some y => (f x, f y)
    | _, _ => (default, default)
  else (default, default)

/-- The loop of lines 427-433 of `equal_of`: every further element against `*first`. -/
def equal_of_loop {α κ : Type} [DecidableEq κ] (f : α → κ) (x0 : α) : List α → Bool
  | [] => true
  | y :: rest => if f y ≠ f x0 then false else equal_of_loop f x0 rest

/-- Lines 423-435, `equal_of(first, last, f)`. -/
def equal_of {α κ : Type} [DecidableEq κ] (l : List α) (f : α → κ) : Bool :=
  match l with
  | [] => true
  | x :: rest => equal_of_loop f x rest

/-! ### `for_each_advance`, `for_each_it`, `for_each_it_advance`

For these loops the function applied may change the container, so a container is
modelled with the identity of its nodes: an iterator holds the identity of a node and
stays valid as long as that node is in the container, as for `std::list`.  The function
`fn` acts on a program state `st`, of which `nodes st` is the container; it returns
`none` when its behaviour is undefined.  The loops take a bound on the number of
iterations (`none` when it is exceeded). -/

/-- A container: its nodes in order, each with its identity and its element. -/
abbrev Nodes (α : Type) : Type := List (Nat × α)

/-- An iterator: the identity of the node pointed to, `none` past the end. -/
abbrev Iter : Type := Option Nat

/-- The call `l.begin()`; `l.end()` is `none`. -/
def list_begin {α : Type} : Nodes α → Iter
  | [] => none
  | n :: _ => some n.1

/-- The iterator after `++it` for an iterator `it` to node `a`; `none` (undefined) when
`a` is no node of the container. -/
def list_next {α : Type} : Nodes α → Nat → Option Iter
  | [], _ => none
  | n :: rest, a => if n.1 = a then some (list_begin rest) else list_next rest a

/-- The element `*it` for an iterator `it` to node `a`; `none` (undefined) when `a` is
no node of the container. -/
def list_deref {α : Type} : Nodes α → Nat → Option α
  | [], _ => none
  | n :: rest, a => if n.1 = a then some n.2 else list_deref rest a

/-- The call `l.erase(it)` for an iterator `it` to node `a`. -/
def list_erase {α : Type} (l : Nodes α) (a : Nat) : Nodes α :=
  l.filter (fun n => n.1 ≠ a)

/-- Lines 41-49, `for_each_advance(first, last, fn)`: `fn(*(first++))` advances the
iterator, then applies `fn` to the element the old iterator points to. -/
def for_each_advance {α σ : Type} (nodes : σ → Nodes α) (fn : α → σ → Option σ)
    (last : Iter) : Nat → Iter → σ → Option σ
  | 0, _, _ => none
  | fuel + 1, first, st =>
    if first = last then some st
    else
      match first with
      | none => none
      | some a =>
        match list_next (nodes st) a, list_deref (nodes st) a with
        | some nxt, some v =>
          match fn v st with
          | some st1 => for_each_advance nodes fn last fuel nxt st1
          | none => none
        | _, _ => none

/-- Lines 62-66, `for_each_advance(rg, fn)`. -/
def for_each_advance_range {α σ : Type} (nodes : σ → Nodes α) (fn : α → σ → Option σ)
    (fuel : Nat) (st : σ) : Option σ :=
  for_each_advance nodes fn none fuel (list_begin (nodes st)) st

/-- Lines 78-87, `for_each_it(first, last, fn)`: `fn(first); ++first;`. -/
def for_each_it {α σ : Type} (nodes : σ → Nodes α) (fn : Iter → σ → Option σ)
    (last : Iter) : Nat → Iter → σ → Option σ
  | 0, _, _ => none
  | fuel + 1, first, st =>
    if first = last then some st
    else
      match first with
      | none => none
      | some a =>
        match fn (some a) st with
        | some st1 =>
          match list_next (nodes st1) a with
          | some nxt => for_each_it nodes fn last fuel nxt st1
          | none => none
        | none => none

/-- Lines 99-103, `for_each_it(rg, fn)`. -/
def for_each_it_range {α σ : Type} (nodes : σ → Nodes α) (fn : Iter → σ → Option σ)
    (fuel : Nat) (st : σ) : Option σ :=
  for_each_it nodes fn none fuel (list_begin (nodes st)) st

/-- Lines 116-124, `for_each_it_advance(first, last, fn)`: `fn(first++)` advances the
iterator, then applies `fn` to the old iterator. -/
def for_each_it_advance {α σ : Type} (nodes : σ → Nodes α) (fn : Iter → σ → Option σ)
    (last : Iter) : Nat → Iter → σ → Option σ
  | 0, _, _ => none
  | fuel + 1, first, st =>
    if first = last then some st
    else
      match first with
      | none => none
      | some a =>
        match list_next (nodes st) a with
        | some nxt =>
          match fn (some a) st with
          | some st1 => for_each_it_advance nodes fn last fuel nxt st1
          | none => none
        | none => none

/-- Lines 137-141, `for_each_it_advance(rg, fn)`. -/
def for_each_it_advance_range {α σ : Type} (nodes : σ → Nodes α)
    (fn : Iter → σ → Option σ) (fuel : Nat) (st : σ) : Option σ :=
  for_each_it_advance nodes fn none fuel (list_begin (nodes st)) st

/-- The function `fn` with a record of the arguments it was applied to. -/
def logged {β σ : Type} (fn : β → σ → Option σ) (arg : β) (st : σ × List β) :
    Option (σ × List β) :=
  match fn arg st.1 with
  | some s => some (s, st.2 ++ [arg])
  | none => none

/-- Test, line 284: `fn = [&] (const int& v) { s += v; }`; the state is the container
and the sum `s`. -/
def add_element {α : Type} (v : Int) (st : Nodes α × Int) : Option (Nodes α × Int) :=
  some (st.1, st.2 + v)

/-- Test, lines 321 and 357: `fn = [&] (int_list_iterator it) { s += *it; }`. -/
def add_pointed (it : Iter) (st : Nodes Int × Int) : Option (Nodes Int × Int) :=
  match it with
  | none => none
  | some a =>
    match list_deref st.1 a with
    | some v => some (st.1, st.2 + v)
    | none => none

/-- Test, lines 373-376: `lbd = [&] (int_list_iterator it) { if (*it != x) return;
l.erase(it); }`; the state is the list `l`. -/
def erase_if_eq {α : Type} [DecidableEq α] (x : α) (it : Iter) (l : Nodes α) :
    Option (Nodes α) :=
  match it with
  | none => none
  | some a =>
    match list_deref l a with
    | some v => if v ≠ x then some l else some (list_erase l a)
    | none => none

/-- Test, lines 302-303: `it = l.begin(); while (*it != x and it != l.end()) ++it;`, the
node found; `none` (undefined) when the loop reaches `l.end()`, which it dereferences. -/
def find_eq {α : Type} [DecidableEq α] (x : α) : Nodes α → Option Nat
  | [] => none
  | n :: rest => if n.2 ≠ x then find_eq x rest else some n.1

/-- Test, lines 300-306: `lbd = [&] (const int& v) { if (v != x) return; ...;
l.erase(it); }` with `it` the first node whose element is `x`. -/
def erase_first_eq {α : Type} [DecidableEq α] (x : α) (v : α) (l : Nodes α) :
    Option (Nodes α) :=
  if v ≠ x then some l
  else
    match find_eq x l with
    | some a => some (list_erase l a)
    | none => none

/-! ### `mean_stdv_of`

`Float_Type` is modelled by a field `K` with exact arithmetic, `std::sqrt` by a
parameter `sqrt`; a division is `none` when its divisor is zero. -/

/-- Number of values of the C++ type `long unsigned` (64 bits). -/
def ULONG_RANGE : Nat := 2 ^ 64

/-- The division `x / d` of two values of `Float_Type`; `none` when `d` is zero. -/
def checked_div {K : Type} [Field K] [DecidableEq K] (x d : K) : Option K :=
  if d = 0 then none else some (x / d)

/-- The loop of lines 390-395 of `mean_stdv_of`: the sums `s`, `s2` and the count `n`. -/
def mean_stdv_of_loop {α K : Type} [Field K] (f : α → K) :
    List α → K × K × Nat → K × K × Nat
  | [], acc => acc
  | x :: rest, acc =>
    mean_stdv_of_loop f rest
      (acc.1 + f x, acc.2.1 + f x * f x, (acc.2.2 + 1) % ULONG_RANGE)

/-- Lines 384-399, `mean_stdv_of(it_begin, it_end, f)`; the range version (lines
409-412) passes `rg.begin()`, `rg.end()`. -/
def mean_stdv_of {α K : Type} [Field K] [DecidableEq K] (sqrt : K → K) (l : List α)
    (f : α → K) : Option (K × K) :=
  match mean_stdv_of_loop f l (0, 0, 0) with
  | (s, s2, n) =>
    match (if n > 0 then checked_div s (n : K) else some 0) with
    | none => none
    | some mean =>
      if n > 1 then
        match checked_div (s2 - s * mean * 2 + mean * mean * (n : K))
            (((n + ULONG_RANGE - 1) % ULONG_RANGE : Nat) : K) with
        | some v => some (mean, sqrt v)
        | none => none
      else some (mean, 0)

end algorithm_extra

/-!
# `include/logsum.hpp`, `include/logdiff.hpp`, `include/logsumset.hpp`

A value of type `float` or `double` is a NaN, an infinity, the negative zero or a
finite rational number; the comparisons `<`, `>`, `==` are those of IEEE 754 (false
whenever an operand is a NaN, the two zeros equal).  The operations that round
(`+`, `-`, `*`, `/`, `std::exp`, `std::log`, `std::round`, the conversions) are
parameters of the model, collected in `Arith`: what is proved holds for every choice
of them.  The function-local `static` variables are the fields of a state that the
functions take and return.
-/

namespace cmath

/-- A value of the types `float` and `double`. -/
inductive FP : Type
  /-- A NaN. -/
  | nan : FP
  /-- The value `-INFINITY`. -/
  | neg_inf : FP
  /-- The value `INFINITY`. -/
  | pos_inf : FP
  /-- The value `-0.0`. -/
  | neg_zero : FP
  /-- A finite value other than `-0.0`. -/
  | finite (q : ℚ) : FP
  deriving DecidableEq

/-- Place of a value in the order of the comparisons: `none` for a NaN, else the
class (`-1` for `-INFINITY`, `0` for finite values, `1` for `INFINITY`) and the number. -/
def FP.rank : FP → Option (Int × ℚ)
  | FP.nan => none
  | FP.neg_inf => some (-1, 0)
  | FP.pos_inf => some (1, 0)
  | FP.neg_zero => some (0, 0)
  | FP.finite q => some (0, q)

/-- The comparison `x < y`. -/
def FP.lt (x y : FP) : Bool :=
  match FP.rank x, FP.rank y with
  | some p, some q => decide (p.1 < q.1 ∨ (p.1 = q.1 ∧ p.2 < q.2))
  | _, _ => false

/-- The comparison `x > y`. -/
def FP.gt (x y : FP) : Bool := FP.lt y x

/-- The comparison `x == y`. -/
def FP.eq (x y : FP) : Bool :=
  match FP.rank x, FP.rank y with
  | some p, some q => decide (p = q)
  | _, _ => false

/-- The rounding operations of the floating-point arithmetic. -/
structure Arith : Type where
  /-- The sum `x + y` of two `float`s. -/
  fadd : FP → FP → FP
  /-- The difference `x - y` of two `float`s. -/
  fsub : FP → FP → FP
  /-- The product `x * y` of two `float`s. -/
  fmul : FP → FP → FP
  /-- The call `std::round(x)` on a `float`. -/
  round : FP → FP
  /-- The conversion of a `float` to `int`; any value where the conversion is not
  defined (the value is not in the range of `int`). -/
  to_int : FP → Int
  /-- The conversion of a `float` to `unsigned`. -/
  to_unsigned : FP → Nat
  /-- The conversion of an integer to `double`. -/
  of_int : Int → FP
  /-- The conversion of a `double` to `float`. -/
  to_float : FP → FP
  /-- The sum `x + y` of two `double`s. -/
  dadd : FP → FP → FP
  /-- The difference `x - y` of two `double`s. -/
  dsub : FP → FP → FP
  /-- The quotient `x / y` of two `double`s. -/
  ddiv : FP → FP → FP
  /-- The negation `-x` of a `double`. -/
  dneg : FP → FP
  /-- The call `std::exp(x)` on a `double`. -/
  exp : FP → FP
  /-- The call `std::log(x)` on a `double`. -/
  log : FP → FP

/-- An arithmetic for examples: every operation returns its first argument, the
conversions to integers return `0`. -/
def first_arg : Arith :=
  { fadd := fun x _ => x, fsub := fun x _ => x, fmul := fun x _ => x, round := fun x => x,
    to_int := fun _ => 0, to_unsigned := fun _ => 0, of_int := fun z => FP.finite z,
    to_float := fun x => x, dadd := fun x _ => x, dsub := fun x _ => x,
    ddiv := fun x _ => x, dneg := fun x => x, exp := fun x => x, log := fun x => x }

end cmath

namespace logsum

open cmath

/-- Line 75: `#define p7_LOGSUM_TBL 16000`. -/
def p7_LOGSUM_TBL : Nat := 16000

/-- Line 76: `#define p7_LOGSUM_SCALE 1000.f`. -/
def p7_LOGSUM_SCALE : FP := FP.finite 1000

/-- Line 80: `#define TRUE 1`. -/
def TRUE : Int := 1

/-- Line 81: `#define FALSE 0`. -/
def FALSE : Int := 0

/-- Line 82: `#define eslOK 1`. -/
def eslOK : Int := 1

/-- Line 77: `#define ESL_MAX(a,b) (((a)>(b))?(a):(b))`. -/
def ESL_MAX (a b : FP) : FP := if FP.gt a b then a else b

/-- Line 78: `#define ESL_MIN(a,b) (((a)<(b))?(a):(b))`. -/
def ESL_MIN (a b : FP) : FP := if FP.lt a b then a else b

/-- The function-local `static` variables of `p7_FLogsum_Helper`. -/
structure Statics : Type where
  /-- Line 116: `static int firsttime` of `p7_FLogsumInit`. -/
  firsttime : Int
  /-- Line 97: `static float _flogsum_lookup[p7_LOGSUM_TBL]` of `flogsum_lookup`. -/
  _flogsum_lookup : Fin p7_LOGSUM_TBL → FP
  /-- Line 145: whether `static Table_Initializer _init` of `p7_FLogsum` has been
  constructed. -/
  _init : Bool

/-- The variables at program start: `firsttime = TRUE`, the table zero-initialised,
`_init` not constructed. -/
def Statics.start : Statics :=
  { firsttime := TRUE, _flogsum_lookup := fun _ => FP.finite 0, _init := false }

/-- Line 123: the value `std::log(1. + std::exp((double) -i / p7_LOGSUM_SCALE))` stored
in the `float` entry `i`. -/
def lookup_entry (A : Arith) (i : Nat) : FP :=
  A.to_float (A.log (A.dadd (FP.finite 1)
    (A.exp (A.ddiv (A.of_int (-(i : Int))) p7_LOGSUM_SCALE))))

/-- Lines 121-124: the loop of `p7_FLogsumInit` from the value `i` of the loop
variable. -/
def p7_FLogsumInit_loop (A : Arith) (table : Fin p7_LOGSUM_TBL → FP) (i : Nat) :
    Fin p7_LOGSUM_TBL → FP :=
  if h : i < p7_LOGSUM_TBL then
    p7_FLogsumInit_loop A (Function.update table ⟨i, h⟩ (lookup_entry A i)) (i + 1)
  else table
termination_by p7_LOGSUM_TBL - i

/-- Lines 113-127, `p7_FLogsumInit()`: the value returned and the variables after. -/
def p7_FLogsumInit (A : Arith) (s : Statics) : Int × Statics :=
  if s.firsttime = 0 then (eslOK, s)
  else
    (eslOK, { s with firsttime := FALSE
                     _flogsum_lookup := p7_FLogsumInit_loop A s._flogsum_lookup 0 })

/-- Result of a call of `p7_FLogsum`. -/
structure Flogsum_result : Type where
  /-- The value returned; `none` when the table is read outside its bounds. -/
  value : Option FP
  /-- The indices at which the table is read. -/
  reads : List Int
  /-- The `static` variables after the call. -/
  statics : Statics

/-- Lines 145-146 of `p7_FLogsum`: the first call constructs `_init`, whose constructor
(lines 188-191) calls `p7_FLogsumInit()`. -/
def Table_Initializer (A : Arith) (s : Statics) : Statics :=
  if s._init then s
  else { (p7_FLogsumInit A s).2 with _init := true }

/-- The read `flogsum_lookup()[idx]`. -/
def table_read (s : Statics) (idx : Int) : Option FP :=
  if h : 0 ≤ idx ∧ idx.toNat < p7_LOGSUM_TBL then some (s._flogsum_lookup ⟨idx.toNat, h.2⟩)
  else none

/-- Lines 141-155, `p7_FLogsum(a, b)`. -/
def p7_FLogsum (A : Arith) (s : Statics) (a b : FP) : Flogsum_result :=
  let s1 := Table_Initializer A s
  let max := ESL_MAX a b
  let min := ESL_MIN a b
  let idx := A.to_int (A.round (A.fmul (A.fsub max min) p7_LOGSUM_SCALE))
  if FP.eq min FP.neg_inf || decide (idx ≥ (p7_LOGSUM_TBL : Int)) then
    { value := some max, reads := [], statics := s1 }
  else
    { value := (table_read s1 idx).map (fun t => A.fadd max t), reads := [idx],
      statics := s1 }

/-! ### `include/logsumset.hpp` -/

/-- The data members of `class logsumset` (lines 85-87). -/
structure logsumset : Type where
  /-- The member `std::multiset< Float_Type > _val_set`, in its order. -/
  _val_set : List FP
  /-- The member `Float_Type _val`. -/
  _val : FP
  /-- The member `bool _use_set`. -/
  _use_set : Bool
  deriving DecidableEq

/-- Line 24, the constructor `logsumset(use_set)`. -/
def logsumset.init (use_set : Bool) : logsumset :=
  { _val_set := [], _val := FP.neg_inf, _use_set := use_set }

/-- The call `_val_set.insert(v)`: `v` goes before the first element greater than it. -/
def multiset_insert (v : FP) : List FP → List FP
  | [] => [v]
  | x :: rest => if FP.lt v x then v :: x :: rest else x :: multiset_insert v rest

/-- Lines 44-54, `add(v)`, together with the `static` variables of `p7_FLogsum`; `none`
when `p7_FLogsum` reads the table outside its bounds. -/
def logsumset.add (A : Arith) (st : Statics × logsumset) (v : FP) :
    Option (Statics × logsumset) :=
  if st.2._use_set then
    some (st.1, { st.2 with _val_set := multiset_insert v st.2._val_set })
  else
    match (p7_FLogsum A st.1 st.2._val v).value with
    | some r => some ((p7_FLogsum A st.1 st.2._val v).statics, { st.2 with _val := r })
    | none => none

/-- Lines 30-33, the loop `while (it != it_end) { add(*it); }` of the constructor from
an iterator range: `it`, `it_end` are positions in `rg`, the body does not change `it`;
`none` when the bound on the number of iterations is exceeded. -/
def logsumset.range_loop (A : Arith) (rg : List FP) (it it_end : Nat) :
    Nat → Statics × logsumset → Option (Statics × logsumset)
  | 0, _ => none
  | fuel + 1, st =>
    if it ≠ it_end then
      match rg[it]? with
      | some v =>
        match logsumset.add A st v with
        | some st1 => logsumset.range_loop A rg it it_end fuel st1
        | none => none
      | none => none
    else some st

/-- Lines 26-34, the constructor `logsumset(it, it_end, use_set)`. -/
def logsumset.of_iterators (A : Arith) (g : Statics) (rg : List FP) (it it_end : Nat)
    (use_set : Bool) (fuel : Nat) : Option (Statics × logsumset) :=
  logsumset.range_loop A rg it it_end fuel (g, logsumset.init use_set)

/-- Lines 36-38, the constructor `logsumset(rg, use_set)`. -/
def logsumset.of_range (A : Arith) (g : Statics) (rg : List FP) (use_set : Bool)
    (fuel : Nat) : Option (Statics × logsumset) :=
  logsumset.of_iterators A g rg 0 rg.length use_set fuel

/-- What the constructor from a range is specified to build: the empty `logsumset` with
the flag `use_set`, then `add` once on each element of the range, in order. -/
def logsumset.spec_add_each (A : Arith) (g : Statics) (rg : List FP) (use_set : Bool) :
    Option (Statics × logsumset) :=
  rg.foldlM (logsumset.add A) (g, logsumset.init use_set)

end logsum

namespace logdiff

open cmath

/-- Line 23: `#define LOGDIFF_TBL 16000`. -/
def LOGDIFF_TBL : Nat := 16000

/-- Line 24: `#define LOGDIFF_SCALE 1000.0f`. -/
def LOGDIFF_SCALE : FP := FP.finite 1000

/-- The function-local `static` variables of `LogDiff_Helper`. -/
structure Statics : Type where
  /-- Line 59: `static bool first_time` of `init`. -/
  first_time : Bool
  /-- Line 41: `static float _table[LOGDIFF_TBL]` of `table`. -/
  _table : Fin LOGDIFF_TBL → FP
  /-- Line 96: whether `static Table_Initializer _init` of `logdiff_nocomp` has been
  constructed. -/
  _init : Bool

/-- The variables at program start. -/
def Statics.start : Statics :=
  { first_time := true, _table := fun _ => FP.finite 0, _init := false }

/-- Lines 68-70: the value `std::log(1.0 - std::exp(-((double) i / LOGDIFF_SCALE)))`
stored in the `float` entry `i`. -/
def table_entry (A : Arith) (i : Nat) : FP :=
  A.to_float (A.log (A.dsub (FP.finite 1)
    (A.exp (A.dneg (A.ddiv (A.of_int (i : Int)) LOGDIFF_SCALE)))))

/-- Lines 66-71: the loop of `init` from the value `i` of the loop variable. -/
def init_loop (A : Arith) (table : Fin LOGDIFF_TBL → FP) (i : Nat) :
    Fin LOGDIFF_TBL → FP :=
  if h : i < LOGDIFF_TBL then
    init_loop A (Function.update table ⟨i, h⟩ (table_entry A i)) (i + 1)
  else table
termination_by LOGDIFF_TBL - i

/-- Lines 57-74, `LogDiff_Helper::init()`: the value returned and the variables after. -/
def init (A : Arith) (s : Statics) : Bool × Statics :=
  if !s.first_time then (true, s)
  else (true, { s with first_time := false, _table := init_loop A s._table 0 })

end logdiff

namespace tpool

/-! ## Single calls -/

section calls

variable {ε : Type}

/-- C3: on a pool with `size() == 0`, `add_job(job)` performs exactly one call of the
job, `job(0)`, before it is left, enqueues nothing and leaves every member of the pool
unchanged; an exception of the job leaves `add_job` with it. -/
theorem add_job_inline (s : tpool ε) (job : Job ε) (h : size s = 0) :
    (add_job s job).pool = s ∧
    (add_job s job).events = [Event.invoke job 0] ∧
    (add_job s job).fault = (match job 0 with
      | Except.ok _ => none
      | Except.error e => some e) := by
  unfold add_job
  rw [if_neg (by omega)]
  cases job 0 <;> simp

/-- Witness of C3: an empty pool and a job that returns. -/
theorem add_job_inline_witness :
    size (uninit Nat 0 false).pool = 0 ∧
    (add_job (uninit Nat 0 false).pool (fun _ => Except.ok ())).pool = (uninit Nat 0 false).pool ∧
    (add_job (uninit Nat 0 false).pool (fun _ => Except.ok ())).events
      = [Event.invoke (fun _ => Except.ok ()) 0] ∧
    (add_job (uninit Nat 0 false).pool (fun _ => Except.ok ())).fault = none :=
  ⟨rfl, add_job_inline (uninit Nat 0 false).pool (fun _ => Except.ok ()) rfl⟩

/-- C8: on a pool with `size() > 0`, `add_job(job)` appends the job at the tail of the
queue, performs no call of any job, and leaves `_threads`, `_n_idle` and `_shutdown`
unchanged. -/
theorem add_job_enqueue (s : tpool ε) (job : Job ε) (h : 0 < size s) :
    (add_job s job).pool._jobs = s._jobs ++ [job] ∧
    (add_job s job).pool._threads = s._threads ∧
    (add_job s job).pool._n_idle = s._n_idle ∧
    (add_job s job).pool._shutdown = s._shutdown ∧
    (∀ j i, Event.invoke j i ∉ (add_job s job).events) ∧
    (add_job s job).events = [Event.emplace job, Event.notify_work_one] ∧
    (add_job s job).fault = none := by
  unfold add_job
  rw [if_pos h]
  simp

/-- Witness of C8: a pool with one waiting worker and one queued job. -/
theorem add_job_enqueue_witness :
    (add_job ({ _jobs := [fun _ => Except.ok ()], _threads := [Worker.waiting],
                _n_idle := 1, _shutdown := false } : tpool Nat)
        (fun _ => Except.error 7)).pool._jobs
      = [fun _ => Except.ok (), fun _ => Except.error 7] :=
  (add_job_enqueue _ _ (by decide)).1

/-- C9: `resize(n)` with `n == size()` is left at once (line 58): the owner is back
outside the call, no member of the pool has changed, and no event (join, spawn or
other) was performed. -/
theorem resize_same_size (c : Config ε) (n : Nat) (hc : c.ctrl = Ctrl.ready)
    (h : n = size c.pool) :
    resize_enter c.pool n = (c.pool, Ctrl.ready, []) ∧
    step c (Action.resize n) = some (c, []) := by
  have hn : n < UINT_RANGE := by
    subst h
    exact Nat.mod_lt _ (by decide)
  have h1 : resize_enter c.pool n = (c.pool, Ctrl.ready, []) := by
    unfold resize_enter
    rw [if_pos h]
  refine ⟨h1, ?_⟩
  obtain ⟨p, k⟩ := c
  simp only at hc
  subst hc
  simp only [step, if_pos hn, h1]

/-- Witness of C9: `resize(2)` on a pool of two workers. -/
theorem resize_same_size_witness :
    step ({ pool := { _jobs := [], _threads := [Worker.waiting, Worker.top],
                      _n_idle := 1, _shutdown := false },
            ctrl := Ctrl.ready } : Config Nat) (Action.resize 2)
      = some ({ pool := { _jobs := [], _threads := [Worker.waiting, Worker.top],
                          _n_idle := 1, _shutdown := false },
                ctrl := Ctrl.ready }, []) :=
  (resize_same_size
    ({ pool := { _jobs := [], _threads := [Worker.waiting, Worker.top],
                 _n_idle := 1, _shutdown := false },
       ctrl := Ctrl.ready } : Config Nat) 2 rfl (by decide)).2

/-- C7: `wait_jobs()` never changes the pool; called on a pool with `size() == 0` it
returns at once; on a pool with `size() > 0` it returns, at the call or at a wake-up,
exactly when the queue is empty and `_n_idle == _threads.size()`, and otherwise blocks
(again). -/
theorem wait_jobs_spec (s : tpool ε) :
    (∀ pc, (wait_jobs s pc).1 = s) ∧
    (size s = 0 → (wait_jobs s WaitPc.entry).2 = WaitPc.returned) ∧
    (0 < size s → ∀ pc, pc ≠ WaitPc.returned →
      ((wait_jobs s pc).2 = WaitPc.returned ↔
        (s._jobs = [] ∧ s._n_idle = s._threads.length)) ∧
      ((wait_jobs s pc).2 ≠ WaitPc.returned → (wait_jobs s pc).2 = WaitPc.blocked)) := by
  have hx : wait_exit s = true ↔ (s._jobs = [] ∧ s._n_idle = s._threads.length) := by
    simp [wait_exit, List.isEmpty_iff]
  refine ⟨?_, ?_, ?_⟩
  · intro pc
    cases pc <;> simp only [wait_jobs] <;> repeat (split <;> try rfl)
  · intro h
    simp only [wait_jobs]
    rw [if_neg (by omega)]
  · intro h pc hpc
    rw [← hx]
    cases pc with
    | returned => exact absurd rfl hpc
    | entry =>
      simp only [wait_jobs, if_pos h]
      cases wait_exit s <;> simp
    | blocked =>
      simp only [wait_jobs]
      cases wait_exit s <;> simp

/-- Witness of C7: a pool of one worker that still holds a job. -/
theorem wait_jobs_spec_witness :
    (wait_jobs ({ _jobs := [], _threads := [Worker.running (fun _ => Except.ok ())],
                  _n_idle := 0, _shutdown := false } : tpool Nat) WaitPc.blocked).2
      = WaitPc.blocked :=
  ((wait_jobs_spec _).2.2 (by decide) WaitPc.blocked (by decide)).2
    (fun h => absurd (((wait_jobs_spec _).2.2 (by decide) WaitPc.blocked (by decide)).1.mp h).2
      (by decide))

end calls

/-! ## Auxiliary lemmas -/

section aux

variable {ε : Type}

theorem submitted_append (a b : List (Action ε)) :
    submitted (a ++ b) = submitted a ++ submitted b := by
  induction a with
  | nil => rfl
  | cons x xs ih => cases x <;> simp [submitted, ih]

theorem invoked_append (a b : List (Event ε)) :
    invoked (a ++ b) = invoked a ++ invoked b := by
  induction a with
  | nil => rfl
  | cons x xs ih => cases x <;> simp [invoked, ih]

theorem popped_append (a b : List (Event ε)) :
    popped (a ++ b) = popped a ++ popped b := by
  induction a with
  | nil => rfl
  | cons x xs ih => cases x <;> simp [popped, ih]

theorem joined_append (a b : List (Event ε)) :
    joined (a ++ b) = joined a ++ joined b := by
  induction a with
  | nil => rfl
  | cons x xs ih => cases x <;> simp [joined, ih]

/-- An entry of a list splits the list, and overwriting it keeps both sides. -/
theorem set_split {α : Type} (ws : List α) (i : Nat) (w : α) (h : ws[i]? = some w) :
    ∃ l1 l2, ws = l1 ++ w :: l2 ∧ l1.length = i ∧ ∀ w1, ws.set i w1 = l1 ++ w1 :: l2 := by
  induction ws generalizing i with
  | nil => simp at h
  | cons x xs ih =>
    cases i with
    | zero =>
      simp at h
      subst h
      exact ⟨[], xs, rfl, rfl, fun _ => rfl⟩
    | succ k =>
      simp at h
      obtain ⟨l1, l2, h1, h2, h3⟩ := ih k h
      refine ⟨x :: l1, l2, by simp [h1], by simp [h2], fun w1 => ?_⟩
      simp [h3 w1]

/-- Invariants of a run: a property kept by every enabled step of an allowed action
holds after the whole schedule. -/
theorem run_inv (I : Config ε → List (Event ε) → List (Action ε) → Prop)
    (ok : Action ε → Prop)
    (hstep : ∀ c tr done a r, I c tr done → ok a → step c a = some r →
      I r.1 (tr ++ r.2) (done ++ [a])) :
    ∀ acts c tr done r, I c tr done → (∀ a ∈ acts, ok a) → run c tr acts = some r →
      I r.1 r.2 (done ++ acts) := by
  intro acts
  induction acts with
  | nil =>
    intro c tr done r hI _ hr
    simp only [run, Option.some.injEq] at hr
    subst hr
    simpa using hI
  | cons a rest ih =>
    intro c tr done r hI hok hr
    simp only [run] at hr
    cases hs : step c a with
    | none => simp [hs] at hr
    | some r1 =>
      simp only [hs] at hr
      have h1 := hstep c tr done a r1 hI (hok a (List.mem_cons_self _ _)) hs
      have h2 := ih r1.1 (tr ++ r1.2) (done ++ [a]) r h1
        (fun b hb => hok b (List.mem_cons_of_mem _ hb)) hr
      simpa using h2

theorem worker_locked_spec (s : tpool ε) (i : Nat) :
    (s._shutdown = false ∧ s._jobs = [] ∧ worker_locked s i =
      ({ s with _threads := s._threads.set i Worker.waiting }, [Event.notify_wait_all])) ∨
    (s._shutdown = true ∧ s._jobs = [] ∧ worker_locked s i =
      ({ s with _threads := s._threads.set i Worker.exited }, [])) ∨
    (∃ job rest, s._jobs = job :: rest ∧ worker_locked s i =
      ({ s with _jobs := rest, _n_idle := decr s._n_idle,
                _threads := s._threads.set i (Worker.running job) }, [Event.pop i job])) := by
  obtain ⟨js, ws, n, sh⟩ := s
  cases js with
  | nil => cases sh <;> simp [worker_locked]
  | cons j rest =>
    refine Or.inr (Or.inr ⟨j, rest, rfl, ?_⟩)
    cases sh <;> simp [worker_locked]

/-- Every enabled step of worker `i` is one of the cases of `WStep`. -/
theorem worker_spec (s : tpool ε) (i : Nat) (r : tpool ε × List (Event ε))
    (h : worker s i = some r) :
    ∃ w w1 js n ev, WStep s i w w1 js n ev ∧ s._threads[i]? = some w ∧
      r = ({ _jobs := js, _threads := s._threads.set i w1, _n_idle := n,
             _shutdown := s._shutdown }, ev) := by
  unfold worker at h
  cases hw : s._threads[i]? with
  | none => simp [hw] at h
  | some w =>
    cases w with
    | top =>
      simp only [hw, Option.some.injEq] at h
      rcases worker_locked_spec { s with _n_idle := incr s._n_idle } i with
        ⟨h1, h2, h3⟩ | ⟨h1, h2, h3⟩ | ⟨job, rest, h2, h3⟩
      · exact ⟨_, _, _, _, _, WStep.top_wait h1 h2, rfl, by rw [← h, h3]; simp at h2; simp [h2]⟩
      · exact ⟨_, _, _, _, _, WStep.top_exit h1 h2, rfl, by rw [← h, h3]; simp at h2; simp [h2]⟩
      · exact ⟨_, _, _, _, _, WStep.top_pop job rest h2, rfl, by rw [← h, h3]⟩
    | waiting =>
      simp only [hw, Option.some.injEq] at h
      rcases worker_locked_spec s i with
        ⟨h1, h2, h3⟩ | ⟨h1, h2, h3⟩ | ⟨job, rest, h2, h3⟩
      · exact ⟨_, _, _, _, _, WStep.wake_wait h1 h2, rfl, by rw [← h, h3]; simp [h2]⟩
      · exact ⟨_, _, _, _, _, WStep.wake_exit h1 h2, rfl, by rw [← h, h3]; simp [h2]⟩
      · exact ⟨_, _, _, _, _, WStep.wake_pop job rest h2, rfl, by rw [← h, h3]⟩
    | running job =>
      simp only [hw] at h
      cases hj : job i with
      | ok u =>
        simp only [hj, Option.some.injEq] at h
        exact ⟨_, _, _, _, _, WStep.job_ok job hj, rfl, by rw [← h]⟩
      | error e =>
        simp only [hj, Option.some.injEq] at h
        exact ⟨_, _, _, _, _, WStep.job_fault job e hj, rfl, by rw [← h]⟩
    | exited => simp [hw] at h
    | faulted e => simp [hw] at h

theorem wait_jobs_pool (s : tpool ε) (pc : WaitPc) : (wait_jobs s pc).1 = s := by
  cases pc <;> simp only [wait_jobs] <;> repeat (split <;> try rfl)

end aux

/-! ## Order of dispatch -/

section fifo

variable {ε : Type}

/-- Queue conservation for one generation of workers: the jobs dequeued so far followed
by the queue are the jobs submitted so far. -/
theorem fifo_inv (L : Nat) (hL : 0 < L % UINT_RANGE) (c : Config ε) (tr : List (Event ε))
    (done : List (Action ε)) (a : Action ε) (r : Config ε × List (Event ε))
    (hI : c.pool._threads.length = L ∧ popped tr ++ c.pool._jobs = submitted done)
    (ha : Action.is_use a = true) (hs : step c a = some r) :
    r.1.pool._threads.length = L ∧
      popped (tr ++ r.2) ++ r.1.pool._jobs = submitted (done ++ [a]) := by
  obtain ⟨hlen, hq⟩ := hI
  cases a with
  | add_job job =>
    simp only [step, Option.some.injEq] at hs
    subst hs
    have hsz : size c.pool > 0 := by simpa [size, hlen] using hL
    simp [add_job, hsz, hlen, popped_append, popped, submitted_append, submitted, ← hq]
  | wait_jobs pc =>
    simp only [step, Option.some.injEq] at hs
    subst hs
    simp [wait_jobs_pool, hlen, submitted_append, submitted, hq]
  | worker i =>
    simp only [step] at hs
    cases hw : worker c.pool i with
    | none => simp [hw] at hs
    | some r1 =>
      simp only [hw, Option.some.injEq] at hs
      subst hs
      obtain ⟨w, w1, js, n, ev, hstep, -, rfl⟩ := worker_spec _ _ _ hw
      refine ⟨by simpa using hlen, ?_⟩
      cases hstep <;>
        simp_all [popped_append, popped, submitted_append, submitted]
  | clear => simp [Action.is_use] at ha
  | resize n => simp [Action.is_use] at ha
  | ctrl => simp [Action.is_use] at ha

/-- C4: on a pool with `size() > 0` and an empty queue, whatever the interleaving of
`add_job` calls and worker steps, the jobs dequeued so far followed by the jobs still
queued are exactly the jobs submitted, in order of submission; so the `k`-th dequeue
(by whichever worker) removes the `k`-th submitted job. -/
theorem dispatch_fifo (c0 c : Config ε) (acts : List (Action ε)) (tr : List (Event ε))
    (hsize : 0 < size c0.pool) (hq : c0.pool._jobs = [])
    (huse : ∀ a ∈ acts, Action.is_use a = true)
    (h : exec c0 acts = some (c, tr)) :
    popped tr ++ c.pool._jobs = submitted acts ∧
    ∀ (k : Nat) (j : Job ε), (popped tr)[k]? = some j → (submitted acts)[k]? = some j := by
  have key := run_inv
    (fun c tr done => c.pool._threads.length = c0.pool._threads.length ∧
      popped tr ++ c.pool._jobs = submitted done)
    (fun a => Action.is_use a = true)
    (fun c tr done a r hI ha hs => fifo_inv _ hsize c tr done a r hI ha hs)
    acts c0 [] [] (c, tr) ⟨rfl, by simp [popped, submitted, hq]⟩ huse h
  have h1 : popped tr ++ c.pool._jobs = submitted acts := by simpa using key.2
  refine ⟨h1, fun k j hk => ?_⟩
  rw [← h1]
  have hlt : k < (popped tr).length := by
    by_contra hge
    rw [List.getElem?_eq_none (by omega)] at hk
    cases hk
  rw [List.getElem?_append_left hlt]
  exact hk

/-- Witness of C4: one worker, two jobs submitted, the first one dequeued. -/
theorem dispatch_fifo_witness :
    popped [Event.emplace (fun _ => Except.ok ()), Event.notify_work_one,
            Event.emplace (fun _ => Except.error 1), Event.notify_work_one,
            Event.pop 0 (fun _ => Except.ok ())]
        ++ [fun _ => Except.error 1]
      = submitted [Action.add_job (fun _ => Except.ok ()),
                   Action.add_job (fun _ => Except.error 1), Action.worker 0] :=
  (dispatch_fifo
    ({ pool := { _jobs := [], _threads := [Worker.top], _n_idle := 0, _shutdown := false },
       ctrl := Ctrl.ready } : Config Nat)
    { pool := { _jobs := [fun _ => Except.error 1],
                _threads := [Worker.running (fun _ => Except.ok ())],
                _n_idle := 0, _shutdown := false },
      ctrl := Ctrl.ready }
    [Action.add_job (fun _ => Except.ok ()), Action.add_job (fun _ => Except.error 1),
     Action.worker 0]
    _ (by decide) rfl (by simp [Action.is_use]) rfl).1

end fifo

/-! ## The invariant -/

section invariant

variable {ε : Type}

theorem incr_eq (n : Nat) (h : n + 1 < UINT_RANGE) : incr n = n + 1 := by
  unfold incr
  exact Nat.mod_eq_of_lt h

theorem decr_eq (n : Nat) (h : n < UINT_RANGE) (h0 : 0 < n) : decr n = n - 1 := by
  unfold decr
  have h1 : n + UINT_RANGE - 1 = (n - 1) + UINT_RANGE := by omega
  rw [h1, Nat.add_mod_right]
  exact Nat.mod_eq_of_lt (by omega)

theorem decr_incr (n : Nat) (h : n + 1 < UINT_RANGE) : decr (incr n) = n := by
  rw [incr_eq n h, decr_eq (n + 1) h (by omega)]
  rfl

theorem counted_idle_split (l1 l2 : List (Worker ε)) (w : Worker ε) :
    counted_idle (l1 ++ w :: l2) =
      counted_idle l1 + counted_idle l2 + (if Worker.counted w then 1 else 0) := by
  simp [counted_idle, List.countP_cons]
  omega

theorem counted_idle_le (l : List (Worker ε)) : counted_idle l ≤ l.length :=
  List.countP_le_length _

theorem add_job_frame (s : tpool ε) (job : Job ε) :
    (add_job s job).pool._threads = s._threads ∧
    (add_job s job).pool._n_idle = s._n_idle ∧
    (add_job s job).pool._shutdown = s._shutdown := by
  unfold add_job
  split
  · simp
  · cases job 0 <;> simp

/-- The invariant only reads `_threads`, `_n_idle`, `_shutdown` and the owner. -/
theorem inv_of_frame (p q : tpool ε) (k : Ctrl) (h1 : q._threads = p._threads)
    (h2 : q._n_idle = p._n_idle) (h3 : q._shutdown = p._shutdown)
    (hI : Config.Inv { pool := p, ctrl := k }) : Config.Inv { pool := q, ctrl := k } := by
  obtain ⟨pj, pt, pn, ps⟩ := p
  obtain ⟨qj, qt, qn, qs⟩ := q
  simp only at h1 h2 h3
  subst h1 h2 h3
  cases k <;> exact hI

/-- Overwriting an entry that is not `exited` keeps the joined entries as they are. -/
theorem joined_entries_keep (l1 l2 : List (Worker ε)) (w w1 : Worker ε) (j : Nat)
    (hw : w ≠ Worker.exited)
    (h : ∀ k, k < j → (l1 ++ w :: l2)[k]? = some Worker.exited) :
    ∀ k, k < j → (l1 ++ w1 :: l2)[k]? = some Worker.exited := by
  intro k hk
  have hk1 := h k hk
  rcases Nat.lt_trichotomy k l1.length with hlt | heq | hgt
  · rw [List.getElem?_append_left hlt] at hk1 ⊢
    exact hk1
  · subst heq
    rw [List.getElem?_append_right (Nat.le_refl _)] at hk1
    simp at hk1
    exact absurd hk1 hw
  · rw [List.getElem?_append_right (by omega)] at hk1 ⊢
    obtain ⟨d, hd⟩ : ∃ d, k - l1.length = d + 1 := ⟨k - l1.length - 1, by omega⟩
    rw [hd] at hk1 ⊢
    simpa using hk1

/-- Worker steps keep the invariant. -/
theorem inv_worker (c : Config ε) (i : Nat) (r : tpool ε × List (Event ε))
    (hI : Config.Inv c) (hw : worker c.pool i = some r) :
    Config.Inv { pool := r.1, ctrl := c.ctrl } := by
  obtain ⟨w, w1, js, n, ev, hstep, hget, rfl⟩ := worker_spec _ _ _ hw
  obtain ⟨l1, l2, hsplit, -, hset⟩ := set_split _ _ _ hget
  obtain ⟨⟨pj, pt, pn, ps⟩, k⟩ := c
  simp only at hsplit hset hstep ⊢
  subst hsplit
  rw [hset]
  obtain ⟨hL, hN, hX, hC⟩ := hI
  simp only at hL hN hX hC
  have hN1 := hN (by simp)
  rw [counted_idle_split] at hN1
  have hc1 := counted_idle_le l1
  have hc2 := counted_idle_le l2
  simp only [List.length_append, List.length_cons] at hL
  have hne : w ≠ Worker.exited := by
    intro he
    subst he
    cases hstep
  have hlen : (l1 ++ w1 :: l2).length = (l1 ++ w :: l2).length := by simp
  have hcount : n = counted_idle (l1 ++ w1 :: l2) := by
    rw [counted_idle_split]
    cases hstep <;> simp only [Worker.counted] at hN1 ⊢ <;> simp at hN1 ⊢
    · rw [incr_eq _ (by omega)]; omega
    · rw [incr_eq _ (by omega)]; omega
    · rw [decr_incr _ (by omega)]; omega
    · omega
    · omega
    · rw [decr_eq _ (by omega) (by omega)]; omega
    · omega
    · omega
  have hexit : w1 = Worker.exited → ps = true := by
    intro he
    subst he
    cases hstep <;> assumption
  refine ⟨by simpa using hL, fun _ => hcount, ?_, ?_⟩
  · intro hps x hx
    simp only at hps
    have hX1 := hX hps
    simp only [List.mem_append, List.mem_cons] at hx hX1
    rcases hx with hx | hx | hx
    · exact hX1 x (Or.inl hx)
    · subst hx
      intro he
      have := hexit he
      simp_all
    · exact hX1 x (Or.inr (Or.inr hx))
  · cases k with
    | ready => exact fun _ => hC (by simp)
    | joining j ret =>
      obtain ⟨h1, h2, h3, h4⟩ := hC
      exact ⟨by rw [hlen]; exact h1, joined_entries_keep l1 l2 w w1 j hne h2, h3, h4⟩
    | creating m => exact absurd hC.1 (by simp)
    | spawning j m =>
      obtain ⟨h1, h2, h3, h4, h5⟩ := hC
      exact ⟨by rw [hlen]; exact h1, h2, h3, hcount, h5⟩

theorem size_eq (s : tpool ε) (h : s._threads.length < UINT_RANGE) :
    size s = s._threads.length :=
  Nat.mod_eq_of_lt h

/-- Steps of the owner keep the invariant: the call of `clear()`. -/
theorem inv_clear (p : tpool ε) (ret : Option Nat) (hret : ∀ n, ret = some n → n < UINT_RANGE)
    (hI : Config.Inv { pool := p, ctrl := Ctrl.ready }) :
    Config.Inv { pool := (clear_lock p).1, ctrl := Ctrl.joining 0 ret } := by
  obtain ⟨hL, hN, -, -⟩ := hI
  exact ⟨hL, hN, fun h => (by simp [clear_lock] at h),
    Nat.zero_le _, fun k hk => absurd hk (Nat.not_lt_zero k), rfl, hret⟩

/-- Steps of the owner keep the invariant: the call of `resize(n)`. -/
theorem inv_resize (p : tpool ε) (n : Nat) (hn : n < UINT_RANGE)
    (hI : Config.Inv { pool := p, ctrl := Ctrl.ready }) :
    Config.Inv { pool := (resize_enter p n).1, ctrl := (resize_enter p n).2.1 } := by
  unfold resize_enter
  split
  · exact hI
  · split
    · exact inv_clear p (some n) (fun m hm => by cases hm; exact hn) hI
    · rename_i h1 h2
      obtain ⟨hL, hN, hX, -⟩ := hI
      have h0 : p._threads = [] := by
        rw [size_eq p hL] at h2
        exact List.length_eq_zero.mp (by omega)
      exact ⟨hL, hN, hX, h0, hn⟩

/-- Steps of the owner keep the invariant: inside `clear()`. -/
theorem inv_clear_join (p : tpool ε) (i : Nat) (ret : Option Nat)
    (r : tpool ε × Ctrl × List (Event ε))
    (hI : Config.Inv { pool := p, ctrl := Ctrl.joining i ret })
    (h : clear_join p i ret = some r) :
    Config.Inv { pool := r.1, ctrl := r.2.1 } := by
  obtain ⟨hL, hN, hX, h1, h2, h3, h4⟩ := hI
  unfold clear_join at h
  split at h
  · rename_i hlt
    split at h
    · rename_i hex
      simp only [Option.some.injEq] at h
      subst h
      refine ⟨hL, hN, hX, hlt, fun k hk => ?_, h3, h4⟩
      rcases Nat.lt_succ_iff_lt_or_eq.mp hk with hk1 | hk1
      · exact h2 k hk1
      · subst hk1
        exact hex
    · cases h
  · cases ret with
    | none =>
      simp only [Option.some.injEq] at h
      subst h
      exact ⟨Nat.pos_of_ne_zero (by decide), fun hne => absurd rfl hne,
        fun _ w hw => (by cases hw), fun hne => absurd rfl hne⟩
    | some n =>
      simp only [Option.some.injEq] at h
      subst h
      exact ⟨Nat.pos_of_ne_zero (by decide), fun hne => absurd rfl hne,
        fun _ w hw => (by cases hw), rfl, h4 n rfl⟩

/-- Steps of the owner keep the invariant: lines 64-72 of `resize`. -/
theorem inv_resize_create (p : tpool ε) (n : Nat)
    (hI : Config.Inv { pool := p, ctrl := Ctrl.creating n }) :
    Config.Inv { pool := (resize_create p n).1, ctrl := (resize_create p n).2 } := by
  obtain ⟨hL, hN, hX, h0, hn⟩ := hI
  unfold resize_create
  split
  · exact ⟨hL, hN, hX, fun hne => absurd h0 hne⟩
  · simp only at h0
    refine ⟨hL, fun hne => absurd h0 hne, fun _ w hw => ?_, ?_⟩
    · simp only [h0] at hw
      cases hw
    · show Ctrl.Inv _ (Ctrl.spawning 0 n)
      refine ⟨?_, Nat.zero_le _, hn, ?_, rfl⟩ <;> simp [h0, counted_idle]

/-- Steps of the owner keep the invariant: the loop of lines 73-76 of `resize`. -/
theorem inv_resize_spawn (p : tpool ε) (i n : Nat)
    (hI : Config.Inv { pool := p, ctrl := Ctrl.spawning i n }) :
    Config.Inv { pool := (resize_spawn p i n).1, ctrl := (resize_spawn p i n).2.1 } := by
  obtain ⟨hL, hN, hX, h1, h2, h3, h4, h5⟩ := hI
  simp only at h1 h2 h3 h4 h5 hL hX
  unfold resize_spawn
  split
  · rename_i hlt
    have hc : counted_idle (p._threads ++ [Worker.top]) = counted_idle p._threads := by
      simp [counted_idle, Worker.counted]
    refine ⟨?_, fun _ => ?_, fun hs w hw => ?_, ?_, ?_, h3, ?_, h5⟩
    · simp only [List.length_append, List.length_singleton]; omega
    · simp only [hc]; exact h4
    · simp only [List.mem_append, List.mem_singleton] at hw
      rcases hw with hw | hw
      · exact hX hs w hw
      · subst hw
        intro he
        cases he
    · simp only [List.length_append, List.length_singleton]; omega
    · omega
    · simp only [hc]; exact h4
  · exact ⟨hL, hN, hX, fun _ => h5⟩

/-- Every step keeps the invariant. -/
theorem inv_step (c : Config ε) (a : Action ε) (r : Config ε × List (Event ε))
    (hI : Config.Inv c) (hs : step c a = some r) : Config.Inv r.1 := by
  obtain ⟨p, k⟩ := c
  cases a with
  | add_job job =>
    simp only [step, Option.some.injEq] at hs
    subst hs
    obtain ⟨h1, h2, h3⟩ := add_job_frame p job
    exact inv_of_frame p _ k h1 h2 h3 hI
  | wait_jobs pc =>
    simp only [step, Option.some.injEq] at hs
    subst hs
    simp only [wait_jobs_pool]
    exact hI
  | worker i =>
    simp only [step] at hs
    cases hw : worker p i with
    | none => simp [hw] at hs
    | some r1 =>
      simp only [hw, Option.some.injEq] at hs
      subst hs
      exact inv_worker { pool := p, ctrl := k } i r1 hI hw
  | clear =>
    cases k <;> simp only [step, Option.some.injEq] at hs <;> try cases hs
    exact inv_clear p none (fun n hn => by cases hn) hI
  | resize n =>
    cases k <;> simp only [step] at hs <;> try cases hs
    split at hs
    · simp only [Option.some.injEq] at hs
      subst hs
      rename_i hn
      exact inv_resize p n hn hI
    · cases hs
  | ctrl =>
    cases k with
    | ready => simp [step] at hs
    | joining i ret =>
      simp only [step] at hs
      cases hj : clear_join p i ret with
      | none => simp [hj] at hs
      | some r1 =>
        simp only [hj, Option.some.injEq] at hs
        subst hs
        exact inv_clear_join p i ret r1 hI hj
    | creating n =>
      simp only [step, Option.some.injEq] at hs
      subst hs
      exact inv_resize_create p n hI
    | spawning i n =>
      simp only [step, Option.some.injEq] at hs
      subst hs
      exact inv_resize_spawn p i n hI

/-- The invariant holds before the constructor body runs, whatever the values of the
uninitialised members. -/
theorem inv_uninit (g : Nat) (b : Bool) : Config.Inv (uninit ε g b) :=
  ⟨Nat.pos_of_ne_zero (by decide), fun hne => absurd rfl hne, fun _ w hw => (by cases hw),
    fun hne => absurd rfl hne⟩

/-- The invariant holds after every schedule. -/
theorem inv_run (acts : List (Action ε)) (c : Config ε) (tr : List (Event ε))
    (r : Config ε × List (Event ε)) (hI : Config.Inv c) (h : run c tr acts = some r) :
    Config.Inv r.1 :=
  run_inv (fun c _ _ => Config.Inv c) (fun _ => True)
    (fun c _ _ a r hI _ hs => inv_step c a r hI hs) acts c tr [] r hI (fun _ _ => trivial) h

end invariant

/-! ## The idle counter -/

section idle

variable {ε : Type}

end idle

/-! ## Every submitted job runs exactly once -/

section once

variable {ε : Type}

theorem in_flight_split (l1 l2 : List (Worker ε)) (w : Worker ε) :
    (↑(in_flight (l1 ++ w :: l2)) : Multiset (Job ε)) =
      ↑(in_flight l1) + ↑(in_flight l2) + ↑(Worker.held w).toList := by
  have h : in_flight (l1 ++ w :: l2) =
      in_flight l1 ++ ((Worker.held w).toList ++ in_flight l2) := by
    cases w <;> simp [in_flight, Worker.held, List.filterMap_cons]
  rw [h, ← Multiset.coe_add, ← Multiset.coe_add]
  abel

/-- When the owner is past the last join, no worker holds a job. -/
theorem in_flight_joined (ws : List (Worker ε)) (i : Nat) (hi : ¬ i < ws.length)
    (h : ∀ k, k < i → ws[k]? = some Worker.exited) : in_flight ws = [] := by
  unfold in_flight
  rw [List.filterMap_eq_nil_iff]
  intro w hw
  obtain ⟨k, hk⟩ := List.mem_iff_getElem?.mp hw
  have hlt : k < ws.length := by
    by_contra hge
    rw [List.getElem?_eq_none (by omega)] at hk
    cases hk
  rw [h k (by omega)] at hk
  cases hk
  rfl

/-- Conservation of jobs: the jobs called, those held by workers and those queued
are, as a multiset, the jobs submitted. -/
theorem conserve_step (M : Multiset (Job ε)) (c : Config ε) (tr : List (Event ε))
    (done : List (Action ε)) (a : Action ε) (r : Config ε × List (Event ε))
    (hI : Config.Inv c)
    (hP : (↑(invoked tr) + ↑(in_flight c.pool._threads) + ↑c.pool._jobs : Multiset (Job ε))
      = M + ↑(submitted done))
    (hs : step c a = some r) :
    (↑(invoked (tr ++ r.2)) + ↑(in_flight r.1.pool._threads) + ↑r.1.pool._jobs :
      Multiset (Job ε)) = M + ↑(submitted (done ++ [a])) := by
  obtain ⟨p, k⟩ := c
  simp only at hP
  cases a with
  | add_job job =>
    simp only [step, Option.some.injEq] at hs
    subst hs
    simp only [submitted_append, submitted, ← Multiset.coe_add, invoked_append]
    rw [← add_assoc, ← hP]
    unfold add_job
    split
    · simp only [invoked, List.append_nil, ← Multiset.coe_add, Multiset.coe_nil]
      abel
    · cases job 0 <;> simp only [invoked, ← Multiset.coe_add] <;> abel
  | wait_jobs pc =>
    simp only [step, Option.some.injEq] at hs
    subst hs
    simpa [wait_jobs_pool, submitted_append, submitted, invoked] using hP
  | worker i =>
    simp only [step] at hs
    cases hw : worker p i with
    | none => simp [hw] at hs
    | some r1 =>
      simp only [hw, Option.some.injEq] at hs
      subst hs
      obtain ⟨w, w1, js, n, ev, hstep, hget, rfl⟩ := worker_spec _ _ _ hw
      obtain ⟨l1, l2, hsplit, -, hset⟩ := set_split _ _ _ hget
      simp only [hset]
      rw [hsplit, in_flight_split] at hP
      simp only [submitted_append, submitted, List.append_nil, ← hP, invoked_append,
        in_flight_split, ← Multiset.coe_add]
      cases hstep <;> simp_all [invoked, Worker.held, ← Multiset.coe_add] <;>
        (rw [← hP]; abel)
  | clear =>
    cases k <;> simp only [step, Option.some.injEq] at hs <;> try cases hs
    simpa [clear_lock, submitted_append, submitted, invoked, invoked_append] using hP
  | resize n =>
    cases k <;> simp only [step] at hs <;> try cases hs
    split at hs
    · simp only [Option.some.injEq] at hs
      subst hs
      unfold resize_enter
      split
      · simpa [submitted_append, submitted, invoked] using hP
      · split <;>
          simpa [clear_lock, submitted_append, submitted, invoked, invoked_append] using hP
    · cases hs
  | ctrl =>
    cases k with
    | ready => simp [step] at hs
    | joining i ret =>
      simp only [step] at hs
      cases hj : clear_join p i ret with
      | none => simp [hj] at hs
      | some r1 =>
        simp only [hj, Option.some.injEq] at hs
        subst hs
        obtain ⟨-, -, -, -, h2, -, -⟩ := hI
        unfold clear_join at hj
        split at hj
        · split at hj
          · simp only [Option.some.injEq] at hj
            subst hj
            simpa [submitted_append, submitted, invoked, invoked_append] using hP
          · cases hj
        · rename_i hge
          have h0 := in_flight_joined p._threads i hge h2
          rw [h0] at hP
          cases ret <;> simp only [Option.some.injEq] at hj <;> subst hj <;>
            simpa [in_flight, submitted_append, submitted, invoked] using hP
    | creating n =>
      simp only [step, Option.some.injEq] at hs
      subst hs
      unfold resize_create
      split <;> simpa [submitted_append, submitted, invoked] using hP
    | spawning i n =>
      simp only [step, Option.some.injEq] at hs
      subst hs
      unfold resize_spawn
      split
      · simpa [in_flight, Worker.held, submitted_append, submitted, invoked, invoked_append]
          using hP
      · simpa [submitted_append, submitted, invoked] using hP

/-- The invariant and the conservation of jobs hold after every schedule. -/
theorem conserve_run (c0 c : Config ε) (acts : List (Action ε)) (tr : List (Event ε))
    (hI : Config.Inv c0) (h : exec c0 acts = some (c, tr)) :
    Config.Inv c ∧
    (↑(invoked tr) + ↑(in_flight c.pool._threads) + ↑c.pool._jobs : Multiset (Job ε))
      = (↑(in_flight c0.pool._threads) + ↑c0.pool._jobs) + ↑(submitted acts) := by
  have key := run_inv
    (fun c tr done => Config.Inv c ∧
      (↑(invoked tr) + ↑(in_flight c.pool._threads) + ↑c.pool._jobs : Multiset (Job ε))
        = (↑(in_flight c0.pool._threads) + ↑c0.pool._jobs) + ↑(submitted done))
    (fun _ => True)
    (fun c tr done a r hI _ hs =>
      ⟨inv_step c a r hI.1 hs, conserve_step _ c tr done a r hI.1 hI.2 hs⟩)
    acts c0 [] [] (c, tr) ⟨hI, by simp [invoked, submitted]⟩ (fun _ _ => trivial) h
  simpa using key

/-- When `_n_idle` equals the number of workers, no worker holds a job. -/
theorem held_none_of_idle (c : Config ε) (hI : Config.Inv c)
    (h : c.pool._n_idle = c.pool._threads.length) :
    ∀ w ∈ c.pool._threads, Worker.held w = none := by
  intro w hw
  have hne : c.pool._threads ≠ [] := List.ne_nil_of_mem hw
  have hc := hI.2.1 hne
  rw [h] at hc
  have hall := List.countP_eq_length.mp hc.symm w hw
  cases w <;> simp [Worker.counted] at hall <;> rfl

/-- C1: in every state reachable from the construction of the pool (in particular a
pool of `T >= 1` workers with any interleaving of `add_job` calls, worker dequeues and
job completions) in which the exit condition of `wait_jobs` holds, the queue is empty,
no worker holds a job, and the calls `job(i)` performed are, with multiplicity, the
jobs submitted: every submitted job was called exactly once. -/
theorem exactly_once (g : Nat) (b : Bool) (acts : List (Action ε)) (c : Config ε)
    (tr : List (Event ε)) (h : exec (uninit ε g b) acts = some (c, tr))
    (hexit : wait_exit c.pool = true) :
    c.pool._jobs = [] ∧ (∀ w ∈ c.pool._threads, Worker.held w = none) ∧
    List.Perm (invoked tr) (submitted acts) := by
  obtain ⟨hI, hP⟩ := conserve_run (uninit ε g b) c acts tr (inv_uninit g b) h
  simp only [wait_exit, Bool.and_eq_true, List.isEmpty_iff, beq_iff_eq] at hexit
  obtain ⟨hq, hn⟩ := hexit
  have hheld := held_none_of_idle c hI hn
  have hfl : in_flight c.pool._threads = [] := by
    unfold in_flight
    rw [List.filterMap_eq_nil_iff]
    exact hheld
  refine ⟨hq, hheld, ?_⟩
  rw [hfl, hq] at hP
  exact Multiset.coe_eq_coe.mp (by simpa [uninit, in_flight] using hP)

/-- Witness of C1: a pool of one worker is constructed, a job is submitted, the worker
dequeues it, runs it and goes idle. -/
theorem exactly_once_witness :
    ∃ r, exec (uninit Nat 3 true)
        [Action.resize 1, Action.ctrl, Action.ctrl, Action.ctrl,
         Action.add_job (fun _ => Except.ok ()), Action.worker 0, Action.worker 0,
         Action.worker 0] = some r ∧
      wait_exit r.1.pool = true ∧ size r.1.pool = 1 ∧
      List.Perm (invoked r.2) [fun _ => Except.ok ()] :=
  ⟨(exec (uninit Nat 3 true)
      [Action.resize 1, Action.ctrl, Action.ctrl, Action.ctrl,
       Action.add_job (fun _ => Except.ok ()), Action.worker 0, Action.worker 0,
       Action.worker 0]).get (by decide),
    (Option.some_get _).symm, by decide, by decide,
    (exactly_once 3 true
      [Action.resize 1, Action.ctrl, Action.ctrl, Action.ctrl,
       Action.add_job (fun _ => Except.ok ()), Action.worker 0, Action.worker 0,
       Action.worker 0] _ _ (Option.some_get (by decide)).symm (by decide)).2.2⟩

end once

/-! ## Teardown: `clear()` and `resize()` -/

section teardown

variable {ε : Type}

theorem in_flight_cons_split (l1 l2 : List (Worker ε)) (w : Worker ε) :
    in_flight (l1 ++ w :: l2) = in_flight l1 ++ ((Worker.held w).toList ++ in_flight l2) := by
  cases w <;> simp [in_flight, Worker.held, List.filterMap_cons]

theorem worker_events (s : tpool ε) (i : Nat) (r : tpool ε × List (Event ε))
    (h : worker s i = some r) : spawned r.2 = [] ∧ joined r.2 = [] := by
  obtain ⟨w, w1, js, n, ev, hstep, -, rfl⟩ := worker_spec _ _ _ h
  cases hstep <;> exact ⟨rfl, rfl⟩

/-- Worker steps keep `Drained`. -/
theorem drained_worker (m : Nat) (p : tpool ε) (k : Ctrl) (tr : List (Event ε)) (i : Nat)
    (r : tpool ε × List (Event ε)) (hD : Drained m { pool := p, ctrl := k } tr)
    (hw : worker p i = some r) :
    Drained m { pool := r.1, ctrl := k } (tr ++ r.2) := by
  have hev := (worker_events p i r hw).2
  obtain ⟨w, w1, js, n, ev, hstep, hget, rfl⟩ := worker_spec _ _ _ hw
  obtain ⟨l1, l2, hsplit, -, hset⟩ := set_split _ _ _ hget
  simp only at hev
  have hmem : w ≠ Worker.exited → w1 ≠ Worker.exited →
      (Worker.exited ∈ l1 ++ w1 :: l2 → Worker.exited ∈ l1 ++ w :: l2) := by
    intro _ h1 hx
    simp only [List.mem_append, List.mem_cons] at hx ⊢
    rcases hx with hx | hx | hx
    · exact Or.inl hx
    · exact absurd hx.symm h1
    · exact Or.inr (Or.inr hx)
  cases k with
  | joining j ret =>
    simp only [Drained, joined_append, hev, List.append_nil, hset] at hD ⊢
    rw [hsplit] at hD
    obtain ⟨h1, h2, h3⟩ := hD
    refine ⟨by simpa using h1, h2, fun hx => ?_⟩
    cases hstep with
    | top_wait _ _ => rfl
    | top_exit _ _ => rfl
    | wake_wait _ _ => rfl
    | wake_exit _ _ => rfl
    | top_pop job rest hj =>
      rcases hx with hx | hx
      · simp at hx
      · have := h3 (Or.inr (hmem (by simp) (by simp) hx))
        rw [hj] at this
        cases this
    | wake_pop job rest hj =>
      rcases hx with hx | hx
      · simp at hx
      · have := h3 (Or.inr (hmem (by simp) (by simp) hx))
        rw [hj] at this
        cases this
    | job_ok job _ =>
      rcases hx with hx | hx
      · simp at hx
      · exact h3 (Or.inr (hmem (by simp) (by simp) hx))
    | job_fault job e _ =>
      rcases hx with hx | hx
      · simp at hx
      · exact h3 (Or.inr (hmem (by simp) (by simp) hx))
  | ready =>
    simp only [Drained, joined_append, hev, List.append_nil, hset] at hD ⊢
    rw [hsplit, in_flight_cons_split] at hD
    rw [in_flight_cons_split]
    obtain ⟨h1, h2, h3⟩ := hD
    cases hstep <;> simp_all [Worker.held]
  | creating j =>
    simp only [Drained, joined_append, hev, List.append_nil, hset] at hD ⊢
    rw [hsplit, in_flight_cons_split] at hD
    rw [in_flight_cons_split]
    obtain ⟨h1, h2, h3⟩ := hD
    cases hstep <;> simp_all [Worker.held]
  | spawning j n1 =>
    simp only [Drained, joined_append, hev, List.append_nil, hset] at hD ⊢
    rw [hsplit, in_flight_cons_split] at hD
    rw [in_flight_cons_split]
    obtain ⟨h1, h2, h3⟩ := hD
    cases hstep <;> simp_all [Worker.held]

/-- Steps of the owner inside `clear()` / `resize()` keep `Drained`. -/
theorem drained_ctrl (m : Nat) (c : Config ε) (tr : List (Event ε))
    (r : Config ε × List (Event ε)) (hI : Config.Inv c) (hD : Drained m c tr)
    (hs : step c Action.ctrl = some r) : Drained m r.1 (tr ++ r.2) := by
  obtain ⟨p, k⟩ := c
  cases k with
  | ready => simp [step] at hs
  | joining i ret =>
    simp only [step] at hs
    cases hj : clear_join p i ret with
    | none => simp [hj] at hs
    | some r1 =>
      simp only [hj, Option.some.injEq] at hs
      subst hs
      obtain ⟨-, -, -, hle, hex, -, -⟩ := hI
      obtain ⟨h1, h2, h3⟩ := hD
      simp only at hle hex h1 h2 h3
      unfold clear_join at hj
      split at hj
      · split at hj
        · simp only [Option.some.injEq] at hj
          subst hj
          exact ⟨h1, by simp [joined_append, joined, h2, List.range_succ], h3⟩
        · cases hj
      · rename_i hge
        have hi : i = m := by omega
        have hq : p._jobs = [] := by
          apply h3
          rcases Nat.eq_zero_or_pos i with h0 | hpos
          · exact Or.inl (List.length_eq_zero.mp (by omega))
          · exact Or.inr (List.mem_iff_getElem?.mpr ⟨0, hex 0 hpos⟩)
        cases ret <;> simp only [Option.some.injEq] at hj <;> subst hj <;>
          exact ⟨hq, rfl, by simpa [hi] using h2⟩
  | creating n =>
    simp only [step, Option.some.injEq] at hs
    subst hs
    obtain ⟨h1, h2, h3⟩ := hD
    simp only at h1 h2 h3
    unfold resize_create
    split
    · exact ⟨h1, h2, by simpa using h3⟩
    · exact ⟨h1, h2, by simpa using h3⟩
  | spawning i n =>
    simp only [step, Option.some.injEq] at hs
    subst hs
    obtain ⟨h1, h2, h3⟩ := hD
    simp only at h1 h2 h3
    unfold resize_spawn
    split
    · refine ⟨h1, ?_, by simpa [joined_append, joined] using h3⟩
      simpa [in_flight, Worker.held] using h2
    · exact ⟨h1, h2, by simpa using h3⟩

/-- Every step that starts no call of `add_job`, `clear` or `resize` keeps `Drained`. -/
theorem drained_step (m : Nat) (c : Config ε) (tr : List (Event ε)) (a : Action ε)
    (r : Config ε × List (Event ε)) (hI : Config.Inv c) (hD : Drained m c tr)
    (ha : Action.is_internal a = true) (hs : step c a = some r) :
    Drained m r.1 (tr ++ r.2) := by
  cases a with
  | add_job job => simp [Action.is_internal] at ha
  | clear => simp [Action.is_internal] at ha
  | resize n => simp [Action.is_internal] at ha
  | ctrl => exact drained_ctrl m c tr r hI hD hs
  | wait_jobs pc =>
    simp only [step, Option.some.injEq] at hs
    subst hs
    obtain ⟨p, k⟩ := c
    simp only [wait_jobs_pool, List.append_nil]
    exact hD
  | worker i =>
    obtain ⟨p, k⟩ := c
    simp only [step] at hs
    cases hw : worker p i with
    | none => simp [hw] at hs
    | some r1 =>
      simp only [hw, Option.some.injEq] at hs
      subst hs
      exact drained_worker m p k tr i r1 hD hw

/-- A teardown without concurrent `add_job`: the invariant, the conservation of jobs
and `Drained` hold after every schedule of worker and owner steps. -/
theorem drained_run (m : Nat) (c0 c : Config ε) (acts : List (Action ε))
    (tr0 tr : List (Event ε)) (M : Multiset (Job ε)) (hI : Config.Inv c0)
    (hD : Drained m c0 tr0)
    (hP : (↑(invoked tr0) + ↑(in_flight c0.pool._threads) + ↑c0.pool._jobs :
      Multiset (Job ε)) = M)
    (hacts : ∀ a ∈ acts, Action.is_internal a = true)
    (h : run c0 tr0 acts = some (c, tr)) :
    Config.Inv c ∧ Drained m c tr ∧
    (↑(invoked tr) + ↑(in_flight c.pool._threads) + ↑c.pool._jobs : Multiset (Job ε)) = M := by
  have key := run_inv
    (fun c tr done => (Config.Inv c ∧ Drained m c tr ∧
      (↑(invoked tr) + ↑(in_flight c.pool._threads) + ↑c.pool._jobs : Multiset (Job ε))
        = M + ↑(submitted done)) ∧ submitted done = [])
    (fun a => Action.is_internal a = true)
    (fun c tr done a r hI ha hs =>
      ⟨⟨inv_step c a r hI.1.1 hs, drained_step m c tr a r hI.1.1 hI.1.2.1 ha hs,
        conserve_step M c tr done a r hI.1.1 hI.1.2.2 hs⟩,
       by
        rw [submitted_append, hI.2]
        cases a <;> first | rfl | simp [Action.is_internal] at ha⟩)
    acts c0 tr0 [] (c, tr) ⟨⟨hI, hD, by simpa [submitted] using hP⟩, rfl⟩ hacts h
  obtain ⟨⟨h1, h2, h3⟩, h4⟩ := key
  simp only [List.nil_append] at h3 h4
  rw [h4] at h3
  exact ⟨h1, h2, by simpa using h3⟩

/-- A worker step that ends in `exited` started with `_shutdown` set and an empty queue. -/
theorem exit_only_when_drained (s : tpool ε) (i : Nat) (r : tpool ε × List (Event ε))
    (h : worker s i = some r) (hx : r.1._threads[i]? = some Worker.exited) :
    s._shutdown = true ∧ s._jobs = [] ∧ r.1._shutdown = true ∧ r.1._jobs = [] := by
  obtain ⟨w, w1, js, n, ev, hstep, hget, rfl⟩ := worker_spec _ _ _ h
  obtain ⟨l1, l2, hsplit, hlen, hset⟩ := set_split _ _ _ hget
  simp only [hset] at hx
  rw [List.getElem?_append_right (by omega)] at hx
  simp only [hlen, Nat.sub_self, List.getElem?_cons_zero, Option.some.injEq] at hx
  subst hx
  cases hstep <;> simp_all

/-- The state right after the call of `clear()` satisfies `Drained`. -/
theorem drained_after_lock (p : tpool ε) (ret : Option Nat)
    (hI : Config.Inv { pool := p, ctrl := Ctrl.ready })
    (hq : p._threads = [] → p._jobs = []) :
    Drained p._threads.length { pool := (clear_lock p).1, ctrl := Ctrl.joining 0 ret }
      [Event.notify_work_all] := by
  refine ⟨rfl, rfl, fun hx => ?_⟩
  rcases hx with hx | hx
  · exact hq hx
  · obtain ⟨-, -, hX, hC⟩ := hI
    exact absurd rfl (hX (hC (List.ne_nil_of_mem hx)) _ hx)

/-- C5, counterexample: a pool of one idle worker; the owner calls `clear()`; the
worker returns; another thread calls `add_job` (`size()` is still 1, so the job is
enqueued); the owner joins the worker and clears `_threads`: the pool now has no
worker and one job in its queue.  The owner calls `clear()` again, with no `add_job`
running concurrently: there is no worker to join, `clear()` returns, the job is
still in the queue and no job was ever called. -/
theorem clear_leaves_queue :
    (exec (uninit Nat 0 false)
        [Action.resize 1, Action.ctrl, Action.ctrl, Action.ctrl, Action.worker 0,
         Action.clear, Action.worker 0, Action.add_job (fun _ => Except.ok ()),
         Action.ctrl, Action.ctrl]).map
      (fun r => (r.1.ctrl, size r.1.pool, r.1.pool._jobs.length))
      = some (Ctrl.ready, 0, 1) ∧
    (exec (uninit Nat 0 false)
        [Action.resize 1, Action.ctrl, Action.ctrl, Action.ctrl, Action.worker 0,
         Action.clear, Action.worker 0, Action.add_job (fun _ => Except.ok ()),
         Action.ctrl, Action.ctrl, Action.clear, Action.ctrl]).map
      (fun r => (r.1.ctrl, size r.1.pool, r.1.pool._jobs.length, (invoked r.2).length))
      = some (Ctrl.ready, 0, 1, 0) := by
  decide

/-- C5, amended: (1) a worker step ends in `exited` (the thread leaves `worker`) only
from a state where `_shutdown` is set and the queue is empty; (2) the critical section
of `clear()` that sets `_shutdown` leaves the queue as it is; (3) when `clear()` is
called on a pool that has workers, or whose queue is empty, and no `add_job` runs
concurrently, then once all workers are joined the queue is empty, all entries
were joined in order, and the calls `job(i)` made since the call of `clear()` are,
with multiplicity, the jobs that were queued or held by a worker at that call;
(4) on a pool without workers `clear()` joins nothing, calls no job and returns with
the queue as it was. -/
theorem clear_drains :
    (∀ (s : tpool ε) (i : Nat) (r : tpool ε × List (Event ε)), worker s i = some r →
      r.1._threads[i]? = some Worker.exited → s._shutdown = true ∧ s._jobs = []) ∧
    (∀ s : tpool ε, (clear_lock s).1._jobs = s._jobs) ∧
    (∀ (c0 c : Config ε) (acts : List (Action ε)) (tr : List (Event ε)),
      Config.Inv c0 → c0.ctrl = Ctrl.ready →
      (c0.pool._threads = [] → c0.pool._jobs = []) →
      (∀ a ∈ acts, Action.is_internal a = true) →
      exec c0 (Action.clear :: acts) = some (c, tr) →
      Config.past_joins c = true →
      c.pool._jobs = [] ∧
      List.Perm (invoked tr) (in_flight c0.pool._threads ++ c0.pool._jobs) ∧
      joined tr = List.range c0.pool._threads.length) ∧
    (∀ p : tpool ε, p._threads = [] →
      exec { pool := p, ctrl := Ctrl.ready } [Action.clear, Action.ctrl]
        = some ({ pool := { _jobs := p._jobs, _threads := [], _n_idle := p._n_idle,
                            _shutdown := true },
                  ctrl := Ctrl.ready }, [Event.notify_work_all])) := by
  refine ⟨fun s i r h hx => ⟨(exit_only_when_drained s i r h hx).1,
    (exit_only_when_drained s i r h hx).2.1⟩, fun s => rfl, ?_,
    fun p hnil => by simp [exec, run, step, clear_lock, clear_join, hnil]⟩
  intro c0 c acts tr hI hready hq hacts h hall
  obtain ⟨p, k⟩ := c0
  simp only at hready hq
  subst hready
  simp only [exec, run, step, List.nil_append] at h
  obtain ⟨hIc, hD, hP⟩ := drained_run p._threads.length _ c acts _ tr _
    (inv_clear p none (fun n hn => by cases hn) hI) (drained_after_lock p none hI hq) rfl hacts h
  obtain ⟨cp, ck⟩ := c
  simp only [clear_lock, invoked, Multiset.coe_nil, zero_add] at hP
  have key : cp._jobs = [] ∧ in_flight cp._threads = [] ∧
      joined tr = List.range p._threads.length := by
    cases ck with
    | joining i ret =>
      obtain ⟨h1, h2, h3⟩ := hD
      obtain ⟨-, -, -, hle, hex, -, -⟩ := hIc
      simp only at h1 h2 h3 hle hex
      have hge : ¬ i < cp._threads.length := by
        simpa [Config.past_joins] using hall
      have hi : i = p._threads.length := by omega
      refine ⟨h3 ?_, in_flight_joined cp._threads i hge hex, by rw [h2, hi]⟩
      rcases Nat.eq_zero_or_pos i with h0 | hpos
      · exact Or.inl (List.length_eq_zero.mp (by omega))
      · exact Or.inr (List.mem_iff_getElem?.mpr ⟨0, hex 0 hpos⟩)
    | ready => exact hD
    | creating n => exact hD
    | spawning i n => exact hD
  obtain ⟨k1, k2, k3⟩ := key
  refine ⟨k1, ?_, k3⟩
  simp only at k1 k2 hP
  rw [k1, k2] at hP
  exact Multiset.coe_eq_coe.mp (by simpa using hP)

/-- Witness of the amended C5: `clear()` on a pool of one waiting worker with one queued job; the
worker dequeues the job, runs it, returns, and is joined. -/
theorem clear_drains_witness :
    ∃ r, exec ({ pool := { _jobs := [fun _ => Except.ok ()], _threads := [Worker.waiting],
                           _n_idle := 1, _shutdown := false },
                 ctrl := Ctrl.ready } : Config Nat)
        [Action.clear, Action.worker 0, Action.worker 0, Action.worker 0, Action.ctrl]
        = some r ∧
      r.1.ctrl = Ctrl.joining 1 none ∧ r.1.pool._jobs = [] ∧
      List.Perm (invoked r.2) [fun _ => Except.ok ()] ∧ joined r.2 = [0] :=
  ⟨(exec ({ pool := { _jobs := [fun _ => Except.ok ()], _threads := [Worker.waiting],
                      _n_idle := 1, _shutdown := false },
            ctrl := Ctrl.ready } : Config Nat)
      [Action.clear, Action.worker 0, Action.worker 0, Action.worker 0, Action.ctrl]).get
      (by decide),
    (Option.some_get _).symm, by decide,
    clear_drains.2.2.1
      ({ pool := { _jobs := [fun _ => Except.ok ()], _threads := [Worker.waiting],
                   _n_idle := 1, _shutdown := false },
         ctrl := Ctrl.ready } : Config Nat) _
      [Action.worker 0, Action.worker 0, Action.worker 0, Action.ctrl] _
      ⟨by decide, fun _ => rfl, fun _ w hw he => by subst he; simp at hw, fun _ => rfl⟩
      rfl (fun h => nomatch h) (by decide)
      (Option.some_get (by decide)).symm (by decide)⟩

end teardown

/-! ## Completion: the workers can always finish a teardown -/

section completion

variable {ε : Type}

theorem run_append (a b : List (Action ε)) (c c1 : Config ε) (tr tr1 : List (Event ε))
    (h : run c tr a = some (c1, tr1)) : run c tr (a ++ b) = run c1 tr1 b := by
  induction a generalizing c tr with
  | nil =>
    simp only [run, Option.some.injEq, Prod.mk.injEq] at h
    obtain ⟨rfl, rfl⟩ := h
    rfl
  | cons x xs ih =>
    simp only [run, List.cons_append] at h ⊢
    cases hs : step c x with
    | none => simp [hs] at h
    | some r =>
      simp only [hs] at h ⊢
      exact ih _ _ h

theorem Reaches.refl (c : Config ε) : Reaches c c :=
  ⟨[], fun _ h => (by cases h), fun tr => ⟨tr, rfl⟩⟩

theorem Reaches.trans {c d e : Config ε} (h1 : Reaches c d) (h2 : Reaches d e) :
    Reaches c e := by
  obtain ⟨a, ha, hra⟩ := h1
  obtain ⟨b, hb, hrb⟩ := h2
  refine ⟨a ++ b, fun x hx => ?_, fun tr => ?_⟩
  · rcases List.mem_append.mp hx with hx | hx
    · exact ha x hx
    · exact hb x hx
  · obtain ⟨tr1, h1⟩ := hra tr
    obtain ⟨tr2, h2⟩ := hrb tr1
    exact ⟨tr2, by rw [run_append a b c d tr tr1 h1, h2]⟩

theorem Reaches.single {c d : Config ε} (a : Action ε) (ev : List (Event ε))
    (ha : Action.is_internal a = true) (hs : step c a = some (d, ev)) : Reaches c d :=
  ⟨[a], fun x hx => by
      rw [List.mem_singleton.mp hx]
      exact ha,
    fun tr => ⟨tr ++ ev, by simp [run, hs]⟩⟩

/-- A worker step as a step of the system. -/
theorem Reaches.worker {p : tpool ε} {k : Ctrl} (i : Nat) (r : tpool ε × List (Event ε))
    (h : worker p i = some r) :
    Reaches { pool := p, ctrl := k } { pool := r.1, ctrl := k } :=
  Reaches.single (Action.worker i) r.2 rfl (by simp [step, h])

theorem worker_exit_eval (p : tpool ε) (i : Nat)
    (hw : p._threads[i]? = some Worker.top ∨ p._threads[i]? = some Worker.waiting)
    (hs : p._shutdown = true) (hq : p._jobs = []) :
    ∃ r, worker p i = some r ∧ r.1._threads = p._threads.set i Worker.exited ∧
      r.1._jobs = [] ∧ r.1._shutdown = true := by
  rcases hw with hw | hw <;>
    exact ⟨_, by simp only [worker, hw]; rfl, by simp [worker_locked, hs, hq],
      by simp [worker_locked, hs, hq], by simp [worker_locked, hs, hq]⟩

theorem worker_pop_eval (p : tpool ε) (i : Nat) (j : Job ε) (rest : List (Job ε))
    (hw : p._threads[i]? = some Worker.top ∨ p._threads[i]? = some Worker.waiting)
    (hq : p._jobs = j :: rest) :
    ∃ r, worker p i = some r ∧ r.1._threads = p._threads.set i (Worker.running j) ∧
      r.1._jobs = rest ∧ r.1._shutdown = p._shutdown := by
  rcases hw with hw | hw <;>
    exact ⟨_, by simp only [worker, hw]; rfl, by simp [worker_locked, hq],
      by simp [worker_locked, hq], by simp [worker_locked, hq]⟩

theorem worker_job_eval (p : tpool ε) (i : Nat) (j : Job ε) (u : Unit)
    (hw : p._threads[i]? = some (Worker.running j)) (hj : j i = Except.ok u) :
    ∃ r, worker p i = some r ∧ r.1._threads = p._threads.set i Worker.top ∧
      r.1._jobs = p._jobs ∧ r.1._shutdown = p._shutdown :=
  ⟨_, by simp only [worker, hw, hj]; rfl, rfl, rfl, rfl⟩

theorem getElem?_lt {α : Type} (l : List α) (i : Nat) (x : α) (h : l[i]? = some x) :
    i < l.length := by
  by_contra hge
  rw [List.getElem?_eq_none (by omega)] at h
  cases h

/-- With `_shutdown` set, an idle worker empties the queue and returns. -/
theorem drain_idle (i : Nat) (k : Ctrl) :
    ∀ (q : List (Job ε)) (p : tpool ε), p._jobs = q → p._shutdown = true →
      (p._threads[i]? = some Worker.top ∨ p._threads[i]? = some Worker.waiting) →
      (∀ j ∈ q, Job.returns j) →
      ∃ p1, Reaches { pool := p, ctrl := k } { pool := p1, ctrl := k } ∧ p1._jobs = [] ∧
        p1._threads = p._threads.set i Worker.exited ∧ p1._shutdown = true := by
  intro q
  induction q with
  | nil =>
    intro p hq hs hw _
    obtain ⟨r, h1, h2, h3, h4⟩ := worker_exit_eval p i hw hs hq
    exact ⟨r.1, Reaches.worker i r h1, h3, h2, h4⟩
  | cons j rest ih =>
    intro p hq hs hw hret
    have hlt : i < p._threads.length := by
      rcases hw with hw | hw <;> exact getElem?_lt _ _ _ hw
    obtain ⟨r1, h1, h2, h3, h4⟩ := worker_pop_eval p i j rest hw hq
    obtain ⟨u, hu⟩ := hret j (List.mem_cons_self _ _) i
    have hrun : r1.1._threads[i]? = some (Worker.running j) := by
      rw [h2]
      exact List.getElem?_set_self hlt
    obtain ⟨r2, g1, g2, g3, g4⟩ := worker_job_eval r1.1 i j u hrun hu
    have htop : r2.1._threads[i]? = some Worker.top := by
      rw [g2]
      exact List.getElem?_set_self (by rw [h2, List.length_set]; exact hlt)
    obtain ⟨p1, k1, k2, k3, k4⟩ := ih r2.1 (by rw [g3, h3]) (by rw [g4, h4, hs]) (Or.inl htop)
      (fun x hx => hret x (List.mem_cons_of_mem _ hx))
    refine ⟨p1, (Reaches.worker i r1 h1).trans ((Reaches.worker i r2 g1).trans k1), k2, ?_, k4⟩
    rw [k3, g2, h2, List.set_set, List.set_set]

/-- With `_shutdown` set, every worker that has not faulted can be brought to return. -/
theorem finish_one (i : Nat) (k : Ctrl) (p : tpool ε) (w : Worker ε)
    (hw : p._threads[i]? = some w) (hnf : ∀ e, w ≠ Worker.faulted e)
    (hs : p._shutdown = true) (hret : ∀ j ∈ p._jobs, Job.returns j)
    (hheld : ∀ j, w = Worker.running j → Job.returns j) :
    ∃ p1, Reaches { pool := p, ctrl := k } { pool := p1, ctrl := k } ∧
      p1._threads = p._threads.set i Worker.exited ∧ p1._shutdown = true ∧
      ∀ j ∈ p1._jobs, Job.returns j := by
  cases w with
  | top =>
    obtain ⟨p1, h1, h2, h3, h4⟩ := drain_idle i k p._jobs p rfl hs (Or.inl hw) hret
    exact ⟨p1, h1, h3, h4, by rw [h2]; exact fun _ h => by cases h⟩
  | waiting =>
    obtain ⟨p1, h1, h2, h3, h4⟩ := drain_idle i k p._jobs p rfl hs (Or.inr hw) hret
    exact ⟨p1, h1, h3, h4, by rw [h2]; exact fun _ h => by cases h⟩
  | running j =>
    obtain ⟨u, hu⟩ := hheld j rfl i
    obtain ⟨r, g1, g2, g3, g4⟩ := worker_job_eval p i j u hw hu
    have htop : r.1._threads[i]? = some Worker.top := by
      rw [g2]
      exact List.getElem?_set_self (getElem?_lt _ _ _ hw)
    obtain ⟨p1, h1, h2, h3, h4⟩ := drain_idle i k r.1._jobs r.1 rfl (by rw [g4, hs])
      (Or.inl htop) (by rw [g3]; exact hret)
    refine ⟨p1, (Reaches.worker i r g1).trans h1, ?_, h4, by rw [h2]; exact fun _ h => by cases h⟩
    rw [h3, g2, List.set_set]
  | exited =>
    obtain ⟨l1, l2, h1, -, h3⟩ := set_split _ _ _ hw
    exact ⟨p, Reaches.refl _, by rw [h3, ← h1], hs, hret⟩
  | faulted e => exact absurd rfl (hnf e)

/-- With `_shutdown` set, all workers can be brought to return, one after the other. -/
theorem finish_all (k : Ctrl) :
    ∀ (ws done : List (Worker ε)) (p : tpool ε), p._threads = done ++ ws →
      (∀ w ∈ ws, ∀ e, w ≠ Worker.faulted e) → p._shutdown = true →
      (∀ j ∈ p._jobs, Job.returns j) → (∀ j ∈ in_flight ws, Job.returns j) →
      ∃ p1, Reaches { pool := p, ctrl := k } { pool := p1, ctrl := k } ∧
        p1._threads = done ++ List.replicate ws.length Worker.exited ∧
        p1._shutdown = true := by
  intro ws
  induction ws with
  | nil =>
    intro done p ht _ hs _ _
    exact ⟨p, Reaches.refl _, by simpa using ht, hs⟩
  | cons w rest ih =>
    intro done p ht hnf hs hret hheld
    have hw : p._threads[done.length]? = some w := by
      rw [ht, List.getElem?_append_right (Nat.le_refl _)]
      simp
    obtain ⟨p1, h1, h2, h3, h4⟩ := finish_one done.length k p w hw
      (hnf w (List.mem_cons_self _ _)) hs hret
      (fun j hj => hheld j (by subst hj; simp [in_flight, Worker.held]))
    have ht1 : p1._threads = (done ++ [Worker.exited]) ++ rest := by
      rw [h2, ht]
      simp
    obtain ⟨p2, g1, g2, g3⟩ := ih (done ++ [Worker.exited]) p1 ht1
      (fun x hx => hnf x (List.mem_cons_of_mem _ hx)) h3 h4
      (fun j hj => hheld j (by
        rw [in_flight, List.filterMap_cons]
        cases hh : Worker.held w with
        | none => exact hj
        | some j0 => exact List.mem_cons_of_mem _ hj))
    refine ⟨p2, h1.trans g1, ?_, g3⟩
    rw [g2]
    simp [List.replicate_succ]

/-- Once all workers have returned, the owner joins them one after the other. -/
theorem join_all (ret : Option Nat) (p : tpool ε)
    (hx : ∀ w ∈ p._threads, w = Worker.exited) :
    ∀ d i, i + d = p._threads.length →
      Reaches { pool := p, ctrl := Ctrl.joining i ret }
        { pool := p, ctrl := Ctrl.joining p._threads.length ret } := by
  intro d
  induction d with
  | zero =>
    intro i hi
    have : i = p._threads.length := by omega
    subst this
    exact Reaches.refl _
  | succ d ih =>
    intro i hi
    have hlt : i < p._threads.length := by omega
    have hget : p._threads[i]? = some Worker.exited := by
      rw [List.getElem?_eq_getElem hlt, hx _ (List.getElem_mem _)]
    have hstep : step { pool := p, ctrl := Ctrl.joining i ret } Action.ctrl
        = some ({ pool := p, ctrl := Ctrl.joining (i + 1) ret }, [Event.join i]) := by
      simp [step, clear_join, hlt, hget]
    exact (Reaches.single Action.ctrl _ rfl hstep).trans (ih (i + 1) (by omega))

/-- After the critical section of `clear()`, when no worker has faulted and every job
queued or held returns, the workers can drain the queue and return, and the owner can
join them all and execute `_threads.clear()`. -/
theorem clear_completes (p : tpool ε) (ret : Option Nat) (hs : p._shutdown = true)
    (hnf : ∀ w ∈ p._threads, ∀ e, w ≠ Worker.faulted e)
    (hret : ∀ j ∈ p._jobs, Job.returns j)
    (hheld : ∀ j ∈ in_flight p._threads, Job.returns j) :
    ∃ p1, Reaches { pool := p, ctrl := Ctrl.joining 0 ret }
        { pool := p1, ctrl := match ret with
                              | none => Ctrl.ready
                              | some n => Ctrl.creating n } ∧
      p1._threads = [] := by
  obtain ⟨p1, h1, h2, h3⟩ := finish_all (Ctrl.joining 0 ret) p._threads [] p rfl hnf hs hret hheld
  have hx : ∀ w ∈ p1._threads, w = Worker.exited := by
    intro w hw
    rw [h2] at hw
    simp only [List.nil_append] at hw
    exact List.eq_of_mem_replicate hw
  have hj := join_all ret p1 hx p1._threads.length 0 (by omega)
  refine ⟨{ p1 with _threads := [] },
    h1.trans (hj.trans (Reaches.single Action.ctrl [] rfl ?_)), rfl⟩
  cases ret <;> simp [step, clear_join]

end completion

/-! ## `resize` recreates the workers -/

section recreate

variable {ε : Type}

end recreate

/-! ## `resize` on a busy pool -/

section busy

variable {ε : Type}

end busy

/-! ## Faults of jobs -/

section faults

variable {ε : Type}

/-- C13: the pool catches no exception of a job.  On a pool with `size() == 0`,
`add_job` is left with exactly the exception of `job(0)`; a worker whose call `job(i)`
lets the exception `e` escape leaves `worker` with `e` and takes no further step (it does
not go back to the head of the loop); and a job that returns makes neither `add_job`
fail nor the worker leave its loop: the worker is back at the head of the loop. -/
theorem fault_propagates :
    (∀ (s : tpool ε) (job : Job ε) (e : ε), size s = 0 → job 0 = Except.error e →
      (add_job s job).fault = some e) ∧
    (∀ (s : tpool ε) (i : Nat) (job : Job ε) (e : ε),
      s._threads[i]? = some (Worker.running job) → job i = Except.error e →
      ∃ r, worker s i = some r ∧ r.1._threads[i]? = some (Worker.faulted e) ∧
        worker r.1 i = none) ∧
    (∀ (s : tpool ε) (job : Job ε), 0 < size s → (add_job s job).fault = none) ∧
    (∀ (s : tpool ε) (job : Job ε) (u : Unit), job 0 = Except.ok u →
      (add_job s job).fault = none) ∧
    (∀ (s : tpool ε) (i : Nat) (job : Job ε) (u : Unit),
      s._threads[i]? = some (Worker.running job) → job i = Except.ok u →
      ∃ r, worker s i = some r ∧ r.1._threads[i]? = some Worker.top) ∧
    (∀ (s : tpool ε) (i : Nat) (r : tpool ε × List (Event ε)) (e : ε),
      worker s i = some r → r.1._threads[i]? = some (Worker.faulted e) →
      ∃ job, s._threads[i]? = some (Worker.running job) ∧ job i = Except.error e) := by
  refine ⟨?_, ?_, ?_, ?_, ?_, ?_⟩
  · intro s job e h he
    unfold add_job
    rw [if_neg (by omega), he]
  · intro s i job e hw he
    have hlt := getElem?_lt _ _ _ hw
    have hset : (s._threads.set i (Worker.faulted e))[i]? = some (Worker.faulted e) :=
      List.getElem?_set_self hlt
    refine ⟨({ s with _threads := s._threads.set i (Worker.faulted e) },
      [Event.invoke job i]), ?_, hset, ?_⟩
    · simp only [worker, hw, he]
    · simp only [worker, hset]
  · intro s job h
    unfold add_job
    rw [if_pos h]
  · intro s job u hu
    unfold add_job
    split
    · rfl
    · rw [hu]
  · intro s i job u hw hu
    have hlt := getElem?_lt _ _ _ hw
    refine ⟨({ s with _threads := s._threads.set i Worker.top }, [Event.invoke job i]),
      ?_, List.getElem?_set_self hlt⟩
    simp only [worker, hw, hu]
  · intro s i r e h hx
    obtain ⟨w, w1, js, n, ev, hstep, hget, rfl⟩ := worker_spec _ _ _ h
    have hlt := getElem?_lt _ _ _ hget
    simp only at hx
    rw [List.getElem?_set_self hlt] at hx
    simp only [Option.some.injEq] at hx
    subst hx
    cases hstep with
    | job_fault job e1 hj => exact ⟨job, hget, hj⟩

/-- Witness of C13: a worker whose job throws `7`. -/
theorem fault_propagates_witness :
    ∃ r, worker ({ _jobs := [], _threads := [Worker.running (fun _ => Except.error 7)],
                   _n_idle := 0, _shutdown := false } : tpool Nat) 0 = some r ∧
      r.1._threads[0]? = some (Worker.faulted 7) ∧ worker r.1 0 = none :=
  fault_propagates.2.1 _ 0 (fun _ => Except.error 7) 7 rfl rfl

end faults

/-! ## The shutdown flag -/

section shutdown

variable {ε : Type}

/-- C14: `add_job`, `wait_jobs` and every worker step leave `_shutdown` unchanged
(`size()` writes nothing); a step that sets it is the critical section of `clear()`
(called directly or from `resize`), after which the owner is joining; a step that
resets it is lines 70-71 of a `resize(n)`, `n > 0`, about to spawn the workers; and in
every reachable state in which the owner is spawning workers, or is outside
`clear()` / `resize()` with workers present, `_shutdown` is false. -/
theorem shutdown_monotone :
    (∀ (s : tpool ε) (job : Job ε), (add_job s job).pool._shutdown = s._shutdown) ∧
    (∀ (s : tpool ε) (pc : WaitPc), (wait_jobs s pc).1._shutdown = s._shutdown) ∧
    (∀ (s : tpool ε) (i : Nat) (r : tpool ε × List (Event ε)), worker s i = some r →
      r.1._shutdown = s._shutdown) ∧
    (∀ (c : Config ε) (a : Action ε) (r : Config ε × List (Event ε)), step c a = some r →
      c.pool._shutdown = false → r.1.pool._shutdown = true →
      Action.is_owner_call a = true ∧ c.ctrl = Ctrl.ready ∧
        ∃ ret, r.1.ctrl = Ctrl.joining 0 ret) ∧
    (∀ (c : Config ε) (a : Action ε) (r : Config ε × List (Event ε)), step c a = some r →
      c.pool._shutdown = true → r.1.pool._shutdown = false →
      a = Action.ctrl ∧ ∃ n, 0 < n ∧ c.ctrl = Ctrl.creating n ∧ r.1.ctrl = Ctrl.spawning 0 n) ∧
    (∀ (g : Nat) (b : Bool) (acts : List (Action ε)) (c : Config ε) (tr : List (Event ε)),
      exec (uninit ε g b) acts = some (c, tr) →
      ((∃ i n, c.ctrl = Ctrl.spawning i n) ∨ (c.ctrl = Ctrl.ready ∧ c.pool._threads ≠ [])) →
      c.pool._shutdown = false) := by
  have hadd : ∀ (s : tpool ε) (job : Job ε), (add_job s job).pool._shutdown = s._shutdown :=
    fun s job => (add_job_frame s job).2.2
  have hwait : ∀ (s : tpool ε) (pc : WaitPc), (wait_jobs s pc).1._shutdown = s._shutdown :=
    fun s pc => by rw [wait_jobs_pool]
  have hworker : ∀ (s : tpool ε) (i : Nat) (r : tpool ε × List (Event ε)),
      worker s i = some r → r.1._shutdown = s._shutdown := by
    intro s i r h
    obtain ⟨w, w1, js, n, ev, -, -, rfl⟩ := worker_spec _ _ _ h
    rfl
  have hstep : ∀ (c : Config ε) (a : Action ε) (r : Config ε × List (Event ε)),
      step c a = some r → r.1.pool._shutdown ≠ c.pool._shutdown →
      (r.1.pool._shutdown = true ∧ Action.is_owner_call a = true ∧ c.ctrl = Ctrl.ready ∧
        ∃ ret, r.1.ctrl = Ctrl.joining 0 ret) ∨
      (r.1.pool._shutdown = false ∧ a = Action.ctrl ∧
        ∃ n, 0 < n ∧ c.ctrl = Ctrl.creating n ∧ r.1.ctrl = Ctrl.spawning 0 n) := by
    intro c a r hs hne
    obtain ⟨p, k⟩ := c
    cases a with
    | add_job job =>
      simp only [step, Option.some.injEq] at hs
      subst hs
      exact absurd (hadd p job) hne
    | wait_jobs pc =>
      simp only [step, Option.some.injEq] at hs
      subst hs
      exact absurd (hwait p pc) hne
    | worker i =>
      simp only [step] at hs
      cases hw : worker p i with
      | none => simp [hw] at hs
      | some r1 =>
        simp only [hw, Option.some.injEq] at hs
        subst hs
        exact absurd (hworker p i r1 hw) hne
    | clear =>
      cases k <;> simp only [step, Option.some.injEq] at hs <;> try cases hs
      exact Or.inl ⟨rfl, rfl, rfl, none, rfl⟩
    | resize n =>
      cases k <;> simp only [step] at hs <;> try cases hs
      split at hs
      · simp only [Option.some.injEq] at hs
        subst hs
        simp only at hne
        unfold resize_enter at hne ⊢
        split
        · rename_i h1
          rw [if_pos h1] at hne
          exact absurd rfl hne
        · rename_i h1
          rw [if_neg h1] at hne
          split
          · exact Or.inl ⟨rfl, rfl, rfl, some n, rfl⟩
          · rename_i h2
            rw [if_neg h2] at hne
            exact absurd rfl hne
      · cases hs
    | ctrl =>
      cases k with
      | ready => simp [step] at hs
      | joining i ret =>
        simp only [step] at hs
        cases hj : clear_join p i ret with
        | none => simp [hj] at hs
        | some r1 =>
          simp only [hj, Option.some.injEq] at hs
          subst hs
          unfold clear_join at hj
          split at hj
          · split at hj
            · simp only [Option.some.injEq] at hj
              subst hj
              exact absurd rfl hne
            · cases hj
          · cases ret <;> simp only [Option.some.injEq] at hj <;> subst hj <;>
              exact absurd rfl hne
      | creating n =>
        simp only [step, Option.some.injEq] at hs
        subst hs
        simp only at hne
        unfold resize_create at hne ⊢
        split
        · rename_i h1
          rw [if_pos h1] at hne
          exact absurd rfl hne
        · rename_i h1
          exact Or.inr ⟨rfl, rfl, n, Nat.pos_of_ne_zero h1, rfl, rfl⟩
      | spawning i n =>
        simp only [step, Option.some.injEq] at hs
        subst hs
        simp only at hne
        unfold resize_spawn at hne
        split at hne <;> exact absurd rfl hne
  refine ⟨hadd, hwait, hworker, ?_, ?_, ?_⟩
  · intro c a r hs h0 h1
    rcases hstep c a r hs (by rw [h0, h1]; decide) with h | h
    · exact h.2
    · rw [h.1] at h1
      cases h1
  · intro c a r hs h0 h1
    rcases hstep c a r hs (by rw [h0, h1]; decide) with h | h
    · rw [h.1] at h1
      cases h1
    · exact h.2
  · intro g b acts c tr h hc
    obtain ⟨-, -, -, hC⟩ := inv_run acts _ [] (c, tr) (inv_uninit g b) h
    obtain ⟨cp, ck⟩ := c
    rcases hc with ⟨i, n, hk⟩ | ⟨hk, hne⟩
    · simp only at hk
      subst hk
      exact hC.2.2.2.2
    · simp only at hk hne
      subst hk
      exact hC hne

end shutdown

/-! ## `resize(0)` and repeated `clear()` -/

section empty

variable {ε : Type}

theorem threads_nil_of_size (p : tpool ε) (hL : p._threads.length < UINT_RANGE)
    (h : size p = 0) : p._threads = [] := by
  rw [size_eq p hL] at h
  exact List.length_eq_zero.mp h

/-- Every step other than a new call of `clear()` / `resize()` keeps `Emptying`. -/
theorem emptying_step (c : Config ε) (a : Action ε) (r : Config ε × List (Event ε))
    (hI : Config.Inv c) (hE : Emptying c) (ha : Action.is_owner_call a = false)
    (hs : step c a = some r) : Emptying r.1 := by
  obtain ⟨p, k⟩ := c
  cases a with
  | clear => simp [Action.is_owner_call] at ha
  | resize n1 => simp [Action.is_owner_call] at ha
  | add_job job =>
    simp only [step, Option.some.injEq] at hs
    subst hs
    have h1 := (add_job_frame p job).1
    cases k <;> simp only [Emptying, h1] at hE ⊢ <;> exact hE
  | wait_jobs pc =>
    simp only [step, Option.some.injEq] at hs
    subst hs
    simp only [wait_jobs_pool]
    exact hE
  | worker i =>
    simp only [step] at hs
    cases hw : worker p i with
    | none => simp [hw] at hs
    | some r1 =>
      simp only [hw, Option.some.injEq] at hs
      subst hs
      obtain ⟨w, w1, js, m, ev, -, -, rfl⟩ := worker_spec _ _ _ hw
      cases k with
      | ready =>
        simp only [Emptying] at hE ⊢
        rw [hE]
        rfl
      | joining i1 ret => exact hE
      | creating k1 => exact hE
      | spawning i1 k1 => exact hE
  | ctrl =>
    cases k with
    | ready => simp [step] at hs
    | joining i ret =>
      simp only [step] at hs
      cases hj : clear_join p i ret with
      | none => simp [hj] at hs
      | some r1 =>
        simp only [hj, Option.some.injEq] at hs
        subst hs
        simp only [Emptying] at hE
        subst hE
        unfold clear_join at hj
        split at hj
        · split at hj
          · simp only [Option.some.injEq] at hj
            subst hj
            rfl
          · cases hj
        · simp only [Option.some.injEq] at hj
          subst hj
          rfl
    | creating k1 =>
      simp only [step, Option.some.injEq] at hs
      subst hs
      simp only [Emptying] at hE
      subst hE
      exact hI.2.2.2.1
    | spawning i k1 => exact absurd hE id

/-- Every step other than a new call of `clear()` / `resize()` keeps `Clearing`. -/
theorem clearing_step (c : Config ε) (a : Action ε) (r : Config ε × List (Event ε))
    (hC : Clearing c) (ha : Action.is_owner_call a = false)
    (hs : step c a = some r) : Clearing r.1 := by
  obtain ⟨p, k⟩ := c
  cases a with
  | clear => simp [Action.is_owner_call] at ha
  | resize n1 => simp [Action.is_owner_call] at ha
  | add_job job =>
    simp only [step, Option.some.injEq] at hs
    subst hs
    obtain ⟨h1, -, h3⟩ := add_job_frame p job
    cases k <;> simp only [Clearing, h1, h3] at hC ⊢ <;> exact hC
  | wait_jobs pc =>
    simp only [step, Option.some.injEq] at hs
    subst hs
    simp only [wait_jobs_pool]
    exact hC
  | worker i =>
    simp only [step] at hs
    cases hw : worker p i with
    | none => simp [hw] at hs
    | some r1 =>
      simp only [hw, Option.some.injEq] at hs
      subst hs
      obtain ⟨w, w1, js, m, ev, -, -, rfl⟩ := worker_spec _ _ _ hw
      cases k with
      | ready =>
        simp only [Clearing] at hC ⊢
        rw [hC.1]
        exact ⟨rfl, hC.2⟩
      | joining i1 ret => exact hC
      | creating k1 => exact hC
      | spawning i1 k1 => exact hC
  | ctrl =>
    cases k with
    | ready => simp [step] at hs
    | joining i ret =>
      simp only [step] at hs
      cases hj : clear_join p i ret with
      | none => simp [hj] at hs
      | some r1 =>
        simp only [hj, Option.some.injEq] at hs
        subst hs
        obtain ⟨h1, h2⟩ := hC
        subst h1
        unfold clear_join at hj
        split at hj
        · split at hj
          · simp only [Option.some.injEq] at hj
            subst hj
            exact ⟨rfl, h2⟩
          · cases hj
        · simp only [Option.some.injEq] at hj
          subst hj
          exact ⟨rfl, h2⟩
    | creating k1 => exact absurd hC id
    | spawning i k1 => exact absurd hC id

/-- The invariant and `Emptying` hold after every schedule without a further call of
`clear()` / `resize()`. -/
theorem emptying_run (c0 c : Config ε) (acts : List (Action ε)) (tr0 tr : List (Event ε))
    (hI : Config.Inv c0) (hE : Emptying c0)
    (hacts : ∀ a ∈ acts, Action.is_owner_call a = false)
    (h : run c0 tr0 acts = some (c, tr)) : Config.Inv c ∧ Emptying c :=
  run_inv (fun c _ _ => Config.Inv c ∧ Emptying c)
    (fun a => Action.is_owner_call a = false)
    (fun c _ _ a r hI ha hs => ⟨inv_step c a r hI.1 hs, emptying_step c a r hI.1 hI.2 ha hs⟩)
    acts c0 tr0 [] (c, tr) ⟨hI, hE⟩ hacts h

/-- `Clearing` holds after every schedule without a further call of `clear()` /
`resize()`. -/
theorem clearing_run (c0 c : Config ε) (acts : List (Action ε)) (tr0 tr : List (Event ε))
    (hC : Clearing c0) (hacts : ∀ a ∈ acts, Action.is_owner_call a = false)
    (h : run c0 tr0 acts = some (c, tr)) : Clearing c :=
  run_inv (fun c _ _ => Clearing c) (fun a => Action.is_owner_call a = false)
    (fun c _ _ a r hC ha hs => clearing_step c a r hC ha hs)
    acts c0 tr0 [] (c, tr) hC hacts h

/-- C11, counterexample: a pool of one idle worker; the owner calls `resize(0)`; the
worker returns; another thread calls `add_job` (`size()` is still 1, so the job is
enqueued); the owner joins the worker and clears `_threads`: `resize(0)` is left with
`size() == 0` and one job in the queue. -/
theorem resize_zero_queue_not_empty :
    (exec (uninit Nat 0 false)
        [Action.resize 1, Action.ctrl, Action.ctrl, Action.ctrl, Action.worker 0,
         Action.resize 0, Action.worker 0, Action.add_job (fun _ => Except.ok ()),
         Action.ctrl, Action.ctrl, Action.ctrl]).map
      (fun r => (r.1.ctrl, size r.1.pool, r.1.pool._jobs.length))
      = some (Ctrl.ready, 0, 1) := by
  decide

/-- The state right after the call of `resize(0)` satisfies `Emptying`. -/
theorem emptying_after_enter (p : tpool ε) (hL : p._threads.length < UINT_RANGE) :
    Emptying { pool := (resize_enter p 0).1, ctrl := (resize_enter p 0).2.1 } := by
  unfold resize_enter
  split
  · rename_i h0
    exact threads_nil_of_size p hL h0.symm
  · rename_i h0
    rw [if_pos (Nat.pos_of_ne_zero (fun h => h0 h.symm))]
    rfl

/-- The state right after the call of `resize(0)` satisfies `Drained`. -/
theorem drained_after_enter_zero (p : tpool ε)
    (hI : Config.Inv { pool := p, ctrl := Ctrl.ready })
    (hq : p._threads = [] → p._jobs = []) :
    Drained p._threads.length
      { pool := (resize_enter p 0).1, ctrl := (resize_enter p 0).2.1 }
      ([] ++ (resize_enter p 0).2.2) ∧
    (↑(invoked ([] ++ (resize_enter p 0).2.2)) + ↑(in_flight (resize_enter p 0).1._threads)
      + ↑(resize_enter p 0).1._jobs : Multiset (Job ε))
      = ↑(in_flight p._threads) + ↑p._jobs := by
  unfold resize_enter
  split
  · rename_i h0
    have hnil := threads_nil_of_size p hI.1 h0.symm
    refine ⟨⟨hq hnil, by rw [hnil]; rfl, by rw [hnil]; rfl⟩, ?_⟩
    simp [invoked]
  · rename_i h0
    rw [if_pos (Nat.pos_of_ne_zero (fun h => h0 h.symm))]
    exact ⟨drained_after_lock p (some 0) hI hq, by simp [invoked, clear_lock]⟩

/-- C11, amended: let `resize(0)` be called on a pool.  (1) Whatever the other threads
do, when `resize(0)` is left `size() == 0`, and a subsequent `add_job(job)` performs
exactly one call of the job, `job(0)`, before it is left and leaves the pool
unchanged.  (2) When no `add_job` runs concurrently (and the queue is empty if the
pool had no workers), the queue is empty when `resize(0)` is left, and the calls made
meanwhile are, with multiplicity, the jobs that were queued or held by workers.  (3)
When no worker has faulted and the queued and held jobs return, some schedule of
worker and owner steps completes the call. -/
theorem resize_zero (c0 : Config ε) (hI : Config.Inv c0) (hready : c0.ctrl = Ctrl.ready) :
    (∀ (acts : List (Action ε)) (c : Config ε) (tr : List (Event ε)),
      (∀ a ∈ acts, Action.is_owner_call a = false) →
      exec c0 (Action.resize 0 :: acts) = some (c, tr) → c.ctrl = Ctrl.ready →
      size c.pool = 0 ∧ c.pool._threads = [] ∧
      ∀ job : Job ε, (add_job c.pool job).pool = c.pool ∧
        (add_job c.pool job).events = [Event.invoke job 0]) ∧
    (∀ (acts : List (Action ε)) (c : Config ε) (tr : List (Event ε)),
      (∀ a ∈ acts, Action.is_internal a = true) →
      (c0.pool._threads = [] → c0.pool._jobs = []) →
      exec c0 (Action.resize 0 :: acts) = some (c, tr) → c.ctrl = Ctrl.ready →
      c.pool._jobs = [] ∧
      List.Perm (invoked tr) (in_flight c0.pool._threads ++ c0.pool._jobs)) ∧
    ((∀ w ∈ c0.pool._threads, ∀ e, w ≠ Worker.faulted e) →
      (∀ j ∈ c0.pool._jobs, Job.returns j) →
      (∀ j ∈ in_flight c0.pool._threads, Job.returns j) →
      ∃ acts, (∀ a ∈ acts, Action.is_internal a = true) ∧
        ∃ c tr, exec c0 (Action.resize 0 :: acts) = some (c, tr) ∧ c.ctrl = Ctrl.ready) := by
  obtain ⟨p, k⟩ := c0
  simp only at hready
  subst hready
  have h0lt : 0 < UINT_RANGE := by decide
  refine ⟨?_, ?_, ?_⟩
  · intro acts c tr hacts h hk
    simp only [exec, run, step, if_pos h0lt] at h
    obtain ⟨hIc, hE⟩ := emptying_run _ c acts _ tr (inv_resize p 0 h0lt hI)
      (emptying_after_enter p hI.1) hacts h
    obtain ⟨cp, ck⟩ := c
    simp only at hk
    subst hk
    have hnil : cp._threads = [] := hE
    have hsize : size cp = 0 := by simp [size, hnil]
    refine ⟨hsize, hnil, fun job => ?_⟩
    unfold add_job
    rw [if_neg (by rw [hsize]; exact Nat.lt_irrefl 0)]
    cases job 0 <;> exact ⟨rfl, rfl⟩
  · intro acts c tr hacts hq h hk
    simp only [exec, run, step, if_pos h0lt] at h
    obtain ⟨hD0, hP0⟩ := drained_after_enter_zero p hI hq
    obtain ⟨-, hD, hP⟩ := drained_run p._threads.length _ c acts _ tr _
      (inv_resize p 0 h0lt hI) hD0 hP0 hacts h
    obtain ⟨cp, ck⟩ := c
    simp only at hk
    subst hk
    obtain ⟨k1, k2, -⟩ := hD
    refine ⟨k1, ?_⟩
    simp only at k1 k2 hP
    rw [k1, k2] at hP
    exact Multiset.coe_eq_coe.mp (by simpa using hP)
  · intro hnf hret hheld
    have key : ∃ p1, Reaches { pool := (resize_enter p 0).1, ctrl := (resize_enter p 0).2.1 }
        { pool := p1, ctrl := Ctrl.ready } := by
      unfold resize_enter
      split
      · exact ⟨p, Reaches.refl _⟩
      · rename_i h0
        rw [if_pos (Nat.pos_of_ne_zero (fun h => h0 h.symm))]
        obtain ⟨p1, h1, -⟩ := clear_completes (clear_lock p).1 (some 0) rfl hnf hret hheld
        have hstep : step { pool := p1, ctrl := Ctrl.creating 0 } Action.ctrl
            = some ({ pool := p1, ctrl := Ctrl.ready }, []) := by
          simp [step, resize_create]
        exact ⟨p1, h1.trans (Reaches.single Action.ctrl _ rfl hstep)⟩
    obtain ⟨p1, acts, hint, hrun⟩ := key
    obtain ⟨tr1, h1⟩ := hrun ([] ++ (resize_enter p 0).2.2)
    exact ⟨acts, hint, _, tr1, by simpa [exec, run, step, h0lt] using h1, rfl⟩

/-- Witness of the amended C11: `resize(0)` on a pool of one waiting worker with one
queued job, and no concurrent `add_job`. -/
theorem resize_zero_witness :
    ∃ r, exec ({ pool := { _jobs := [fun _ => Except.ok ()], _threads := [Worker.waiting],
                           _n_idle := 1, _shutdown := false },
                 ctrl := Ctrl.ready } : Config Nat)
        [Action.resize 0, Action.worker 0, Action.worker 0, Action.worker 0, Action.ctrl,
         Action.ctrl, Action.ctrl] = some r ∧
      r.1.ctrl = Ctrl.ready ∧ size r.1.pool = 0 ∧ r.1.pool._jobs = [] ∧
      List.Perm (invoked r.2) [fun _ => Except.ok ()] :=
  ⟨(exec ({ pool := { _jobs := [fun _ => Except.ok ()], _threads := [Worker.waiting],
                      _n_idle := 1, _shutdown := false },
            ctrl := Ctrl.ready } : Config Nat)
      [Action.resize 0, Action.worker 0, Action.worker 0, Action.worker 0, Action.ctrl,
       Action.ctrl, Action.ctrl]).get (by decide),
    (Option.some_get _).symm, by decide, by decide,
    ((resize_zero
      ({ pool := { _jobs := [fun _ => Except.ok ()], _threads := [Worker.waiting],
                   _n_idle := 1, _shutdown := false },
         ctrl := Ctrl.ready } : Config Nat)
      ⟨by decide, fun _ => rfl, fun _ w hw he => by subst he; simp at hw, fun _ => rfl⟩
      rfl).2.1
      [Action.worker 0, Action.worker 0, Action.worker 0, Action.ctrl, Action.ctrl,
       Action.ctrl] _ _ (by decide) (fun h => nomatch h)
      (Option.some_get (by decide)).symm (by decide))⟩

/-- C12, counterexample: `clear()` on a default-constructed pool (`size() == 0`) whose
uninitialised `_shutdown` happens to be false: no thread is joined, but `_shutdown` is
true afterwards. -/
theorem clear_sets_shutdown :
    size (uninit Nat 0 false).pool = 0 ∧ (uninit Nat 0 false).pool._shutdown = false ∧
    (exec (uninit Nat 0 false) [Action.clear, Action.ctrl]).map
      (fun r => (r.1.ctrl, r.1.pool._shutdown, joined r.2)) = some (Ctrl.ready, true, []) := by
  decide

/-- The call `clear()` on a pool without workers, run to its end. -/
theorem clear_empty_eval (p : tpool ε) (hnil : p._threads = []) :
    exec { pool := p, ctrl := Ctrl.ready } [Action.clear, Action.ctrl]
      = some ({ pool := { p with _shutdown := true }, ctrl := Ctrl.ready },
              [Event.notify_work_all]) := by
  simp [exec, run, step, clear_lock, clear_join, hnil]

/-- C12, amended: (1) when a call of `clear()` has returned, a second `clear()`
changes no member of the pool and joins no thread (it only notifies `_work_cv`);
(2) `clear()` on a pool with `size() == 0` joins no thread and leaves the queue, the
worker set and `_n_idle` unchanged, and it leaves `_shutdown` set: unchanged if it was
set already, as after an earlier `clear()`. -/
theorem clear_idempotent :
    (∀ (c0 c : Config ε) (acts : List (Action ε)) (tr : List (Event ε)),
      c0.ctrl = Ctrl.ready → (∀ a ∈ acts, Action.is_owner_call a = false) →
      exec c0 (Action.clear :: acts) = some (c, tr) → c.ctrl = Ctrl.ready →
      exec c [Action.clear, Action.ctrl] = some (c, [Event.notify_work_all])) ∧
    (∀ c : Config ε, Config.Inv c → c.ctrl = Ctrl.ready → size c.pool = 0 →
      exec c [Action.clear, Action.ctrl]
        = some ({ pool := { c.pool with _shutdown := true }, ctrl := Ctrl.ready },
                [Event.notify_work_all])) := by
  constructor
  · intro c0 c acts tr hready hacts h hk
    obtain ⟨p, k⟩ := c0
    simp only at hready
    subst hready
    simp only [exec, run, step] at h
    have hC := clearing_run _ c acts _ tr (show Clearing
      { pool := (clear_lock p).1, ctrl := Ctrl.joining 0 none } from ⟨rfl, rfl⟩) hacts h
    obtain ⟨cp, ck⟩ := c
    simp only at hk
    subst hk
    obtain ⟨h1, h2⟩ := hC
    simp only at h1 h2
    rw [clear_empty_eval cp h1]
    obtain ⟨cj, ct, cn, cs⟩ := cp
    simp only at h2
    subst h2
    rfl
  · intro c hI hready hsize
    obtain ⟨p, k⟩ := c
    simp only at hready hsize
    subst hready
    exact clear_empty_eval p (threads_nil_of_size p hI.1 hsize)

/-- Witness of the amended C12: `clear()` twice on a pool of one waiting worker. -/
theorem clear_idempotent_witness :
    ∃ r, exec ({ pool := { _jobs := [], _threads := [Worker.waiting],
                           _n_idle := 1, _shutdown := false },
                 ctrl := Ctrl.ready } : Config Nat)
        [Action.clear, Action.worker 0, Action.ctrl, Action.ctrl] = some r ∧
      r.1.ctrl = Ctrl.ready ∧
      exec r.1 [Action.clear, Action.ctrl] = some (r.1, [Event.notify_work_all]) :=
  ⟨(exec ({ pool := { _jobs := [], _threads := [Worker.waiting],
                      _n_idle := 1, _shutdown := false },
            ctrl := Ctrl.ready } : Config Nat)
      [Action.clear, Action.worker 0, Action.ctrl, Action.ctrl]).get (by decide),
    (Option.some_get _).symm, by decide,
    clear_idempotent.1
      ({ pool := { _jobs := [], _threads := [Worker.waiting],
                   _n_idle := 1, _shutdown := false },
         ctrl := Ctrl.ready } : Config Nat) _
      [Action.worker 0, Action.ctrl, Action.ctrl] _ rfl (by decide)
      (Option.some_get (by decide)).symm (by decide)⟩

end empty

/-! ## The thread count is an `unsigned` -/

section count

variable {ε : Type}

/-- C15, counterexample: the constructor call `tpool(-1)`.  The argument is converted
to `4294967295`; the call is not rejected, the members are written and worker `0` is
spawned. -/
theorem negative_count_accepted :
    to_unsigned (-1) = 4294967295 ∧
    (exec (uninit Nat 0 true) [Action.resize (to_unsigned (-1)), Action.ctrl, Action.ctrl]).map
      (fun r => (r.1.ctrl, r.1.pool._threads.length, r.1.pool._shutdown, spawned r.2))
      = some (Ctrl.spawning 1 4294967295, 1, false, [0]) := by
  decide

/-- C15, amended: the thread count of the constructor and of `resize` has type
`unsigned`, so no count is rejected: an integer argument `z` is taken modulo `2^32`
(a negative `z > -2^32` becomes `2^32 + z > 0`), the call proceeds as for any count
(lines 56-63), and on a pool without workers a count that is not `0` modulo `2^32`
makes the owner reset `_n_idle`, `_shutdown` and spawn worker `0`. -/
theorem resize_accepts_any_count (c : Config ε) (z : Int) (hready : c.ctrl = Ctrl.ready) :
    to_unsigned z < UINT_RANGE ∧
    (z < 0 → -(UINT_RANGE : Int) < z →
      ((to_unsigned z : Nat) : Int) = z + UINT_RANGE ∧ 0 < to_unsigned z) ∧
    step c (Action.resize (to_unsigned z))
      = some ({ pool := (resize_enter c.pool (to_unsigned z)).1,
                ctrl := (resize_enter c.pool (to_unsigned z)).2.1 },
              (resize_enter c.pool (to_unsigned z)).2.2) ∧
    (c.pool._threads = [] → 0 < to_unsigned z →
      exec c [Action.resize (to_unsigned z), Action.ctrl, Action.ctrl]
        = some ({ pool := { c.pool with _threads := [Worker.top], _n_idle := 0,
                                        _shutdown := false },
                  ctrl := Ctrl.spawning 1 (to_unsigned z) }, [Event.spawn 0])) := by
  have hlt : to_unsigned z < UINT_RANGE := by
    simp only [to_unsigned, UINT_RANGE]
    omega
  obtain ⟨p, k⟩ := c
  simp only at hready
  subst hready
  refine ⟨hlt, ?_, ?_, ?_⟩
  · intro h1 h2
    simp only [to_unsigned, UINT_RANGE] at h2 ⊢
    omega
  · simp only [step, if_pos hlt]
  · intro hnil hpos
    simp only at hnil
    have hsz : size p = 0 := by simp [size, hnil]
    have hne : to_unsigned z ≠ 0 := by omega
    simp [exec, run, step, hlt, resize_enter, hsz, hne, resize_create, resize_spawn, hpos,
      hnil]

/-- Witness of the amended C15: the call `resize(-3)` on a default-constructed pool. -/
theorem resize_accepts_any_count_witness :
    exec (uninit Nat 0 false) [Action.resize (to_unsigned (-3)), Action.ctrl, Action.ctrl]
      = some ({ pool := { _jobs := [], _threads := [Worker.top], _n_idle := 0,
                          _shutdown := false },
                ctrl := Ctrl.spawning 1 (to_unsigned (-3)) }, [Event.spawn 0]) :=
  (resize_accepts_any_count (uninit Nat 0 false) (-3) rfl).2.2.2 rfl (by decide)

end count

/-! ## The accounting of the workers -/

section accounting

variable {ε : Type}

/-- Every worker is counted idle, holds a job, is at the head of its loop, or has
faulted. -/
theorem workers_partition (ws : List (Worker ε)) :
    counted_idle ws + (in_flight ws).length + not_yet_idle ws + faulted_count ws
      = ws.length := by
  induction ws with
  | nil => rfl
  | cons w rest ih =>
    have h : counted_idle (w :: rest) + (in_flight (w :: rest)).length
        + not_yet_idle (w :: rest) + faulted_count (w :: rest)
        = counted_idle rest + (in_flight rest).length + not_yet_idle rest
          + faulted_count rest + 1 := by
      cases w <;>
        simp [counted_idle, in_flight, not_yet_idle, faulted_count, Worker.counted,
          Worker.held, Worker.is_top, Worker.is_faulted, List.countP_cons] <;> omega
    rw [h, ih, List.length_cons]

end accounting

/-! ## Signals to `wait_jobs` -/

section signals

variable {ε : Type}

end signals

/-! ## After a fault -/

section after_fault

variable {ε : Type}

theorem faulted_count_split (l1 l2 : List (Worker ε)) (w : Worker ε) :
    faulted_count (l1 ++ w :: l2)
      = faulted_count l1 + (if Worker.is_faulted w then 1 else 0) + faulted_count l2 := by
  simp only [faulted_count, List.countP_append, List.countP_cons]
  omega

/-- Workers that returned are not faulted. -/
theorem faulted_count_exited (ws : List (Worker ε))
    (h : ∀ k, k < ws.length → ws[k]? = some Worker.exited) : faulted_count ws = 0 := by
  unfold faulted_count
  rw [List.countP_eq_zero]
  intro w hw
  obtain ⟨k, hk, hwk⟩ := List.getElem_of_mem hw
  have h1 := h k hk
  rw [List.getElem?_eq_getElem hk, hwk] at h1
  simp only [Option.some.injEq] at h1
  subst h1
  simp [Worker.is_faulted]

/-- A step keeps the faulted workers and the thread vector, which grows only while the
owner is spawning. -/
theorem fault_step (c : Config ε) (a : Action ε) (r : Config ε × List (Event ε))
    (hI : Config.Inv c) (hf : 0 < faulted_count c.pool._threads)
    (hs : step c a = some r) :
    0 < faulted_count r.1.pool._threads ∧
    c.pool._threads.length ≤ r.1.pool._threads.length ∧
    (Ctrl.is_spawning c.ctrl = false →
      Ctrl.is_spawning r.1.ctrl = false ∧
      r.1.pool._threads.length = c.pool._threads.length) := by
  obtain ⟨p, k⟩ := c
  obtain ⟨hL, hN, hE, hC⟩ := hI
  simp only at hL hN hE hC hf ⊢
  have hne : p._threads ≠ [] := by
    intro h0
    rw [h0] at hf
    exact absurd hf (Nat.lt_irrefl 0)
  cases a with
  | add_job job =>
    simp only [step, Option.some.injEq] at hs
    subst hs
    simp only [(add_job_frame p job).1]
    exact ⟨hf, Nat.le_refl _, fun h => ⟨h, trivial⟩⟩
  | wait_jobs pc =>
    simp only [step, Option.some.injEq] at hs
    subst hs
    simp only [wait_jobs_pool]
    exact ⟨hf, Nat.le_refl _, fun h => ⟨h, trivial⟩⟩
  | worker i =>
    simp only [step] at hs
    cases hw : worker p i with
    | none => simp [hw] at hs
    | some r1 =>
      simp only [hw, Option.some.injEq] at hs
      subst hs
      obtain ⟨w, w1, js, n, ev, hstep, hget, rfl⟩ := worker_spec _ _ _ hw
      obtain ⟨l1, l2, hsplit, -, hset⟩ := set_split _ _ _ hget
      simp only [List.length_set]
      refine ⟨?_, Nat.le_refl _, fun h => ⟨h, trivial⟩⟩
      rw [hset w1]
      rw [hsplit, faulted_count_split] at hf
      rw [faulted_count_split]
      have hw0 : Worker.is_faulted w = false := by cases hstep <;> rfl
      rw [hw0] at hf
      simp only [Bool.false_eq_true, if_false] at hf
      omega
  | clear =>
    cases k with
    | ready =>
      simp only [step, Option.some.injEq] at hs
      subst hs
      exact ⟨hf, Nat.le_refl _, fun _ => ⟨rfl, rfl⟩⟩
    | joining i ret => simp [step] at hs
    | creating n => simp [step] at hs
    | spawning i n => simp [step] at hs
  | resize n =>
    cases k with
    | ready =>
      simp only [step] at hs
      split at hs
      · simp only [Option.some.injEq] at hs
        subst hs
        unfold resize_enter
        split
        · exact ⟨hf, Nat.le_refl _, fun _ => ⟨rfl, rfl⟩⟩
        · split
          · exact ⟨hf, Nat.le_refl _, fun _ => ⟨rfl, rfl⟩⟩
          · exact ⟨hf, Nat.le_refl _, fun _ => ⟨rfl, rfl⟩⟩
      · cases hs
    | joining i ret => simp [step] at hs
    | creating n => simp [step] at hs
    | spawning i n => simp [step] at hs
  | ctrl =>
    cases k with
    | ready => simp [step] at hs
    | joining i ret =>
      simp only [step] at hs
      cases hj : clear_join p i ret with
      | none => simp [hj] at hs
      | some r1 =>
        simp only [hj, Option.some.injEq] at hs
        subst hs
        unfold clear_join at hj
        split at hj
        · split at hj
          · simp only [Option.some.injEq] at hj
            subst hj
            exact ⟨hf, Nat.le_refl _, fun _ => ⟨rfl, rfl⟩⟩
          · cases hj
        · rename_i hge
          exfalso
          have h0 := faulted_count_exited p._threads
            (fun k hk => hC.2.1 k (by omega))
          omega
    | creating n =>
      exfalso
      exact hne hC.1
    | spawning i n =>
      simp only [step, Option.some.injEq] at hs
      subst hs
      unfold resize_spawn
      split
      · refine ⟨?_, by simp, fun h => by simp [Ctrl.is_spawning] at h⟩
        simp only [faulted_count, List.countP_append] at hf ⊢
        omega
      · exact ⟨hf, Nat.le_refl _, fun h => by simp [Ctrl.is_spawning] at h⟩

/-- C28: once a worker has faulted, in every later state the faulted worker is still
an entry of `_threads`, `_threads.size()` has not shrunk and, unless the owner was
spawning workers at the time, is unchanged; `_n_idle` counts only workers that have
not faulted, so `_n_idle < _threads.size()`, the exit condition of `wait_jobs` is false
and a thread blocked in `wait_jobs` stays blocked. -/
theorem fault_not_repaired (g : Nat) (b : Bool) (acts acts1 : List (Action ε))
    (c c1 : Config ε) (tr tr1 : List (Event ε))
    (h : exec (uninit ε g b) acts = some (c, tr))
    (hf : 0 < faulted_count c.pool._threads)
    (h1 : run c tr acts1 = some (c1, tr1)) :
    0 < faulted_count c1.pool._threads ∧
    size c.pool ≤ size c1.pool ∧
    (Ctrl.is_spawning c.ctrl = false → size c1.pool = size c.pool) ∧
    c1.pool._n_idle + faulted_count c1.pool._threads ≤ size c1.pool ∧
    c1.pool._n_idle < size c1.pool ∧
    wait_exit c1.pool = false ∧
    (wait_jobs c1.pool WaitPc.blocked).2 = WaitPc.blocked := by
  have hI := inv_run acts _ [] (c, tr) (inv_uninit g b) h
  simp only at hI
  have hrun := run_inv
    (fun (d : Config ε) _ _ => Config.Inv d ∧ 0 < faulted_count d.pool._threads ∧
      c.pool._threads.length ≤ d.pool._threads.length ∧
      (Ctrl.is_spawning c.ctrl = false →
        Ctrl.is_spawning d.ctrl = false ∧
        d.pool._threads.length = c.pool._threads.length))
    (fun _ => True)
    (fun d _ _ a r hd _ hs => by
      obtain ⟨hd1, hd2, hd3, hd4⟩ := hd
      obtain ⟨hs1, hs2, hs3⟩ := fault_step d a r hd1 hd2 hs
      refine ⟨inv_step d a r hd1 hs, hs1, Nat.le_trans hd3 hs2, fun hsp => ?_⟩
      obtain ⟨hd5, hd6⟩ := hd4 hsp
      obtain ⟨hs4, hs5⟩ := hs3 hd5
      exact ⟨hs4, by rw [hs5, hd6]⟩)
    acts1 c tr [] (c1, tr1) ⟨hI, hf, Nat.le_refl _, fun hsp => ⟨hsp, rfl⟩⟩
    (fun _ _ => trivial) h1
  simp only at hrun
  obtain ⟨hI1, hf1, hlen, hsame⟩ := hrun
  obtain ⟨hL1, hN1, -, -⟩ := hI1
  have hne : c1.pool._threads ≠ [] := by
    intro h0
    rw [h0] at hf1
    exact absurd hf1 (Nat.lt_irrefl 0)
  have hn := hN1 hne
  have hp := workers_partition c1.pool._threads
  have hlt : c1.pool._n_idle < c1.pool._threads.length := by omega
  have hexit : wait_exit c1.pool = false := by
    simp only [wait_exit, Bool.and_eq_false_iff, beq_eq_false_iff_ne]
    exact Or.inr (by omega)
  rw [size_eq _ hL1, size_eq _ hI.1]
  refine ⟨hf1, hlen, fun hsp => (hsame hsp).2, by omega, hlt, hexit, ?_⟩
  simp only [wait_jobs, hexit, Bool.not_false, if_true]

/-- Witness of C28: the only worker of a pool dequeues a job that throws; afterwards
another job is submitted and a thread blocked in `wait_jobs` is woken. -/
theorem fault_not_repaired_witness :
    ∃ r r1, exec (uninit Nat 3 true)
        [Action.resize 1, Action.ctrl, Action.ctrl, Action.ctrl,
         Action.add_job (fun _ => Except.error 7), Action.worker 0, Action.worker 0]
        = some r ∧
      run r.1 r.2 [Action.add_job (fun _ => Except.ok ()),
        Action.wait_jobs WaitPc.blocked] = some r1 ∧
      size r1.1.pool = 1 ∧ r1.1.pool._n_idle < size r1.1.pool ∧
      wait_exit r1.1.pool = false :=
  ⟨(exec (uninit Nat 3 true)
      [Action.resize 1, Action.ctrl, Action.ctrl, Action.ctrl,
       Action.add_job (fun _ => Except.error 7), Action.worker 0, Action.worker 0]).get
      (by decide),
    (run _ _ [Action.add_job (fun _ => Except.ok ()),
        Action.wait_jobs WaitPc.blocked]).get (by decide),
    (Option.some_get _).symm, (Option.some_get _).symm, by decide,
    (fault_not_repaired 3 true
      [Action.resize 1, Action.ctrl, Action.ctrl, Action.ctrl,
       Action.add_job (fun _ => Except.error 7), Action.worker 0, Action.worker 0]
      [Action.add_job (fun _ => Except.ok ()), Action.wait_jobs WaitPc.blocked]
      _ _ _ _ (Option.some_get (by decide)).symm (by decide)
      (Option.some_get (by decide)).symm).2.2.2.2.1,
    by decide⟩

end after_fault

/-! ## The thread id passed to a job -/

section identity

variable {ε : Type}

end identity

end tpool

namespace algorithm_extra

/-! ## `min_of`, `max_of` -/

section minmax

variable {α κ : Type}

theorem getElem?_snoc (pre : List α) (x : α) (j : Nat) (y : α) :
    (pre ++ [x])[j]? = some y ↔ pre[j]? = some y ∨ (j = pre.length ∧ y = x) := by
  rcases Nat.lt_trichotomy j pre.length with h | h | h
  · rw [List.getElem?_append_left h]
    constructor
    · exact Or.inl
    · rintro (h1 | ⟨h1, -⟩)
      · exact h1
      · omega
  · subst h
    rw [List.getElem?_append_right (Nat.le_refl _), List.getElem?_eq_none (Nat.le_refl _)]
    simp [eq_comm]
  · have h1 : (pre ++ [x])[j]? = none :=
      List.getElem?_eq_none (by simp only [List.length_append, List.length_singleton]; omega)
    have h2 : pre[j]? = none := List.getElem?_eq_none (by omega)
    rw [h1, h2]
    constructor
    · intro h0
      cases h0
    · rintro (h0 | ⟨h0, -⟩)
      · cases h0
      · omega

/-- Invariant of the loop of `min_of`: `m` points at the first element of least key
among those already visited (`pre`). -/
theorem min_of_loop_spec [LinearOrder κ] (f : α → κ) :
    ∀ (rest pre : List α) (m : Nat × α), pre[m.1]? = some m.2 →
      (∀ (j : Nat) (y : α), pre[j]? = some y → f m.2 ≤ f y) →
      (∀ (j : Nat) (y : α), j < m.1 → pre[j]? = some y → f m.2 < f y) →
      (pre ++ rest)[(min_of_loop f rest pre.length m).1]?
        = some (min_of_loop f rest pre.length m).2 ∧
      (∀ (j : Nat) (y : α), (pre ++ rest)[j]? = some y → f (min_of_loop f rest pre.length m).2 ≤ f y) ∧
      (∀ (j : Nat) (y : α), j < (min_of_loop f rest pre.length m).1 → (pre ++ rest)[j]? = some y →
        f (min_of_loop f rest pre.length m).2 < f y) := by
  intro rest
  induction rest with
  | nil =>
    intro pre m h1 h2 h3
    simpa [min_of_loop] using ⟨h1, h2, h3⟩
  | cons x rest ih =>
    intro pre m h1 h2 h3
    have hlist : pre ++ x :: rest = (pre ++ [x]) ++ rest := by simp
    have hlen : (pre ++ [x]).length = pre.length + 1 := by simp
    have hm : m.1 < pre.length := by
      by_contra hge
      rw [List.getElem?_eq_none (by omega)] at h1
      cases h1
    simp only [min_of_loop]
    rw [hlist, ← hlen]
    split
    · rename_i hlt
      apply ih (pre ++ [x]) (pre.length, x)
      · exact (getElem?_snoc pre x _ _).mpr (Or.inr ⟨rfl, rfl⟩)
      · intro j y hy
        rcases (getElem?_snoc pre x j y).mp hy with hy | ⟨-, rfl⟩
        · exact le_of_lt (lt_of_lt_of_le hlt (h2 j y hy))
        · exact le_refl _
      · intro j y hj hy
        rcases (getElem?_snoc pre x j y).mp hy with hy | ⟨hj1, -⟩
        · exact lt_of_lt_of_le hlt (h2 j y hy)
        · simp only at hj
          omega
    · rename_i hge
      apply ih (pre ++ [x]) m
      · exact (getElem?_snoc pre x _ _).mpr (Or.inl h1)
      · intro j y hy
        rcases (getElem?_snoc pre x j y).mp hy with hy | ⟨-, rfl⟩
        · exact h2 j y hy
        · exact not_lt.mp hge
      · intro j y hj hy
        rcases (getElem?_snoc pre x j y).mp hy with hy | ⟨hj1, -⟩
        · exact h3 j y hj hy
        · omega

/-- Invariant of the loop of `max_of`: `m` points at the first element of greatest key
among those already visited (`pre`). -/
theorem max_of_loop_spec [LinearOrder κ] (f : α → κ) :
    ∀ (rest pre : List α) (m : Nat × α), pre[m.1]? = some m.2 →
      (∀ (j : Nat) (y : α), pre[j]? = some y → f y ≤ f m.2) →
      (∀ (j : Nat) (y : α), j < m.1 → pre[j]? = some y → f y < f m.2) →
      (pre ++ rest)[(max_of_loop f rest pre.length m).1]?
        = some (max_of_loop f rest pre.length m).2 ∧
      (∀ (j : Nat) (y : α), (pre ++ rest)[j]? = some y → f y ≤ f (max_of_loop f rest pre.length m).2) ∧
      (∀ (j : Nat) (y : α), j < (max_of_loop f rest pre.length m).1 → (pre ++ rest)[j]? = some y →
        f y < f (max_of_loop f rest pre.length m).2) := by
  intro rest
  induction rest with
  | nil =>
    intro pre m h1 h2 h3
    simpa [max_of_loop] using ⟨h1, h2, h3⟩
  | cons x rest ih =>
    intro pre m h1 h2 h3
    have hlist : pre ++ x :: rest = (pre ++ [x]) ++ rest := by simp
    have hlen : (pre ++ [x]).length = pre.length + 1 := by simp
    have hm : m.1 < pre.length := by
      by_contra hge
      rw [List.getElem?_eq_none (by omega)] at h1
      cases h1
    simp only [max_of_loop]
    rw [hlist, ← hlen]
    split
    · rename_i hlt
      apply ih (pre ++ [x]) (pre.length, x)
      · exact (getElem?_snoc pre x _ _).mpr (Or.inr ⟨rfl, rfl⟩)
      · intro j y hy
        rcases (getElem?_snoc pre x j y).mp hy with hy | ⟨-, rfl⟩
        · exact le_of_lt (lt_of_le_of_lt (h2 j y hy) hlt)
        · exact le_refl _
      · intro j y hj hy
        rcases (getElem?_snoc pre x j y).mp hy with hy | ⟨hj1, -⟩
        · exact lt_of_le_of_lt (h2 j y hy) hlt
        · simp only at hj
          omega
    · rename_i hge
      apply ih (pre ++ [x]) m
      · exact (getElem?_snoc pre x _ _).mpr (Or.inl h1)
      · intro j y hy
        rcases (getElem?_snoc pre x j y).mp hy with hy | ⟨-, rfl⟩
        · exact h2 j y hy
        · exact not_lt.mp hge
      · intro j y hj hy
        rcases (getElem?_snoc pre x j y).mp hy with hy | ⟨hj1, -⟩
        · exact h3 j y hj hy
        · omega

/-- The iterator kept by the loop of `min_of` stays inside the range and points at the
element kept with it; no property of `<` is needed. -/
theorem min_of_loop_valid [LT κ] [DecidableRel (fun a b : κ => a < b)] (f : α → κ) :
    ∀ (rest pre : List α) (m : Nat × α), pre[m.1]? = some m.2 →
      (pre ++ rest)[(min_of_loop f rest pre.length m).1]?
        = some (min_of_loop f rest pre.length m).2 := by
  intro rest
  induction rest with
  | nil =>
    intro pre m h1
    simpa [min_of_loop] using h1
  | cons x rest ih =>
    intro pre m h1
    have hlist : pre ++ x :: rest = (pre ++ [x]) ++ rest := by simp
    have hlen : (pre ++ [x]).length = pre.length + 1 := by simp
    simp only [min_of_loop]
    rw [hlist, ← hlen]
    split
    · exact ih (pre ++ [x]) (pre.length, x) ((getElem?_snoc pre x _ _).mpr (Or.inr ⟨rfl, rfl⟩))
    · exact ih (pre ++ [x]) m ((getElem?_snoc pre x _ _).mpr (Or.inl h1))

/-- The iterator kept by the loop of `max_of` stays inside the range. -/
theorem max_of_loop_valid [LT κ] [DecidableRel (fun a b : κ => a < b)] (f : α → κ) :
    ∀ (rest pre : List α) (m : Nat × α), pre[m.1]? = some m.2 →
      (pre ++ rest)[(max_of_loop f rest pre.length m).1]?
        = some (max_of_loop f rest pre.length m).2 := by
  intro rest
  induction rest with
  | nil =>
    intro pre m h1
    simpa [max_of_loop] using h1
  | cons x rest ih =>
    intro pre m h1
    have hlist : pre ++ x :: rest = (pre ++ [x]) ++ rest := by simp
    have hlen : (pre ++ [x]).length = pre.length + 1 := by simp
    simp only [max_of_loop]
    rw [hlist, ← hlen]
    split
    · exact ih (pre ++ [x]) (pre.length, x) ((getElem?_snoc pre x _ _).mpr (Or.inr ⟨rfl, rfl⟩))
    · exact ih (pre ++ [x]) m ((getElem?_snoc pre x _ _).mpr (Or.inl h1))

/-- On a non-empty range `min_of` returns a position of the range. -/
theorem min_of_valid [LT κ] [DecidableRel (fun a b : κ => a < b)] (l : List α) (f : α → κ)
    (hne : l ≠ []) : ∃ x, l[min_of l f]? = some x := by
  cases l with
  | nil => exact absurd rfl hne
  | cons x rest => exact ⟨_, min_of_loop_valid f rest [x] (0, x) rfl⟩

/-- On a non-empty range `max_of` returns a position of the range. -/
theorem max_of_valid [LT κ] [DecidableRel (fun a b : κ => a < b)] (l : List α) (f : α → κ)
    (hne : l ≠ []) : ∃ x, l[max_of l f]? = some x := by
  cases l with
  | nil => exact absurd rfl hne
  | cons x rest => exact ⟨_, max_of_loop_valid f rest [x] (0, x) rfl⟩

theorem getElem?_single (x y : α) (j : Nat) (h : [x][j]? = some y) : j = 0 ∧ y = x := by
  cases j with
  | zero =>
    simp at h
    exact ⟨rfl, h.symm⟩
  | succ d => simp at h

/-- On a non-empty range, `min_of` is the position of the first element of least key. -/
theorem min_of_first_least [LinearOrder κ] (l : List α) (f : α → κ) (hne : l ≠ []) :
    ∃ x, l[min_of l f]? = some x ∧ (∀ (j : Nat) (y : α), l[j]? = some y → f x ≤ f y) ∧
      ∀ (j : Nat) (y : α), j < min_of l f → l[j]? = some y → f x < f y := by
  cases l with
  | nil => exact absurd rfl hne
  | cons x rest =>
    exact ⟨_, min_of_loop_spec f rest [x] (0, x) rfl
      (fun j y hy => by rw [(getElem?_single x y j hy).2])
      (fun j y hj _ => absurd hj (Nat.not_lt_zero j))⟩

/-- On a non-empty range, `max_of` is the position of the first element of greatest
key. -/
theorem max_of_first_greatest [LinearOrder κ] (l : List α) (f : α → κ) (hne : l ≠ []) :
    ∃ x, l[max_of l f]? = some x ∧ (∀ (j : Nat) (y : α), l[j]? = some y → f y ≤ f x) ∧
      ∀ (j : Nat) (y : α), j < max_of l f → l[j]? = some y → f y < f x := by
  cases l with
  | nil => exact absurd rfl hne
  | cons x rest =>
    exact ⟨_, max_of_loop_spec f rest [x] (0, x) rfl
      (fun j y hy => by rw [(getElem?_single x y j hy).2])
      (fun j y hj _ => absurd hj (Nat.not_lt_zero j))⟩

/-- C16: `min_of` returns `last` on an empty range; on a non-empty range it returns the
position `p` of an element `x` of the range with `f(x) <= f(y)` for every element `y`
and `f(x) < f(y)` for every element `y` at a position before `p`. -/
theorem min_of_spec [LinearOrder κ] (l : List α) (f : α → κ) :
    (l = [] → min_of l f = l.length) ∧
    (l ≠ [] → ∃ x, l[min_of l f]? = some x ∧
      (∀ (j : Nat) (y : α), l[j]? = some y → f x ≤ f y) ∧
      ∀ (j : Nat) (y : α), j < min_of l f → l[j]? = some y → f x < f y) :=
  ⟨fun h => by subst h; rfl, min_of_first_least l f⟩

/-- Witness of C16: the container of the test, `{ 45, 12, 6, 19, 133, 42 }`, with the
identity as key, and with the key `v % 10` (least key at two positions). -/
theorem min_of_spec_witness :
    min_of [45, 12, 6, 19, 133, 42] (fun v : Int => v) = 2 ∧
    min_of [45, 12, 6, 19, 133, 42] (fun v : Int => v % 10) = 1 ∧
    ∃ x, [45, 12, 6, 19, 133, 42][min_of [45, 12, 6, 19, 133, 42] (fun v : Int => v)]?
        = some x ∧
      (∀ (j : Nat) (y : Int), [45, 12, 6, 19, 133, 42][j]? = some y → x ≤ y) ∧
      ∀ (j : Nat) (y : Int), j < min_of [45, 12, 6, 19, 133, 42] (fun v : Int => v) →
        [45, 12, 6, 19, 133, 42][j]? = some y → x < y :=
  ⟨by decide, by decide,
    (min_of_spec [45, 12, 6, 19, 133, 42] (fun v : Int => v)).2 (fun h => nomatch h)⟩

/-- C17: `max_of` returns `last` on an empty range; on a non-empty range it returns the
position `p` of an element `x` of the range with `f(y) <= f(x)` for every element `y`
and `f(y) < f(x)` for every element `y` at a position before `p`. -/
theorem max_of_spec [LinearOrder κ] (l : List α) (f : α → κ) :
    (l = [] → max_of l f = l.length) ∧
    (l ≠ [] → ∃ x, l[max_of l f]? = some x ∧
      (∀ (j : Nat) (y : α), l[j]? = some y → f y ≤ f x) ∧
      ∀ (j : Nat) (y : α), j < max_of l f → l[j]? = some y → f y < f x) :=
  ⟨fun h => by subst h; rfl, max_of_first_greatest l f⟩

/-- Witness of C17: the container of the test, with the identity as key and with the
key `v / 100`, and a container whose greatest key `45` (key `v % 88`) is at the
positions 0, 3 and 4. -/
theorem max_of_spec_witness :
    max_of [45, 12, 6, 19, 133, 42] (fun v : Int => v) = 4 ∧
    max_of [45, 12, 6, 19, 133, 42] (fun v : Int => v / 100) = 4 ∧
    max_of [45, 12, 6, 45, 133, 42] (fun v : Int => v % 88) = 0 ∧
    ∃ x, [45, 12, 6, 19, 133, 42][max_of [45, 12, 6, 19, 133, 42] (fun v : Int => v)]?
        = some x ∧
      (∀ (j : Nat) (y : Int), [45, 12, 6, 19, 133, 42][j]? = some y → y ≤ x) ∧
      ∀ (j : Nat) (y : Int), j < max_of [45, 12, 6, 19, 133, 42] (fun v : Int => v) →
        [45, 12, 6, 19, 133, 42][j]? = some y → y < x :=
  ⟨by decide, by decide, by decide,
    (max_of_spec [45, 12, 6, 19, 133, 42] (fun v : Int => v)).2 (fun h => nomatch h)⟩

end minmax

/-! ## `minmax_of` and the value versions -/

section values

variable {α κ : Type}

/-- The single loop of `minmax_of` computes what the loops of `min_of` and `max_of`
compute. -/
theorem minmax_of_loop_eq [LT κ] [DecidableRel (fun a b : κ => a < b)] (f : α → κ) :
    ∀ (rest : List α) (it : Nat) (s : (Nat × α) × (Nat × α)),
      minmax_of_loop f rest it s = (min_of_loop f rest it s.1, max_of_loop f rest it s.2) := by
  intro rest
  induction rest with
  | nil =>
    intro it s
    rfl
  | cons x rest ih =>
    intro it s
    simp only [minmax_of_loop, min_of_loop, max_of_loop, ih]
    by_cases h1 : f x < f s.1.2 <;> by_cases h2 : f s.2.2 < f x <;> simp [h1, h2]

theorem minmax_of_eq [LT κ] [DecidableRel (fun a b : κ => a < b)] (l : List α) (f : α → κ) :
    minmax_of l f = (min_of l f, max_of l f) := by
  cases l with
  | nil => rfl
  | cons x rest => simp only [minmax_of, min_of, max_of, minmax_of_loop_eq]

/-- The value returned by `min_value_of` on a non-empty range. -/
theorem min_value_of_eq [LT κ] [DecidableRel (fun a b : κ => a < b)] [Inhabited κ]
    (l : List α) (f : α → κ) (x : α) (h : l[min_of l f]? = some x) :
    min_value_of l f = f x := by
  have hlt : min_of l f < l.length := by
    by_contra hge
    rw [List.getElem?_eq_none (by omega)] at h
    cases h
  simp only [min_value_of, h]
  rw [if_pos (by omega)]

/-- The value returned by `max_value_of` on a non-empty range. -/
theorem max_value_of_eq [LT κ] [DecidableRel (fun a b : κ => a < b)] [Inhabited κ]
    (l : List α) (f : α → κ) (x : α) (h : l[max_of l f]? = some x) :
    max_value_of l f = f x := by
  have hlt : max_of l f < l.length := by
    by_contra hge
    rw [List.getElem?_eq_none (by omega)] at h
    cases h
  simp only [max_value_of, h]
  rw [if_pos (by omega)]

/-- C18: for every range and key function, with any `<` on the keys, `minmax_of`
returns the pair of what `min_of` and `max_of` return, and `minmax_value_of` the pair
of what `min_value_of` and `max_value_of` return. -/
theorem minmax_of_refines [LT κ] [DecidableRel (fun a b : κ => a < b)] [Inhabited κ]
    (l : List α) (f : α → κ) :
    minmax_of l f = (min_of l f, max_of l f) ∧
    minmax_value_of l f = (min_value_of l f, max_value_of l f) := by
  refine ⟨minmax_of_eq l f, ?_⟩
  by_cases hne : l = []
  · subst hne
    rfl
  · obtain ⟨x, hx⟩ := min_of_valid l f hne
    obtain ⟨y, hy⟩ := max_of_valid l f hne
    have hlt : min_of l f < l.length := by
      by_contra hge
      rw [List.getElem?_eq_none (by omega)] at hx
      cases hx
    rw [min_value_of_eq l f x hx, max_value_of_eq l f y hy]
    simp only [minmax_value_of, minmax_of_eq, hx, hy]
    rw [if_pos (by omega)]

/-- Witness of C18: the container of the test with the identity as key: the positions
`(2, 4)` and the values `(6, 133)` the test expects. -/
theorem minmax_of_refines_witness :
    minmax_of [45, 12, 6, 19, 133, 42] (fun v : Int => v) = (2, 4) ∧
    minmax_value_of [45, 12, 6, 19, 133, 42] (fun v : Int => v) = (6, 133) ∧
    minmax_value_of ([] : List Int) (fun v : Int => v) = (0, 0) ∧
    minmax_of [45, 12, 6, 19, 133, 42] (fun v : Int => v)
      = (min_of [45, 12, 6, 19, 133, 42] (fun v : Int => v),
         max_of [45, 12, 6, 19, 133, 42] (fun v : Int => v)) :=
  ⟨by decide, by decide, by decide,
    (minmax_of_refines [45, 12, 6, 19, 133, 42] (fun v : Int => v)).1⟩

/-- C19: on a non-empty range, `min_value_of` and `max_value_of` bound the key of every
element, and each is the key of some element of the range. -/
theorem value_bounds [LinearOrder κ] [Inhabited κ] (l : List α) (f : α → κ)
    (hne : l ≠ []) :
    (∀ x ∈ l, min_value_of l f ≤ f x ∧ f x ≤ max_value_of l f) ∧
    (∃ y ∈ l, min_value_of l f = f y) ∧ (∃ y ∈ l, max_value_of l f = f y) := by
  obtain ⟨a, ha, hamin, -⟩ := min_of_first_least l f hne
  obtain ⟨b, hb, hbmax, -⟩ := max_of_first_greatest l f hne
  rw [min_value_of_eq l f a ha, max_value_of_eq l f b hb]
  refine ⟨fun x hx => ?_, ⟨a, List.mem_iff_getElem?.mpr ⟨_, ha⟩, rfl⟩,
    ⟨b, List.mem_iff_getElem?.mpr ⟨_, hb⟩, rfl⟩⟩
  obtain ⟨j, hj⟩ := List.mem_iff_getElem?.mp hx
  exact ⟨hamin j x hj, hbmax j x hj⟩

/-- Witness of C19: the container of the test with the identity as key: the values
`6` and `133` the test expects. -/
theorem value_bounds_witness :
    min_value_of [45, 12, 6, 19, 133, 42] (fun v : Int => v) = 6 ∧
    max_value_of [45, 12, 6, 19, 133, 42] (fun v : Int => v) = 133 ∧
    ∀ x ∈ [45, 12, 6, 19, 133, (42 : Int)],
      min_value_of [45, 12, 6, 19, 133, 42] (fun v : Int => v) ≤ x ∧
      x ≤ max_value_of [45, 12, 6, 19, 133, 42] (fun v : Int => v) :=
  ⟨by decide, by decide,
    (value_bounds [45, 12, 6, 19, 133, 42] (fun v : Int => v) (fun h => nomatch h)).1⟩

end values

/-! ## `equal_of` -/

section equal

variable {α κ : Type}

theorem equal_of_loop_iff [DecidableEq κ] (f : α → κ) (x0 : α) (rest : List α) :
    equal_of_loop f x0 rest = true ↔ ∀ y ∈ rest, f y = f x0 := by
  induction rest with
  | nil => simp [equal_of_loop]
  | cons y rest ih =>
    simp only [equal_of_loop, List.mem_cons, forall_eq_or_imp]
    by_cases h : f y = f x0
    · simp [h, ih]
    · simp [h]

/-- C20: `equal_of` returns true exactly when any two elements of the range have the
same key; so it returns true on every empty range and every range of one element. -/
theorem equal_of_spec [DecidableEq κ] (l : List α) (f : α → κ) :
    (equal_of l f = true ↔ ∀ x ∈ l, ∀ y ∈ l, f x = f y) ∧
    equal_of ([] : List α) f = true ∧ ∀ x : α, equal_of [x] f = true := by
  refine ⟨?_, rfl, fun x => rfl⟩
  cases l with
  | nil => simp [equal_of]
  | cons x0 rest =>
    simp only [equal_of, equal_of_loop_iff]
    constructor
    · intro h x hx y hy
      have key : ∀ z ∈ x0 :: rest, f z = f x0 := by
        intro z hz
        rcases List.mem_cons.mp hz with hz | hz
        · rw [hz]
        · exact h z hz
      rw [key x hx, key y hy]
    · intro h y hy
      exact h y (List.mem_cons_of_mem _ hy) x0 (List.mem_cons_self _ _)

/-- Witness of C20: the four containers of the test, and a container whose first two
elements agree while a later one differs. -/
theorem equal_of_spec_witness :
    equal_of ([] : List Int) (fun v => v) = true ∧
    equal_of [(42 : Int)] (fun v => v) = true ∧
    equal_of [(23 : Int), 23] (fun v => v) = true ∧
    equal_of [(15 : Int), 16] (fun v => v) = false ∧
    equal_of [(7 : Int), 7, 8, 7] (fun v => v) = false ∧
    (equal_of [(23 : Int), 23] (fun v => v) = true ↔
      ∀ x ∈ [(23 : Int), 23], ∀ y ∈ [(23 : Int), 23], x = y) :=
  ⟨by decide, by decide, by decide, by decide, by decide,
    (equal_of_spec [(23 : Int), 23] (fun v => v)).1⟩

end equal

/-! ## `for_each_advance`, `for_each_it`, `for_each_it_advance` -/

section for_each

variable {α σ : Type}

theorem list_next_mid (pre rest : Nodes α) (n : Nat × α) (h : ∀ m ∈ pre, m.1 ≠ n.1) :
    list_next (pre ++ n :: rest) n.1 = some (list_begin rest) := by
  induction pre with
  | nil => simp [list_next]
  | cons m pre ih =>
    have h1 : m.1 ≠ n.1 := h m (List.mem_cons_self _ _)
    simp only [List.cons_append, list_next, if_neg h1]
    exact ih (fun k hk => h k (List.mem_cons_of_mem _ hk))

theorem list_deref_mid (pre rest : Nodes α) (n : Nat × α) (h : ∀ m ∈ pre, m.1 ≠ n.1) :
    list_deref (pre ++ n :: rest) n.1 = some n.2 := by
  induction pre with
  | nil => simp [list_deref]
  | cons m pre ih =>
    have h1 : m.1 ≠ n.1 := h m (List.mem_cons_self _ _)
    simp only [List.cons_append, list_deref, if_neg h1]
    exact ih (fun k hk => h k (List.mem_cons_of_mem _ hk))

theorem list_begin_cons (n : Nat × α) (rest : Nodes α) :
    list_begin (n :: rest) = some n.1 := rfl

theorem list_begin_ne (post : Nodes α) (a : Nat) (h : ∀ m ∈ post, a ≠ m.1) :
    (some a : Iter) ≠ list_begin post := by
  cases post with
  | nil => simp [list_begin]
  | cons m post =>
    simp only [list_begin, ne_eq, Option.some.injEq]
    exact h m (List.mem_cons_self _ _)

/-- The facts about the node `n` used by the loops, from the distinctness of the
identities. -/
theorem node_facts (pre mid post : Nodes α) (n : Nat × α)
    (h : (pre ++ (n :: mid ++ post)).Pairwise (fun a b => a.1 ≠ b.1)) :
    (∀ m ∈ pre, m.1 ≠ n.1) ∧ (some n.1 : Iter) ≠ list_begin post ∧
    ((pre ++ [n]) ++ (mid ++ post)).Pairwise (fun a b => a.1 ≠ b.1) := by
  refine ⟨?_, ?_, by simpa using h⟩
  · rw [List.pairwise_append] at h
    exact fun m hm => h.2.2 m hm n (List.mem_cons_self _ _)
  · rw [List.pairwise_append] at h
    have h1 := h.2.1
    simp only [List.cons_append, List.pairwise_cons] at h1
    exact list_begin_ne post n.1 (fun m hm => h1.1 m (List.mem_append_right _ hm))

theorem for_each_advance_fold (nodes : σ → Nodes α) (fn : α → σ → Option σ)
    (hfn : ∀ v s s1, fn v s = some s1 → nodes s1 = nodes s) (post : Nodes α) :
    ∀ (mid pre : Nodes α) (st : σ) (fuel : Nat), nodes st = pre ++ (mid ++ post) →
      (pre ++ (mid ++ post)).Pairwise (fun a b => a.1 ≠ b.1) → mid.length < fuel →
      for_each_advance nodes fn (list_begin post) fuel (list_begin (mid ++ post)) st
        = mid.foldlM (fun s n => fn n.2 s) st := by
  intro mid
  induction mid with
  | nil =>
    intro pre st fuel _ _ hf
    cases fuel with
    | zero => exact absurd hf (Nat.lt_irrefl 0)
    | succ k => simp [for_each_advance]
  | cons n mid ih =>
    intro pre st fuel hs hp hf
    cases fuel with
    | zero => exact absurd hf (Nat.not_lt_zero _)
    | succ k =>
      obtain ⟨h1, h2, h3⟩ := node_facts pre mid post n hp
      simp only [List.cons_append] at hs
      simp only [List.cons_append, list_begin_cons, for_each_advance, if_neg h2, hs,
        list_next_mid pre (mid ++ post) n h1, list_deref_mid pre (mid ++ post) n h1,
        List.foldlM_cons]
      cases hv : fn n.2 st with
      | none => rfl
      | some st1 =>
        have hk : mid.length < k := by simpa using hf
        have := ih (pre ++ [n]) st1 k (by rw [hfn _ _ _ hv, hs]; simp) h3 hk
        simpa using this

theorem for_each_it_fold (nodes : σ → Nodes α) (fn : Iter → σ → Option σ)
    (hfn : ∀ it s s1, fn it s = some s1 → nodes s1 = nodes s) (post : Nodes α) :
    ∀ (mid pre : Nodes α) (st : σ) (fuel : Nat), nodes st = pre ++ (mid ++ post) →
      (pre ++ (mid ++ post)).Pairwise (fun a b => a.1 ≠ b.1) → mid.length < fuel →
      for_each_it nodes fn (list_begin post) fuel (list_begin (mid ++ post)) st
        = mid.foldlM (fun s n => fn (some n.1) s) st := by
  intro mid
  induction mid with
  | nil =>
    intro pre st fuel _ _ hf
    cases fuel with
    | zero => exact absurd hf (Nat.lt_irrefl 0)
    | succ k => simp [for_each_it]
  | cons n mid ih =>
    intro pre st fuel hs hp hf
    cases fuel with
    | zero => exact absurd hf (Nat.not_lt_zero _)
    | succ k =>
      obtain ⟨h1, h2, h3⟩ := node_facts pre mid post n hp
      simp only [List.cons_append] at hs
      simp only [List.cons_append, list_begin_cons, for_each_it, if_neg h2,
        List.foldlM_cons]
      cases hv : fn (some n.1) st with
      | none => rfl
      | some st1 =>
        have hk : mid.length < k := by simpa using hf
        have hn : nodes st1 = pre ++ n :: (mid ++ post) := by rw [hfn _ _ _ hv, hs]
        have := ih (pre ++ [n]) st1 k (by rw [hn]; simp) h3 hk
        simp only [hn, list_next_mid pre (mid ++ post) n h1]
        simpa using this

theorem for_each_it_advance_fold (nodes : σ → Nodes α) (fn : Iter → σ → Option σ)
    (hfn : ∀ it s s1, fn it s = some s1 → nodes s1 = nodes s) (post : Nodes α) :
    ∀ (mid pre : Nodes α) (st : σ) (fuel : Nat), nodes st = pre ++ (mid ++ post) →
      (pre ++ (mid ++ post)).Pairwise (fun a b => a.1 ≠ b.1) → mid.length < fuel →
      for_each_it_advance nodes fn (list_begin post) fuel (list_begin (mid ++ post)) st
        = mid.foldlM (fun s n => fn (some n.1) s) st := by
  intro mid
  induction mid with
  | nil =>
    intro pre st fuel _ _ hf
    cases fuel with
    | zero => exact absurd hf (Nat.lt_irrefl 0)
    | succ k => simp [for_each_it_advance]
  | cons n mid ih =>
    intro pre st fuel hs hp hf
    cases fuel with
    | zero => exact absurd hf (Nat.not_lt_zero _)
    | succ k =>
      obtain ⟨h1, h2, h3⟩ := node_facts pre mid post n hp
      simp only [List.cons_append] at hs
      simp only [List.cons_append, list_begin_cons, for_each_it_advance, if_neg h2, hs,
        list_next_mid pre (mid ++ post) n h1, List.foldlM_cons]
      cases hv : fn (some n.1) st with
      | none => rfl
      | some st1 =>
        have hk : mid.length < k := by simpa using hf
        have := ih (pre ++ [n]) st1 k (by rw [hfn _ _ _ hv, hs]; simp) h3 hk
        simpa using this

/-- A fold of a function that always returns, returns. -/
theorem foldlM_isSome {β : Type} (f : σ → β → Option σ)
    (hf : ∀ s x, (f s x).isSome = true) (l : List β) (st : σ) :
    (l.foldlM f st).isSome = true := by
  induction l generalizing st with
  | nil => rfl
  | cons x l ih =>
    rw [List.foldlM_cons]
    cases hx : f st x with
    | none =>
      have := hf st x
      rw [hx] at this
      cases this
    | some s1 => exact ih s1

theorem list_deref_mem (ns : Nodes α) (hp : ns.Pairwise (fun a b => a.1 ≠ b.1))
    (n : Nat × α) (hn : n ∈ ns) : list_deref ns n.1 = some n.2 := by
  obtain ⟨pre, rest, rfl⟩ := List.append_of_mem hn
  rw [List.pairwise_append] at hp
  exact list_deref_mid pre rest n (fun m hm => hp.2.2 m hm n (List.mem_cons_self _ _))

theorem add_element_fold (ns : Nodes α) (mid : Nodes Int) (s0 : Int) :
    mid.foldlM (fun s n => add_element n.2 s) (ns, s0)
      = some (ns, s0 + (mid.map Prod.snd).sum) := by
  induction mid generalizing s0 with
  | nil => simp
  | cons n mid ih =>
    have e : add_element n.2 (ns, s0) = some (ns, s0 + n.2) := rfl
    rw [List.foldlM_cons, e]
    simp only [Option.some_bind, Option.bind_eq_bind]
    rw [ih, List.map_cons, List.sum_cons, add_assoc]

theorem add_pointed_fold (ns mid : Nodes Int) (s0 : Int)
    (h : ∀ n ∈ mid, list_deref ns n.1 = some n.2) :
    mid.foldlM (fun s n => add_pointed (some n.1) s) (ns, s0)
      = some (ns, s0 + (mid.map Prod.snd).sum) := by
  induction mid generalizing s0 with
  | nil => simp
  | cons n mid ih =>
    have e : add_pointed (some n.1) (ns, s0) = some (ns, s0 + n.2) := by
      simp only [add_pointed, h n (List.mem_cons_self _ _)]
    rw [List.foldlM_cons, e]
    simp only [Option.some_bind, Option.bind_eq_bind]
    rw [ih _ (fun m hm => h m (List.mem_cons_of_mem _ hm)), List.map_cons, List.sum_cons,
      add_assoc]

theorem add_pointed_nodes (it : Iter) (s s1 : Nodes Int × Int)
    (h : add_pointed it s = some s1) : s1.1 = s.1 := by
  unfold add_pointed at h
  split at h
  · cases h
  · split at h
    · simp only [Option.some.injEq] at h
      rw [← h]
    · cases h

/-- C22: for a range `[first, last)` of a container whose nodes are distinct, and a
function `fn` that does not modify the container, each of `for_each_advance`,
`for_each_it` and `for_each_it_advance` returns within `length + 1` loop tests and
applies `fn` once per position of the range, in order from `first` to `last`: to the
element for `for_each_advance`, to the iterator for the other two (the result is the
fold of `fn`, which returns whenever `fn` always returns).  The range overloads are the
begin/end overloads at `rg.begin()`, `rg.end()`, and folding a sum through `fn` yields
the sum of the elements. -/
theorem for_each_spec (nodes : σ → Nodes α) (st : σ) (pre mid post : Nodes α)
    (fuel : Nat) (hst : nodes st = pre ++ (mid ++ post))
    (hnd : ((nodes st).map Prod.fst).Nodup) (hfuel : mid.length < fuel) :
    (∀ fn : α → σ → Option σ, (∀ v s s1, fn v s = some s1 → nodes s1 = nodes s) →
      for_each_advance nodes fn (list_begin post) fuel (list_begin (mid ++ post)) st
        = mid.foldlM (fun s n => fn n.2 s) st ∧
      ((∀ v s, (fn v s).isSome = true) →
        (for_each_advance nodes fn (list_begin post) fuel (list_begin (mid ++ post))
          st).isSome = true)) ∧
    (∀ fn : Iter → σ → Option σ, (∀ it s s1, fn it s = some s1 → nodes s1 = nodes s) →
      for_each_it nodes fn (list_begin post) fuel (list_begin (mid ++ post)) st
        = mid.foldlM (fun s n => fn (some n.1) s) st ∧
      for_each_it_advance nodes fn (list_begin post) fuel (list_begin (mid ++ post)) st
        = mid.foldlM (fun s n => fn (some n.1) s) st ∧
      ((∀ it s, (fn it s).isSome = true) →
        (for_each_it nodes fn (list_begin post) fuel (list_begin (mid ++ post))
          st).isSome = true ∧
        (for_each_it_advance nodes fn (list_begin post) fuel (list_begin (mid ++ post))
          st).isSome = true)) ∧
    (∀ (fn : α → σ → Option σ) (k : Nat) (s : σ),
      for_each_advance_range nodes fn k s
        = for_each_advance nodes fn none k (list_begin (nodes s)) s) ∧
    (∀ (fn : Iter → σ → Option σ) (k : Nat) (s : σ),
      for_each_it_range nodes fn k s
        = for_each_it nodes fn none k (list_begin (nodes s)) s ∧
      for_each_it_advance_range nodes fn k s
        = for_each_it_advance nodes fn none k (list_begin (nodes s)) s) ∧
    (∀ (ns : Nodes Int) (s0 : Int) (k : Nat), (ns.map Prod.fst).Nodup → ns.length < k →
      for_each_advance_range Prod.fst add_element k (ns, s0)
        = some (ns, s0 + (ns.map Prod.snd).sum) ∧
      for_each_it_range Prod.fst add_pointed k (ns, s0)
        = some (ns, s0 + (ns.map Prod.snd).sum) ∧
      for_each_it_advance_range Prod.fst add_pointed k (ns, s0)
        = some (ns, s0 + (ns.map Prod.snd).sum)) := by
  have hp : (pre ++ (mid ++ post)).Pairwise (fun a b => a.1 ≠ b.1) := by
    rw [hst, List.Nodup, List.pairwise_map] at hnd
    exact hnd
  refine ⟨fun fn hfn => ?_, fun fn hfn => ?_, fun _ _ _ => rfl, fun _ _ _ => ⟨rfl, rfl⟩,
    fun ns s0 k hns hk => ?_⟩
  · have h := for_each_advance_fold nodes fn hfn post mid pre st fuel hst hp hfuel
    refine ⟨h, fun htot => ?_⟩
    rw [h]
    exact foldlM_isSome _ (fun s n => htot n.2 s) mid st
  · have h1 := for_each_it_fold nodes fn hfn post mid pre st fuel hst hp hfuel
    have h2 := for_each_it_advance_fold nodes fn hfn post mid pre st fuel hst hp hfuel
    refine ⟨h1, h2, fun htot => ?_⟩
    rw [h1, h2]
    exact ⟨foldlM_isSome _ (fun s n => htot (some n.1) s) mid st,
      foldlM_isSome _ (fun s n => htot (some n.1) s) mid st⟩
  · have hq : ([] ++ (ns ++ [])).Pairwise (fun (a b : Nat × Int) => a.1 ≠ b.1) := by
      rw [List.Nodup, List.pairwise_map] at hns
      simpa using hns
    have hq1 : ns.Pairwise (fun (a b : Nat × Int) => a.1 ≠ b.1) := by simpa using hq
    have e1 := for_each_advance_fold (Prod.fst : Nodes Int × Int → Nodes Int) add_element
      (fun v s s1 h => by simp only [add_element, Option.some.injEq] at h; rw [← h])
      [] ns [] (ns, s0) k (by simp) hq hk
    have e2 := for_each_it_fold (Prod.fst : Nodes Int × Int → Nodes Int) add_pointed
      add_pointed_nodes [] ns [] (ns, s0) k (by simp) hq hk
    have e3 := for_each_it_advance_fold (Prod.fst : Nodes Int × Int → Nodes Int)
      add_pointed add_pointed_nodes [] ns [] (ns, s0) k (by simp) hq hk
    rw [add_element_fold] at e1
    rw [add_pointed_fold ns ns s0 (fun n hn => list_deref_mem ns hq1 n hn)] at e2 e3
    simp only [List.append_nil] at e1 e2 e3
    exact ⟨e1, e2, e3⟩

/-- Witness of C22: the list `{ 1, 2, 3, 4, 5 }` of the tests, whose elements sum up
to 15. -/
theorem for_each_spec_witness :
    for_each_advance_range Prod.fst add_element 6
        (([(0, 1), (1, 2), (2, 3), (3, 4), (4, 5)] : Nodes Int), (0 : Int))
      = some ([(0, 1), (1, 2), (2, 3), (3, 4), (4, 5)], 15) ∧
    for_each_it_range Prod.fst add_pointed 6
        (([(0, 1), (1, 2), (2, 3), (3, 4), (4, 5)] : Nodes Int), (0 : Int))
      = some ([(0, 1), (1, 2), (2, 3), (3, 4), (4, 5)], 15) ∧
    for_each_it_advance_range Prod.fst add_pointed 6
        (([(0, 1), (1, 2), (2, 3), (3, 4), (4, 5)] : Nodes Int), (0 : Int))
      = some ([(0, 1), (1, 2), (2, 3), (3, 4), (4, 5)], 15) :=
  (for_each_spec (fun s : Nodes Int => s) [(0, 1), (1, 2), (2, 3), (3, 4), (4, 5)] []
    [(0, 1), (1, 2), (2, 3), (3, 4), (4, 5)] [] 6 rfl (by decide) (by decide)).2.2.2.2
    [(0, 1), (1, 2), (2, 3), (3, 4), (4, 5)] 0 6 (by decide) (by decide)

end for_each

/-! ## Erasing the visited element -/

section erase

variable {α : Type}

theorem list_erase_mid (kept rest : Nodes α) (n : Nat × α)
    (hp : (kept ++ n :: rest).Pairwise (fun a b => a.1 ≠ b.1)) :
    list_erase (kept ++ n :: rest) n.1 = kept ++ rest := by
  rw [List.pairwise_append, List.pairwise_cons] at hp
  obtain ⟨-, ⟨h2, -⟩, h3⟩ := hp
  unfold list_erase
  rw [List.filter_append, List.filter_cons]
  have e1 : kept.filter (fun m => decide (m.1 ≠ n.1)) = kept :=
    List.filter_eq_self.mpr (fun m hm => by simpa using h3 m hm n (List.mem_cons_self _ _))
  have e2 : rest.filter (fun m => decide (m.1 ≠ n.1)) = rest :=
    List.filter_eq_self.mpr (fun m hm => by simpa using fun h => h2 m hm h.symm)
  rw [e1, e2]
  simp

theorem find_eq_mid [DecidableEq α] (x : α) (kept rest : Nodes α) (n : Nat × α)
    (hk : ∀ m ∈ kept, m.2 ≠ x) (hn : n.2 = x) :
    find_eq x (kept ++ n :: rest) = some n.1 := by
  induction kept with
  | nil => simp [find_eq, hn]
  | cons m kept ih =>
    simp only [List.cons_append, find_eq, if_pos (hk m (List.mem_cons_self _ _))]
    exact ih (fun k hk1 => hk k (List.mem_cons_of_mem _ hk1))

theorem pairwise_drop_mid (kept rest : Nodes α) (n : Nat × α)
    (hp : (kept ++ n :: rest).Pairwise (fun a b => a.1 ≠ b.1)) :
    (kept ++ rest).Pairwise (fun a b => a.1 ≠ b.1) ∧
    ((kept ++ [n]) ++ rest).Pairwise (fun a b => a.1 ≠ b.1) ∧
    ∀ m ∈ kept, m.1 ≠ n.1 := by
  refine ⟨?_, by simpa using hp, ?_⟩
  · exact hp.sublist (List.Sublist.append_left (List.sublist_cons_self n rest) kept)
  · rw [List.pairwise_append] at hp
    exact fun m hm => hp.2.2 m hm n (List.mem_cons_self _ _)

theorem for_each_it_advance_erase [DecidableEq α] (x : α) :
    ∀ (rest kept : Nodes α) (log : List Iter) (fuel : Nat),
      (kept ++ rest).Pairwise (fun a b => a.1 ≠ b.1) → rest.length < fuel →
      for_each_it_advance Prod.fst (logged (erase_if_eq x)) none fuel (list_begin rest)
          (kept ++ rest, log)
        = some (kept ++ rest.filter (fun n => decide (n.2 ≠ x)),
            log ++ rest.map (fun n => some n.1)) := by
  intro rest
  induction rest with
  | nil =>
    intro kept log fuel _ hf
    cases fuel with
    | zero => exact absurd hf (Nat.lt_irrefl 0)
    | succ k => simp [for_each_it_advance, list_begin]
  | cons n rest ih =>
    intro kept log fuel hp hf
    cases fuel with
    | zero => exact absurd hf (Nat.not_lt_zero _)
    | succ k =>
      obtain ⟨h1, h2, h3⟩ := pairwise_drop_mid kept rest n hp
      have hk : rest.length < k := by simpa using hf
      have hne : (some n.1 : Iter) ≠ none := by simp
      simp only [list_begin_cons, for_each_it_advance, if_neg hne,
        list_next_mid kept rest n h3]
      by_cases hx : n.2 ≠ x
      · have e : logged (erase_if_eq x) (some n.1) (kept ++ n :: rest, log)
            = some ((kept ++ [n]) ++ rest, log ++ [some n.1]) := by
          simp [logged, erase_if_eq, list_deref_mid kept rest n h3, hx]
        rw [e]
        simp only
        rw [ih (kept ++ [n]) (log ++ [some n.1]) k h2 hk]
        simp [List.filter_cons, hx]
      · have e : logged (erase_if_eq x) (some n.1) (kept ++ n :: rest, log)
            = some (kept ++ rest, log ++ [some n.1]) := by
          simp [logged, erase_if_eq, list_deref_mid kept rest n h3, hx,
            list_erase_mid kept rest n hp]
        rw [e]
        simp only
        rw [ih kept (log ++ [some n.1]) k h1 hk]
        simp [List.filter_cons, hx]

theorem for_each_advance_erase [DecidableEq α] (x : α) :
    ∀ (rest kept : Nodes α) (log : List α) (fuel : Nat),
      (kept ++ rest).Pairwise (fun a b => a.1 ≠ b.1) → (∀ m ∈ kept, m.2 ≠ x) →
      rest.length < fuel →
      for_each_advance Prod.fst (logged (erase_first_eq x)) none fuel (list_begin rest)
          (kept ++ rest, log)
        = some (kept ++ rest.filter (fun n => decide (n.2 ≠ x)),
            log ++ rest.map Prod.snd) := by
  intro rest
  induction rest with
  | nil =>
    intro kept log fuel _ _ hf
    cases fuel with
    | zero => exact absurd hf (Nat.lt_irrefl 0)
    | succ k => simp [for_each_advance, list_begin]
  | cons n rest ih =>
    intro kept log fuel hp hkept hf
    cases fuel with
    | zero => exact absurd hf (Nat.not_lt_zero _)
    | succ k =>
      obtain ⟨h1, h2, h3⟩ := pairwise_drop_mid kept rest n hp
      have hk : rest.length < k := by simpa using hf
      have hne : (some n.1 : Iter) ≠ none := by simp
      simp only [list_begin_cons, for_each_advance, if_neg hne,
        list_next_mid kept rest n h3, list_deref_mid kept rest n h3]
      by_cases hx : n.2 ≠ x
      · have e : logged (erase_first_eq x) n.2 (kept ++ n :: rest, log)
            = some ((kept ++ [n]) ++ rest, log ++ [n.2]) := by
          simp [logged, erase_first_eq, hx]
        rw [e]
        simp only
        rw [ih (kept ++ [n]) (log ++ [n.2]) k h2
          (fun m hm => by
            rcases List.mem_append.mp hm with hm | hm
            · exact hkept m hm
            · rw [List.mem_singleton.mp hm]; exact hx) hk]
        simp [List.filter_cons, hx]
      · have hx1 : n.2 = x := not_not.mp hx
        have e : logged (erase_first_eq x) n.2 (kept ++ n :: rest, log)
            = some (kept ++ rest, log ++ [n.2]) := by
          simp [logged, erase_first_eq, hx1, find_eq_mid x kept rest n hkept hx1,
            list_erase_mid kept rest n hp]
        rw [e]
        simp only
        rw [ih kept (log ++ [n.2]) k h1 hkept hk]
        simp [List.filter_cons, hx]

/-- C23: for every list `l` (with distinct nodes) and value `x`, `for_each_it_advance`
over `l` with the function that erases the visited position when its element equals
`x`, and `for_each_advance` over `l` with the function that erases the first element
equal to `x` when the visited element equals `x`, return within `length + 1` loop
tests, apply the function to every original position (element) exactly once, in
order, and leave `l` equal to the original list without the elements equal to `x`, the
others in their original order. -/
theorem erase_while_visiting [DecidableEq α] (ns : Nodes α) (x : α) (fuel : Nat)
    (hnd : (ns.map Prod.fst).Nodup) (hfuel : ns.length < fuel) :
    for_each_it_advance Prod.fst (logged (erase_if_eq x)) none fuel (list_begin ns)
        (ns, [])
      = some (ns.filter (fun n => decide (n.2 ≠ x)), ns.map (fun n => some n.1)) ∧
    for_each_it_advance_range Prod.fst (logged (erase_if_eq x)) fuel (ns, [])
      = some (ns.filter (fun n => decide (n.2 ≠ x)), ns.map (fun n => some n.1)) ∧
    for_each_advance Prod.fst (logged (erase_first_eq x)) none fuel (list_begin ns)
        (ns, [])
      = some (ns.filter (fun n => decide (n.2 ≠ x)), ns.map Prod.snd) ∧
    for_each_advance_range Prod.fst (logged (erase_first_eq x)) fuel (ns, [])
      = some (ns.filter (fun n => decide (n.2 ≠ x)), ns.map Prod.snd) ∧
    (ns.filter (fun n => decide (n.2 ≠ x))).map Prod.snd
      = (ns.map Prod.snd).filter (fun v => decide (v ≠ x)) := by
  have hp : ([] ++ ns).Pairwise (fun (a b : Nat × α) => a.1 ≠ b.1) := by
    rw [List.Nodup, List.pairwise_map] at hnd
    simpa using hnd
  have h1 := for_each_it_advance_erase x ns [] [] fuel hp hfuel
  have h2 := for_each_advance_erase x ns [] [] fuel hp (fun m hm => by cases hm) hfuel
  simp only [List.nil_append] at h1 h2
  refine ⟨h1, h1, h2, h2, ?_⟩
  rw [List.filter_map]
  rfl

/-- Witness of C23: the test `l = { 1, 2, 3, 4, 5 }`, `x = 3`. -/
theorem erase_while_visiting_witness :
    for_each_it_advance Prod.fst (logged (erase_if_eq (3 : Int))) none 6
        (list_begin [(0, 1), (1, 2), (2, 3), (3, 4), (4, 5)])
        ([(0, 1), (1, 2), (2, 3), (3, 4), (4, 5)], [])
      = some ([(0, 1), (1, 2), (3, 4), (4, 5)], [some 0, some 1, some 2, some 3, some 4]) :=
  (erase_while_visiting [(0, 1), (1, 2), (2, 3), (3, 4), (4, 5)] (3 : Int) 6 (by decide)
    (by decide)).1

/-- Without advancing first the same function is not safe: `for_each_it` over
`{ 1, 2, 3, 4, 5 }` with the function that erases the visited position when its element
equals `3` increments an iterator to the erased node, which is undefined. -/
theorem for_each_it_erase_undefined :
    for_each_it_range Prod.fst (logged (erase_if_eq (3 : Int))) 6
        ([(0, 1), (1, 2), (2, 3), (3, 4), (4, 5)], []) = none := by
  decide

end erase

/-! ## `mean_stdv_of` -/

section mean_stdv

variable {α K : Type}

theorem mean_stdv_of_loop_eq [Field K] (f : α → K) :
    ∀ (l : List α) (s s2 : K) (n : Nat), n + l.length < ULONG_RANGE →
      mean_stdv_of_loop f l (s, s2, n)
        = (s + (l.map f).sum, s2 + (l.map (fun x => f x * f x)).sum, n + l.length) := by
  intro l
  induction l with
  | nil => intro s s2 n _; simp [mean_stdv_of_loop]
  | cons x l ih =>
    intro s s2 n h
    simp only [List.length_cons] at h
    have hn : (n + 1) % ULONG_RANGE = n + 1 := Nat.mod_eq_of_lt (by omega)
    simp only [mean_stdv_of_loop, hn]
    rw [ih _ _ _ (by omega)]
    simp only [List.map_cons, List.sum_cons, List.length_cons, add_assoc, Prod.mk.injEq,
      true_and]
    omega

/-- The sum of the squared deviations from `m`, in the form computed at line 397. -/
theorem sum_sq_dev [Field K] (f : α → K) (m : K) (l : List α) :
    (l.map (fun x => (f x - m) ^ 2)).sum
      = (l.map (fun x => f x * f x)).sum - (l.map f).sum * m * 2
        + m * m * (l.length : K) := by
  induction l with
  | nil => simp
  | cons x l ih =>
    simp only [List.map_cons, List.sum_cons, List.length_cons, Nat.cast_add, Nat.cast_one]
    rw [ih]
    ring

theorem sum_sq_dev_nonneg [LinearOrderedField K] (f : α → K) (m : K) (l : List α) :
    0 ≤ (l.map (fun x => (f x - m) ^ 2)).sum := by
  apply List.sum_nonneg
  intro y hy
  obtain ⟨x, -, rfl⟩ := List.mem_map.mp hy
  exact sq_nonneg _

/-- C21: over exact arithmetic, with `sqrt` a square root on the non-negative values,
for every sequence of `n` samples (`n` below the range of the counter) `mean_stdv_of`
executes no division by zero and returns `(0, 0)` for `n == 0`, `(k1, 0)` for `n == 1`,
the mean `(k1 + ... + kn) / n` for `n >= 1` and, for `n >= 2`, a standard deviation whose
square is the sample variance `sum_i (ki - mean)^2 / (n - 1)`. -/
theorem mean_stdv_of_spec [LinearOrderedField K] (sqrt : K → K)
    (hsqrt : ∀ x, 0 ≤ x → sqrt x * sqrt x = x) (l : List α) (f : α → K)
    (hlen : l.length < ULONG_RANGE) :
    ∃ mean stdv, mean_stdv_of sqrt l f = some (mean, stdv) ∧
      (l = [] → mean = 0 ∧ stdv = 0) ∧
      (∀ x, l = [x] → mean = f x ∧ stdv = 0) ∧
      (1 ≤ l.length → mean = (l.map f).sum / (l.length : K)) ∧
      (2 ≤ l.length →
        stdv * stdv
          = (l.map (fun x => (f x - mean) ^ 2)).sum / ((l.length : K) - 1)) := by
  have hloop := mean_stdv_of_loop_eq f l 0 0 0 (by omega)
  simp only [zero_add] at hloop
  unfold mean_stdv_of
  rw [hloop]
  simp only
  rcases Nat.lt_or_ge l.length 1 with h0 | h1
  · have hnil : l = [] := List.length_eq_zero.mp (by omega)
    subst hnil
    refine ⟨0, 0, (by simp), fun _ => ⟨rfl, rfl⟩, fun x hx => (by cases hx),
      fun h => (by simp at h), fun h => (by simp at h)⟩
  · have hN : (l.length : K) ≠ 0 := by
      have : (0 : K) < (l.length : K) := by exact_mod_cast h1
      exact ne_of_gt this
    have hmean : (if l.length > 0 then checked_div (l.map f).sum (l.length : K)
        else some 0) = some ((l.map f).sum / (l.length : K)) := by
      rw [if_pos (by omega)]
      simp only [checked_div, if_neg hN]
    rw [hmean]
    simp only
    rcases Nat.lt_or_ge l.length 2 with h2 | h2
    · have h1e : l.length = 1 := by omega
      obtain ⟨y, rfl⟩ := List.length_eq_one.mp h1e
      refine ⟨f y, 0, (by simp), fun h => (by cases h), fun x hx => ?_,
        fun _ => (by simp), fun h => (by simp at h)⟩
      simp only [List.cons.injEq, and_true] at hx
      subst hx
      exact ⟨rfl, rfl⟩
    · have hpred : (l.length + ULONG_RANGE - 1) % ULONG_RANGE = l.length - 1 := by
        have : l.length + ULONG_RANGE - 1 = (l.length - 1) + ULONG_RANGE := by omega
        rw [this, Nat.add_mod_right]
        exact Nat.mod_eq_of_lt (by omega)
      have hcast : ((l.length - 1 : Nat) : K) = (l.length : K) - 1 := by
        rw [Nat.cast_sub (by omega)]
        simp
      have hD : (l.length : K) - 1 ≠ 0 := by
        have : (1 : K) < (l.length : K) := by exact_mod_cast h2
        exact ne_of_gt (by linarith)
      have hDpos : (0 : K) < (l.length : K) - 1 := by
        have : (1 : K) < (l.length : K) := by exact_mod_cast h2
        linarith
      rw [if_pos (by omega), hpred, hcast]
      simp only [checked_div, if_neg hD]
      refine ⟨_, _, rfl, fun h => ?_, fun x hx => ?_, fun _ => rfl, fun _ => ?_⟩
      · subst h
        simp at h2
      · subst hx
        simp at h2
      · rw [← sum_sq_dev f ((l.map f).sum / (l.length : K)) l]
        exact hsqrt _ (div_nonneg (sum_sq_dev_nonneg f _ l) (le_of_lt hDpos))

/-- Witness of C21: the samples `{ 45, 12, 6, 19, 133, 42 }` of the tests over the real
numbers. -/
theorem mean_stdv_of_spec_witness :
    ∃ mean stdv,
      mean_stdv_of Real.sqrt [45, 12, 6, 19, 133, 42] (fun k : Nat => (k : ℝ))
        = some (mean, stdv) ∧
      mean = (([45, 12, 6, 19, 133, 42] : List Nat).map (fun k : Nat => (k : ℝ))).sum
        / (([45, 12, 6, 19, 133, 42] : List Nat).length : ℝ) ∧
      stdv * stdv
        = (([45, 12, 6, 19, 133, 42] : List Nat).map
            (fun k : Nat => ((k : ℝ) - mean) ^ 2)).sum
          / ((([45, 12, 6, 19, 133, 42] : List Nat).length : ℝ) - 1) := by
  obtain ⟨mean, stdv, h1, -, -, h4, h5⟩ :=
    mean_stdv_of_spec Real.sqrt (fun x hx => Real.mul_self_sqrt hx)
      [45, 12, 6, 19, 133, 42] (fun k : Nat => (k : ℝ)) (by decide)
  exact ⟨mean, stdv, h1, h4 (by decide), h5 (by decide)⟩

end mean_stdv

end algorithm_extra

namespace logsum

open cmath

/-! ## Initialisation of the lookup tables -/

section tables

/-- The loop of `p7_FLogsumInit` writes the entries from `i` on and no other. -/
theorem p7_FLogsumInit_loop_eq (A : Arith) :
    ∀ (k i : Nat) (table : Fin p7_LOGSUM_TBL → FP), p7_LOGSUM_TBL - i = k →
      p7_FLogsumInit_loop A table i
        = fun j => if i ≤ j.val then lookup_entry A j.val else table j := by
  intro k
  induction k with
  | zero =>
    intro i table hk
    rw [p7_FLogsumInit_loop, dif_neg (by omega)]
    funext j
    have hj := j.isLt
    rw [if_neg (by omega)]
  | succ k ih =>
    intro i table hk
    have hi : i < p7_LOGSUM_TBL := by omega
    rw [p7_FLogsumInit_loop, dif_pos hi, ih (i + 1) _ (by omega)]
    funext j
    by_cases h1 : i + 1 ≤ j.val
    · rw [if_pos h1, if_pos (by omega)]
    · rw [if_neg h1]
      by_cases h2 : i ≤ j.val
      · have hji : j = ⟨i, hi⟩ := Fin.ext (by simp only; omega)
        rw [if_pos h2, hji, Function.update_same]
      · rw [if_neg h2, Function.update_noteq]
        intro hji
        rw [hji] at h2
        exact h2 (Nat.le_refl _)

/-- The loop of `LogDiff_Helper::init` writes the entries from `i` on and no other. -/
theorem init_loop_eq (A : Arith) :
    ∀ (k i : Nat) (table : Fin logdiff.LOGDIFF_TBL → FP), logdiff.LOGDIFF_TBL - i = k →
      logdiff.init_loop A table i
        = fun j => if i ≤ j.val then logdiff.table_entry A j.val else table j := by
  intro k
  induction k with
  | zero =>
    intro i table hk
    rw [logdiff.init_loop, dif_neg (by omega)]
    funext j
    have hj := j.isLt
    rw [if_neg (by omega)]
  | succ k ih =>
    intro i table hk
    have hi : i < logdiff.LOGDIFF_TBL := by omega
    rw [logdiff.init_loop, dif_pos hi, ih (i + 1) _ (by omega)]
    funext j
    by_cases h1 : i + 1 ≤ j.val
    · rw [if_pos h1, if_pos (by omega)]
    · rw [if_neg h1]
      by_cases h2 : i ≤ j.val
      · have hji : j = ⟨i, hi⟩ := Fin.ext (by simp only; omega)
        rw [if_pos h2, hji, Function.update_same]
      · rw [if_neg h2, Function.update_noteq]
        intro hji
        rw [hji] at h2
        exact h2 (Nat.le_refl _)

/-- C24: a call of `p7_FLogsumInit` (resp. `LogDiff_Helper::init`) with the first-time
flag set returns success, writes every entry `i` of the table of 16000 entries with
`log(1 + exp(-i/1000))` (resp. `log(1 - exp(-i/1000))`) as computed by the arithmetic,
and clears the flag; a call with the flag cleared returns success and changes
nothing; so the first call from the start of the program initialises the table and
every later call, however many, leaves the table and the flag as the first call
left them. -/
theorem init_once (A : Arith) :
    p7_LOGSUM_TBL = 16000 ∧ logdiff.LOGDIFF_TBL = 16000 ∧
    (∀ s : Statics, s.firsttime ≠ 0 →
      p7_FLogsumInit A s
        = (eslOK, { firsttime := FALSE, _flogsum_lookup := fun j => lookup_entry A j.val,
                    _init := s._init })) ∧
    (∀ s : Statics, s.firsttime = 0 → p7_FLogsumInit A s = (eslOK, s)) ∧
    (∀ s : Statics, p7_FLogsumInit A (p7_FLogsumInit A s).2
      = (eslOK, (p7_FLogsumInit A s).2)) ∧
    (∀ n : Nat, (fun s => (p7_FLogsumInit A s).2)^[n + 1] Statics.start
      = { firsttime := FALSE, _flogsum_lookup := fun j => lookup_entry A j.val,
          _init := false }) ∧
    (∀ s : logdiff.Statics, s.first_time = true →
      logdiff.init A s
        = (true, { first_time := false, _table := fun j => logdiff.table_entry A j.val,
                   _init := s._init })) ∧
    (∀ s : logdiff.Statics, s.first_time = false → logdiff.init A s = (true, s)) ∧
    (∀ s : logdiff.Statics, logdiff.init A (logdiff.init A s).2
      = (true, (logdiff.init A s).2)) ∧
    (∀ n : Nat, (fun s => (logdiff.init A s).2)^[n + 1] logdiff.Statics.start
      = { first_time := false, _table := fun j => logdiff.table_entry A j.val,
          _init := false }) := by
  have h1 : ∀ s : Statics, s.firsttime ≠ 0 →
      p7_FLogsumInit A s
        = (eslOK, { firsttime := FALSE, _flogsum_lookup := fun j => lookup_entry A j.val,
                    _init := s._init }) := by
    intro s hs
    unfold p7_FLogsumInit
    rw [if_neg hs, p7_FLogsumInit_loop_eq A _ 0 _ rfl]
    simp
  have h2 : ∀ s : Statics, s.firsttime = 0 → p7_FLogsumInit A s = (eslOK, s) := by
    intro s hs
    unfold p7_FLogsumInit
    rw [if_pos hs]
  have h3 : ∀ s : Statics, (p7_FLogsumInit A s).2.firsttime = 0 := by
    intro s
    by_cases hs : s.firsttime = 0
    · rw [h2 s hs]
      exact hs
    · rw [h1 s hs]
      rfl
  have g1 : ∀ s : logdiff.Statics, s.first_time = true →
      logdiff.init A s
        = (true, { first_time := false, _table := fun j => logdiff.table_entry A j.val,
                   _init := s._init }) := by
    intro s hs
    unfold logdiff.init
    rw [hs, init_loop_eq A _ 0 _ rfl]
    simp
  have g2 : ∀ s : logdiff.Statics, s.first_time = false → logdiff.init A s = (true, s) := by
    intro s hs
    unfold logdiff.init
    rw [hs]
    rfl
  have g3 : ∀ s : logdiff.Statics, (logdiff.init A s).2.first_time = false := by
    intro s
    cases hs : s.first_time
    · rw [g2 s hs]
      exact hs
    · rw [g1 s hs]
  refine ⟨rfl, rfl, h1, h2, fun s => h2 _ (h3 s), fun n => ?_, g1, g2,
    fun s => g2 _ (g3 s), fun n => ?_⟩
  · induction n with
    | zero =>
      simp only [Function.iterate_succ, Function.iterate_zero, Function.comp_apply, id_eq]
      rw [h1 Statics.start (by decide)]
      rfl
    | succ n ih =>
      rw [Function.iterate_succ_apply', ih, h2 _ rfl]
  · induction n with
    | zero =>
      simp only [Function.iterate_succ, Function.iterate_zero, Function.comp_apply, id_eq]
      rw [g1 logdiff.Statics.start rfl]
      rfl
    | succ n ih =>
      rw [Function.iterate_succ_apply', ih, g2 _ rfl]

/-- Witness of C24: the first call from the start of the program, then a second call. -/
theorem init_once_witness :
    p7_FLogsumInit first_arg Statics.start
      = (eslOK, { firsttime := FALSE,
                  _flogsum_lookup := fun j => lookup_entry first_arg j.val,
                  _init := Statics.start._init }) ∧
    p7_FLogsumInit first_arg (p7_FLogsumInit first_arg Statics.start).2
      = (eslOK, (p7_FLogsumInit first_arg Statics.start).2) ∧
    logdiff.init first_arg logdiff.Statics.start
      = (true, { first_time := false,
                 _table := fun j => logdiff.table_entry first_arg j.val,
                 _init := logdiff.Statics.start._init }) :=
  ⟨(init_once first_arg).2.2.1 Statics.start (by decide),
    (init_once first_arg).2.2.2.2.1 Statics.start,
    (init_once first_arg).2.2.2.2.2.2.1 logdiff.Statics.start rfl⟩

end tables

/-! ## `p7_FLogsum` and minus infinity -/

section neg_inf

/-- C25: for every `a` that is neither `+infinity` nor a NaN, `a = -infinity` included,
`p7_FLogsum(a, -infinity)` and `p7_FLogsum(-infinity, a)` return `a` and read no table
entry, whatever the rounding operations compute and whatever `int` the conversion of
line 151 yields (it is evaluated, on an infinite or NaN product, before the test of
line 152). -/
theorem flogsum_neg_inf (A : Arith) (s : Statics) (a : FP) (h1 : a ≠ FP.nan)
    (h2 : a ≠ FP.pos_inf) :
    (p7_FLogsum A s a FP.neg_inf).value = some a ∧
    (p7_FLogsum A s a FP.neg_inf).reads = [] ∧
    (p7_FLogsum A s FP.neg_inf a).value = some a ∧
    (p7_FLogsum A s FP.neg_inf a).reads = [] := by
  have hmax1 : ESL_MAX a FP.neg_inf = a := by
    cases a <;> simp [ESL_MAX, FP.gt, FP.lt, FP.rank] at h1 h2 ⊢
  have hmin1 : ESL_MIN a FP.neg_inf = FP.neg_inf := by
    cases a <;> simp [ESL_MIN, FP.lt, FP.rank] at h1 h2 ⊢
  have hmax2 : ESL_MAX FP.neg_inf a = a := by
    cases a <;> simp [ESL_MAX, FP.gt, FP.lt, FP.rank] at h1 h2 ⊢
  have hmin2 : ESL_MIN FP.neg_inf a = FP.neg_inf := by
    cases a <;> simp [ESL_MIN, FP.lt, FP.rank] at h1 h2 ⊢
  have heq : FP.eq FP.neg_inf FP.neg_inf = true := by decide
  simp only [p7_FLogsum, hmax1, hmin1, hmax2, hmin2, heq, Bool.true_or, if_true,
    and_self]

/-- Witness of C25: `a = -1.5` and `a = -infinity`, from the start of the program. -/
theorem flogsum_neg_inf_witness :
    ((p7_FLogsum first_arg Statics.start (FP.finite (-3 / 2)) FP.neg_inf).value
        = some (FP.finite (-3 / 2)) ∧
      (p7_FLogsum first_arg Statics.start (FP.finite (-3 / 2)) FP.neg_inf).reads = [] ∧
      (p7_FLogsum first_arg Statics.start FP.neg_inf (FP.finite (-3 / 2))).value
        = some (FP.finite (-3 / 2)) ∧
      (p7_FLogsum first_arg Statics.start FP.neg_inf (FP.finite (-3 / 2))).reads = []) ∧
    (p7_FLogsum first_arg Statics.start FP.neg_inf FP.neg_inf).value = some FP.neg_inf :=
  ⟨flogsum_neg_inf first_arg Statics.start (FP.finite (-3 / 2)) (by decide) (by decide),
    (flogsum_neg_inf first_arg Statics.start FP.neg_inf (by decide) (by decide)).1⟩

end neg_inf

/-! ## The constructor of `logsumset` from a range -/

section range_constructor

theorem range_loop_stuck (A : Arith) (rg : List FP) (it it_end : Nat) (h : it ≠ it_end) :
    ∀ (fuel : Nat) (st : Statics × logsumset),
      logsumset.range_loop A rg it it_end fuel st = none := by
  intro fuel
  induction fuel with
  | zero => intro st; rfl
  | succ k ih =>
    intro st
    simp only [logsumset.range_loop, if_pos h]
    cases rg[it]? with
    | none => rfl
    | some v =>
      simp only
      cases logsumset.add A st v with
      | none => rfl
      | some st1 => exact ih st1

/-- C30, as the code behaves: the loop of the constructor from an iterator range never
advances `it`, so for every non-empty range the constructor does not return, whatever
the number of iterations allowed, whereas adding each element once to the empty
`logsumset` with `use_set` set returns; for an empty range the constructor returns
the empty `logsumset`. -/
theorem range_constructor_diverges (A : Arith) (g : Statics) (rg : List FP)
    (use_set : Bool) (fuel : Nat) (h : rg ≠ []) :
    logsumset.of_range A g rg use_set fuel = none ∧
    (logsumset.spec_add_each A g rg true).isSome = true ∧
    logsumset.of_range A g [] use_set (fuel + 1) = some (g, logsumset.init use_set) ∧
    logsumset.spec_add_each A g [] use_set = some (g, logsumset.init use_set) := by
  have hlen : 0 ≠ rg.length := by
    intro h0
    exact h (List.length_eq_zero.mp h0.symm)
  refine ⟨range_loop_stuck A rg 0 rg.length hlen fuel _, ?_, rfl, rfl⟩
  unfold logsumset.spec_add_each
  have hset : ∀ (l : List FP) (st : Statics × logsumset), st.2._use_set = true →
      (l.foldlM (logsumset.add A) st).isSome = true := by
    intro l
    induction l with
    | nil => intro st _; rfl
    | cons v l ih =>
      intro st hst
      rw [List.foldlM_cons]
      simp only [logsumset.add, hst, if_true, Option.some_bind, Option.bind_eq_bind]
      exact ih _ rfl
  exact hset rg _ rfl

/-- Witness of C30 as the code behaves: the range `{ 1.0 }`. -/
theorem range_constructor_diverges_witness :
    logsumset.of_range first_arg Statics.start [FP.finite 1] false 1000 = none ∧
    (logsumset.spec_add_each first_arg Statics.start [FP.finite 1] true).isSome = true :=
  ⟨(range_constructor_diverges first_arg Statics.start [FP.finite 1] false 1000
      (by decide)).1,
    (range_constructor_diverges first_arg Statics.start [FP.finite 1] false 1000
      (by decide)).2.1⟩

end range_constructor

end logsum
